import Mathlib

/-!
# Verification of the `parge` lexer-generator core (`src/lexer.rs`, `src/rules.rs`)

Shallow embedding of the regex→NFA→DFA pipeline of the `parge` lexer
generator, together with proofs and refutations of the specified claims.

Conventions of the embedding:
* Rust `char` is Lean `Char` (both are exactly the Unicode scalar values).
* Rust `u32` values are Lean `Nat`; the one place where `u32` subtraction
  can underflow (`point - 1` in `construct_alphabet`) is modelled by
  returning `none` (the underflow is a panic in overflow-checked builds).
* `BTreeSet` is modelled as a strictly sorted list, built with sorted
  insertion (`btInsertNat` / `btInsertCC` / `btInsertPP`); iterating a
  `BTreeSet` is iterating that list.
* Fallible code (`unwrap`, slice indexing, `assert!`, `panic!`) is
  modelled with `Option`: `none` is a panic.
-/

namespace Parge

/-- `char::MAX as u32` in the Rust source: the largest Unicode scalar value. -/
def MAX_CODEPOINT : Nat := 1114111

/-- Strict lexicographic order on pairs of naturals, the order `BTreeSet<(u32, u32)>`
uses for its elements. -/
def pairLt (x y : Nat × Nat) : Prop := x.1 < y.1 ∨ (x.1 = y.1 ∧ x.2 < y.2)

instance : DecidableRel pairLt := fun x y => by unfold pairLt; infer_instance

/-- Sorted-insert into a strictly sorted list of naturals: the model of
`BTreeSet<u32>::insert`. -/
def btInsertNat (x : Nat) : List Nat → List Nat
  | [] => [x]
  | y :: l => if x = y then y :: l else if x < y then x :: y :: l else y :: btInsertNat x l

/-- Sorted-insert into a strictly sorted list of pairs of naturals: the model of
`BTreeSet<(u32, u32)>::insert`. -/
def btInsertPP (x : Nat × Nat) : List (Nat × Nat) → List (Nat × Nat)
  | [] => [x]
  | y :: l => if x = y then y :: l else if pairLt x y then x :: y :: l else y :: btInsertPP x l

/-- Strict lexicographic order on pairs of characters (Rust derives `Ord` on
`(char, char)` from the code-point order). -/
def charPairLt (x y : Char × Char) : Prop :=
  x.1.toNat < y.1.toNat ∨ (x.1.toNat = y.1.toNat ∧ x.2.toNat < y.2.toNat)

instance : DecidableRel charPairLt := fun x y => by unfold charPairLt; infer_instance

/-- Sorted-insert into a strictly sorted list of pairs of characters: the model of
`BTreeSet<(char, char)>::insert`. -/
def btInsertCC (x : Char × Char) : List (Char × Char) → List (Char × Char)
  | [] => [x]
  | y :: l => if x = y then y :: l else if charPairLt x y then x :: y :: l else y :: btInsertCC x l

theorem mem_btInsertNat {a x : Nat} {l : List Nat} :
    a ∈ btInsertNat x l ↔ a = x ∨ a ∈ l := by
  induction l with
  | nil => simp [btInsertNat]
  | cons y l ih =>
    by_cases hxy : x = y
    · subst hxy; simp [btInsertNat] <;> tauto
    · by_cases hlt : x < y
      · simp [btInsertNat, hxy, hlt] <;> tauto
      · simp [btInsertNat, hxy, hlt, ih] <;> tauto

theorem mem_btInsertPP {a x : Nat × Nat} {l : List (Nat × Nat)} :
    a ∈ btInsertPP x l ↔ a = x ∨ a ∈ l := by
  induction l with
  | nil => simp [btInsertPP]
  | cons y l ih =>
    by_cases hxy : x = y
    · subst hxy; simp [btInsertPP] <;> tauto
    · by_cases hlt : pairLt x y
      · simp [btInsertPP, hxy, hlt] <;> tauto
      · simp [btInsertPP, hxy, hlt, ih] <;> tauto

theorem mem_btInsertCC {a x : Char × Char} {l : List (Char × Char)} :
    a ∈ btInsertCC x l ↔ a = x ∨ a ∈ l := by
  induction l with
  | nil => simp [btInsertCC]
  | cons y l ih =>
    by_cases hxy : x = y
    · subst hxy; simp [btInsertCC] <;> tauto
    · by_cases hlt : charPairLt x y
      · simp [btInsertCC, hxy, hlt] <;> tauto
      · simp [btInsertCC, hxy, hlt, ih] <;> tauto

theorem pairLt_trans {x y z : Nat × Nat} (h1 : pairLt x y) (h2 : pairLt y z) : pairLt x z := by
  rcases h1 with h1 | ⟨h1a, h1b⟩ <;> rcases h2 with h2 | ⟨h2a, h2b⟩ <;>
    simp only [pairLt] <;> omega

theorem pairLt_irrefl {x : Nat × Nat} : ¬ pairLt x x := by simp [pairLt]

theorem sorted_btInsertNat {x : Nat} {l : List Nat} (h : l.Pairwise (· < ·)) :
    (btInsertNat x l).Pairwise (· < ·) := by
  induction l with
  | nil => simp [btInsertNat]
  | cons y l ih =>
    rcases List.pairwise_cons.mp h with ⟨hy, hl⟩
    by_cases hxy : x = y
    · subst hxy; simpa [btInsertNat] using h
    · by_cases hlt : x < y
      · simp only [btInsertNat, hxy, if_false, hlt, if_true]
        refine List.pairwise_cons.mpr ⟨?_, h⟩
        intro a ha
        rcases List.mem_cons.mp ha with rfl | ha
        · exact hlt
        · exact lt_trans hlt (hy a ha)
      · simp only [btInsertNat, hxy, if_false, hlt, if_true]
        refine List.pairwise_cons.mpr ⟨?_, ih hl⟩
        intro a ha
        rcases mem_btInsertNat.mp ha with rfl | ha
        · omega
        · exact hy a ha

theorem sorted_btInsertPP {x : Nat × Nat} {l : List (Nat × Nat)} (h : l.Pairwise pairLt) :
    (btInsertPP x l).Pairwise pairLt := by
  induction l with
  | nil => simp [btInsertPP]
  | cons y l ih =>
    rcases List.pairwise_cons.mp h with ⟨hy, hl⟩
    by_cases hxy : x = y
    · subst hxy; simpa [btInsertPP] using h
    · by_cases hlt : pairLt x y
      · simp only [btInsertPP, hxy, if_false, hlt, if_true]
        refine List.pairwise_cons.mpr ⟨?_, h⟩
        intro a ha
        rcases List.mem_cons.mp ha with rfl | ha
        · exact hlt
        · exact pairLt_trans hlt (hy a ha)
      · have hyx : pairLt y x := by
          rcases Nat.lt_trichotomy x.1 y.1 with h1 | h1 | h1
          · exact absurd (Or.inl h1) hlt
          · rcases Nat.lt_trichotomy x.2 y.2 with h2 | h2 | h2
            · exact absurd (Or.inr ⟨h1, h2⟩) hlt
            · exact absurd (Prod.ext h1 h2) hxy
            · exact Or.inr ⟨h1.symm, h2⟩
          · exact Or.inl h1
        simp only [btInsertPP, hxy, if_false, hlt, if_true]
        refine List.pairwise_cons.mpr ⟨?_, ih hl⟩
        intro a ha
        rcases mem_btInsertPP.mp ha with rfl | ha
        · exact hyx
        · exact hy a ha

/-! ## Data model (`src/rules.rs`): elements and rules -/

/-- The regular-expression AST `Element` of `src/rules.rs`. -/
inductive Element where
  | rule (var : Option String) (name : String)
  | set (chars : List Char) (ranges : List (Char × Char))
  | negatedSet (chars : List Char) (ranges : List (Char × Char))
  | literal (lit : List Char)
  | oneOrMore (inner : Element)
  | zeroOrMore (inner : Element)
  | optional (inner : Element)
  | alternatives (subelems : List Element)
  | group (subelems : List Element)

/-- The `Rule` record of `src/rules.rs` (`export` is a Lean keyword, hence
`exportRule`). -/
structure Rule where
  is_terminal : Bool
  exportRule : Bool
  name : String
  element : Element
  constructor_name : Option String
  constructor_vars : Option (List String)

/-! ## Alphabet builder (`construct_alphabet`, `get_ranges_from_element`) -/

mutual
/-- `get_ranges_from_element` of `src/lexer.rs`: collect every literal
character and set/negated-set character or range as a `(char, char)` pair into
a `BTreeSet`.  The catch-all arm of the Rust `match` (hit by `Element::Rule`)
is a `panic!()`, modelled as `none`. -/
def get_ranges_from_element : Element → List (Char × Char) → Option (List (Char × Char))
  | .set chars ranges, acc =>
      some (ranges.foldl (fun a r => btInsertCC r a)
        (chars.foldl (fun a c => btInsertCC (c, c) a) acc))
  | .negatedSet chars ranges, acc =>
      some (ranges.foldl (fun a r => btInsertCC r a)
        (chars.foldl (fun a c => btInsertCC (c, c) a) acc))
  | .literal lit, acc => some (lit.foldl (fun a c => btInsertCC (c, c) a) acc)
  | .oneOrMore inner, acc => get_ranges_from_element inner acc
  | .zeroOrMore inner, acc => get_ranges_from_element inner acc
  | .optional inner, acc => get_ranges_from_element inner acc
  | .alternatives subelems, acc => get_ranges_from_list subelems acc
  | .group subelems, acc => get_ranges_from_list subelems acc
  | .rule _ _, _ => none

/-- The `for elem in subelems` loops of `get_ranges_from_element`. -/
def get_ranges_from_list : List Element → List (Char × Char) → Option (List (Char × Char))
  | [], acc => some acc
  | e :: es, acc => do get_ranges_from_list es (← get_ranges_from_element e acc)
end

/-- The interval-emitting loop of `construct_alphabet`: `prev` starts at `0`;
for each break point `point` insert `(prev, prev)`, the gap
`(prev+1, point-1)` when non-empty, and `(point, point)`; afterwards insert
the final gap up to `char::MAX`.  The `u32` subtraction `point - 1`
underflows when `point = 0` (a panic in overflow-checked builds), modelled by
`none`. -/
def alphaLoop : Nat → List Nat → List (Nat × Nat) → Option (List (Nat × Nat))
  | prev, [], acc =>
      some (if prev + 1 ≤ MAX_CODEPOINT then btInsertPP (prev + 1, MAX_CODEPOINT) acc else acc)
  | prev, point :: points, acc =>
      if point = 0 then none
      else
        let acc := btInsertPP (prev, prev) acc
        let acc := if prev + 1 ≤ point - 1 then btInsertPP (prev + 1, point - 1) acc else acc
        alphaLoop point points (btInsertPP (point, point) acc)

/-- The break points of `construct_alphabet`: both endpoints of every raw
range, deduplicated and sorted ascending (`BTreeSet<u32>`). -/
def rangePoints (raw : List (Char × Char)) : List Nat :=
  raw.foldl (fun acc p => btInsertNat p.2.toNat (btInsertNat p.1.toNat acc)) []

/-- `construct_alphabet` of `src/lexer.rs`. -/
def construct_alphabet (rules : List Rule) : Option (List (Nat × Nat)) := do
  let raw ← rules.foldlM (fun acc r => get_ranges_from_element r.element acc) []
  alphaLoop 0 (rangePoints raw) []

/-! ## Properties of the alphabet builder -/

theorem char_toNat_le_max (c : Char) : c.toNat ≤ MAX_CODEPOINT := by
  have h := c.valid
  unfold UInt32.isValidChar Nat.isValidChar at h
  rcases h with h | ⟨h1, h2⟩
  · have : c.val.toNat < 55296 := UInt32.toNat_lt_of_lt (by decide) h
    simp only [Char.toNat, MAX_CODEPOINT]; omega
  · have : c.val.toNat < 1114112 := UInt32.toNat_lt_of_lt (by decide) h2
    simp only [Char.toNat, MAX_CODEPOINT]; omega

/-- The set of intervals inserted by `alphaLoop prev pts` (beyond its
accumulator), as a predicate. -/
def AlphaMem : Nat → List Nat → Nat × Nat → Prop
  | prev, [], x => prev + 1 ≤ MAX_CODEPOINT ∧ x = (prev + 1, MAX_CODEPOINT)
  | prev, p :: ps, x =>
      x = (prev, prev) ∨ (prev + 1 ≤ p - 1 ∧ x = (prev + 1, p - 1)) ∨ x = (p, p) ∨
        AlphaMem p ps x

theorem alphaLoop_points_ne_zero {prev : Nat} {pts : List Nat} {acc out : List (Nat × Nat)}
    (h : alphaLoop prev pts acc = some out) : ∀ p ∈ pts, p ≠ 0 := by
  induction pts generalizing prev acc with
  | nil => intro p hp; cases hp
  | cons q ps ih =>
    intro p hp
    by_cases hq : q = 0
    · simp [alphaLoop, hq] at h
    · simp only [alphaLoop, hq, if_false] at h
      rcases List.mem_cons.mp hp with rfl | hp
      · exact hq
      · exact ih h p hp

theorem alphaLoop_mem {prev : Nat} {pts : List Nat} {acc out : List (Nat × Nat)}
    (h : alphaLoop prev pts acc = some out) :
    ∀ x, x ∈ out ↔ x ∈ acc ∨ AlphaMem prev pts x := by
  induction pts generalizing prev acc with
  | nil =>
    intro x
    simp only [alphaLoop, Option.some_inj] at h
    subst h
    by_cases hle : prev + 1 ≤ MAX_CODEPOINT
    · simp [hle, mem_btInsertPP, AlphaMem]; tauto
    · simp [hle, AlphaMem]
  | cons q ps ih =>
    intro x
    by_cases hq : q = 0
    · simp [alphaLoop, hq] at h
    · simp only [alphaLoop, hq, if_false] at h
      have := ih h x
      rw [this]
      by_cases hgap : prev + 1 ≤ q - 1
      · simp only [hgap, if_true, mem_btInsertPP, AlphaMem]
        tauto
      · simp only [hgap, if_false, mem_btInsertPP, AlphaMem]
        tauto

theorem alphaLoop_sorted {prev : Nat} {pts : List Nat} {acc out : List (Nat × Nat)}
    (h : alphaLoop prev pts acc = some out) (hacc : acc.Pairwise pairLt) :
    out.Pairwise pairLt := by
  induction pts generalizing prev acc with
  | nil =>
    simp only [alphaLoop, Option.some_inj] at h
    subst h
    by_cases hle : prev + 1 ≤ MAX_CODEPOINT
    · simpa [hle] using sorted_btInsertPP hacc
    · simpa [hle] using hacc
  | cons q ps ih =>
    by_cases hq : q = 0
    · simp [alphaLoop, hq] at h
    · simp only [alphaLoop, hq, if_false] at h
      by_cases hgap : prev + 1 ≤ q - 1
      · simp only [hgap, if_true] at h
        exact ih h (sorted_btInsertPP (sorted_btInsertPP (sorted_btInsertPP hacc)))
      · simp only [hgap, if_false] at h
        exact ih h (sorted_btInsertPP (sorted_btInsertPP hacc))

/-- Every interval emitted for `(prev, pts)` is either the singleton
`(prev, prev)` or lies entirely above `prev`. -/
theorem alphaMem_low_bound {prev : Nat} {pts : List Nat} (hgt : ∀ p ∈ pts, prev < p)
    (hsort : pts.Pairwise (· < ·)) :
    ∀ x, AlphaMem prev pts x → x = (prev, prev) ∨ prev + 1 ≤ x.1 := by
  induction pts generalizing prev with
  | nil =>
    intro x hx
    rcases hx with ⟨h1, rfl⟩
    right; omega
  | cons q ps ih =>
    intro x hx
    have hq : prev < q := hgt q (List.mem_cons_self _ _)
    rcases hx with rfl | ⟨h1, rfl⟩ | rfl | hx
    · left; rfl
    · right; omega
    · right; omega
    · have hps : ∀ p ∈ ps, q < p := fun p hp => (List.pairwise_cons.mp hsort).1 p hp
      rcases ih hps (List.pairwise_cons.mp hsort).2 x hx with rfl | hlo
      · right; omega
      · right; omega

theorem alphaMem_hi_le_max {prev : Nat} {pts : List Nat} (hmax : ∀ p ∈ pts, p ≤ MAX_CODEPOINT)
    (hprev : prev ≤ MAX_CODEPOINT) :
    ∀ x, AlphaMem prev pts x → x.1 ≤ x.2 ∧ x.2 ≤ MAX_CODEPOINT := by
  induction pts generalizing prev with
  | nil =>
    intro x hx
    rcases hx with ⟨h1, rfl⟩
    exact ⟨by omega, le_refl _⟩
  | cons q ps ih =>
    intro x hx
    have hq : q ≤ MAX_CODEPOINT := hmax q (List.mem_cons_self _ _)
    rcases hx with rfl | ⟨h1, rfl⟩ | rfl | hx
    · exact ⟨le_refl _, hprev⟩
    · exact ⟨h1, by omega⟩
    · exact ⟨le_refl _, hq⟩
    · exact ih (fun p hp => hmax p (List.mem_cons_of_mem _ hp)) hq x hx

/-- The emitted intervals are pairwise disjoint. -/
theorem alphaMem_disjoint {prev : Nat} {pts : List Nat} (hgt : ∀ p ∈ pts, prev < p)
    (hsort : pts.Pairwise (· < ·)) :
    ∀ x y, AlphaMem prev pts x → AlphaMem prev pts y → x ≠ y →
      x.2 < y.1 ∨ y.2 < x.1 := by
  induction pts generalizing prev with
  | nil =>
    intro x y hx hy hne
    exact absurd (hx.2.trans hy.2.symm) hne
  | cons q ps ih =>
    intro x y hx hy hne
    have hq : prev < q := hgt q (List.mem_cons_self _ _)
    have hps : ∀ p ∈ ps, q < p := fun p hp => (List.pairwise_cons.mp hsort).1 p hp
    have hps' : ps.Pairwise (· < ·) := (List.pairwise_cons.mp hsort).2
    have hlow := alphaMem_low_bound hps hps'
    -- helper: the three head intervals against a recursive-member interval
    have hrec : ∀ z, AlphaMem q ps z → z = (q, q) ∨ q + 1 ≤ z.1 := hlow
    rcases hx with rfl | ⟨hg1, rfl⟩ | rfl | hx <;>
      rcases hy with rfl | ⟨hg2, rfl⟩ | rfl | hy
    · exact absurd rfl hne
    · left; simp <;> omega
    · left; simp <;> omega
    · rcases hrec y hy with rfl | hlo
      · left; simp <;> omega
      · left; simpa using by omega
    · right; simp <;> omega
    · exact absurd rfl hne
    · left; simp <;> omega
    · rcases hrec y hy with rfl | hlo
      · left; simp <;> omega
      · left; simpa using by omega
    · right; simp <;> omega
    · right; simp <;> omega
    · exact absurd rfl hne
    · rcases hrec y hy with rfl | hlo
      · exact absurd rfl hne
      · left; simpa using by omega
    · rcases hrec x hx with rfl | hlo
      · right; simp <;> omega
      · right; simpa using by omega
    · rcases hrec x hx with rfl | hlo
      · right; simp <;> omega
      · right; simpa using by omega
    · rcases hrec x hx with rfl | hlo
      · exact absurd rfl hne
      · right; simpa using by omega
    · exact ih hps hps' x y hx hy hne

/-- Every break point's singleton is emitted. -/
theorem alphaMem_singleton {prev : Nat} {pts : List Nat} :
    ∀ p ∈ pts, AlphaMem prev pts (p, p) := by
  induction pts generalizing prev with
  | nil => intro p hp; cases hp
  | cons q ps ih =>
    intro p hp
    rcases List.mem_cons.mp hp with rfl | hp
    · exact Or.inr (Or.inr (Or.inl rfl))
    · exact Or.inr (Or.inr (Or.inr (ih p hp)))

/-- Coverage: the emitted intervals cover `[prev, MAX]` when `pts` is
non-empty, and `[prev+1, MAX]` when `pts` is empty. -/
theorem alphaMem_covers {prev : Nat} {pts : List Nat} (hgt : ∀ p ∈ pts, prev < p)
    (hsort : pts.Pairwise (· < ·)) (hmax : ∀ p ∈ pts, p ≤ MAX_CODEPOINT) :
    ∀ c, c ≤ MAX_CODEPOINT →
      ((pts = [] ∧ prev + 1 ≤ c) ∨ (pts ≠ [] ∧ prev ≤ c)) →
      ∃ x, AlphaMem prev pts x ∧ x.1 ≤ c ∧ c ≤ x.2 := by
  induction pts generalizing prev with
  | nil =>
    intro c hc hcase
    rcases hcase with ⟨_, hge⟩ | ⟨hne, _⟩
    · exact ⟨(prev + 1, MAX_CODEPOINT), ⟨by omega, rfl⟩, hge, hc⟩
    · exact absurd rfl hne
  | cons q ps ih =>
    intro c hc hcase
    have hq : prev < q := hgt q (List.mem_cons_self _ _)
    have hps : ∀ p ∈ ps, q < p := fun p hp => (List.pairwise_cons.mp hsort).1 p hp
    have hps' : ps.Pairwise (· < ·) := (List.pairwise_cons.mp hsort).2
    have hmax' : ∀ p ∈ ps, p ≤ MAX_CODEPOINT :=
      fun p hp => hmax p (List.mem_cons_of_mem _ hp)
    rcases hcase with ⟨habs, _⟩ | ⟨_, hge⟩
    · cases habs
    by_cases hcp : c < q
    · by_cases hcprev : c = prev
      · exact ⟨(prev, prev), Or.inl rfl, by omega, by omega⟩
      · exact ⟨(prev + 1, q - 1), Or.inr (Or.inl ⟨by omega, rfl⟩), by omega, by omega⟩
    · by_cases hcq : c = q
      · exact ⟨(q, q), Or.inr (Or.inr (Or.inl rfl)), by omega, by omega⟩
      · cases ps with
        | nil =>
          exact ⟨(q + 1, MAX_CODEPOINT), Or.inr (Or.inr (Or.inr ⟨by omega, rfl⟩)),
            by omega, hc⟩
        | cons r rs =>
          rcases ih hps hps' hmax' c hc (Or.inr ⟨by simp, by omega⟩) with ⟨x, hx, h1, h2⟩
          exact ⟨x, Or.inr (Or.inr (Or.inr hx)), h1, h2⟩

/-! ## NFA and DFA data model (`src/lexer.rs`) -/

/-- The `State` record of `src/lexer.rs`. -/
structure NState where
  accepting : Option String
deriving DecidableEq

/-- `EpsilonConnection` of `src/lexer.rs`. -/
inductive EpsilonConnection where
  | epsilon (a b : Nat)
  | connection (range : Nat × Nat) (a b : Nat)
deriving DecidableEq

/-- `EpsilonConnection::get_a`. -/
def EpsilonConnection.get_a : EpsilonConnection → Nat
  | .connection _ a _ => a
  | .epsilon a _ => a

/-- The `Connection` record of the DFA (`range`, `start`, `end`); the Rust
field `end` is a Lean keyword and is called `tgt` here. -/
structure Connection where
  range : Nat × Nat
  start : Nat
  tgt : Nat
deriving DecidableEq

structure NFA where
  states : List NState
  entry : Nat
  connections : List EpsilonConnection
deriving DecidableEq

structure DFA where
  states : List NState
  connections : List Connection
deriving DecidableEq

/-- `NFA::new`: one non-accepting entry state, index `0`. -/
def NFA.new : NFA := ⟨[⟨none⟩], 0, []⟩

/-- `NFA::add`: push a state, return its index. -/
def NFA.add (nfa : NFA) (s : NState) : NFA × Nat :=
  (⟨nfa.states ++ [s], nfa.entry, nfa.connections⟩, nfa.states.length)

def NFA.add_empty (nfa : NFA) : NFA × Nat := nfa.add ⟨none⟩

def NFA.connect_range (nfa : NFA) (start tgt : Nat) (range : Nat × Nat) : NFA :=
  { nfa with connections := nfa.connections ++ [.connection range start tgt] }

def NFA.connect_epsilon (nfa : NFA) (start tgt : Nat) : NFA :=
  { nfa with connections := nfa.connections ++ [.epsilon start tgt] }

/-! ## Thompson construction (`connect_element`, `construct_nfa`)

The `Set` and `NegatedSet` arms of `connect_element` accumulate their
transitions in a `HashSet<(u32, u32)>` and then iterate it in an
*unspecified* order.  The embedding builds the set as an
insertion-ordered duplicate-free list (`hsInsert`/`hsRemove`) and then
applies an arbitrary `reorder` function to it before emitting; any
permutation (`∀ l, reorder l ~ l`) is a faithful model of one `HashSet`
iteration order.  `reorder = id` is used as the canonical instance. -/

/-- `HashSet::insert`, as insertion into a duplicate-free list. -/
def hsInsert (x : Nat × Nat) (l : List (Nat × Nat)) : List (Nat × Nat) :=
  if x ∈ l then l else l ++ [x]

/-- `HashSet::remove`. -/
def hsRemove (x : Nat × Nat) (l : List (Nat × Nat)) : List (Nat × Nat) :=
  l.filter (fun y => y ≠ x)

/-- The slice `&alphabet[start_index..end_index]`; Rust panics (here `none`)
when `start_index > end_index` or `end_index > len`. -/
def listSlice (l : List (Nat × Nat)) (s e : Nat) : Option (List (Nat × Nat)) :=
  if s ≤ e ∧ e ≤ l.length then some ((l.drop s).take (e - s)) else none

/-- The body of the `for range in ranges` loops of the `Set` and `NegatedSet`
arms: look up the alphabet interval whose low end is `range.0` and the one
whose high end is `range.1` (`.position(..).unwrap()`, `none` on panic) and
take the inclusive slice between them. -/
def rangeSlice (alphabet : List (Nat × Nat)) (r : Char × Char) : Option (List (Nat × Nat)) := do
  let start_index ← alphabet.findIdx? (fun iv => iv.1 == r.1.toNat)
  let end_index := (← alphabet.findIdx? (fun iv => iv.2 == r.2.toNat)) + 1
  listSlice alphabet start_index end_index

mutual
/-- `connect_element` of `src/lexer.rs`.  Returns the extended NFA and the
`(entry, exit)` fragment states; `none` models a panic (the `Rule` arm's
`panic!()`, the empty-group `assert!`, the empty-literal `unwrap`, and the
`Set`/`NegatedSet` alphabet lookups and slice). -/
def connect_element (reorder : List (Nat × Nat) → List (Nat × Nat))
    (alphabet : List (Nat × Nat)) :
    NFA → Element → Option (NFA × Nat × Nat)
  | nfa, .group subelems =>
      match subelems with
      | [] => none
      | e :: rest => do
          let (nfa, entry, o) ← connect_element reorder alphabet nfa e
          let (nfa, exitS) ← connect_chain reorder alphabet nfa o rest
          return (nfa, entry, exitS)
  | nfa, .set chars ranges => do
      let (nfa, entry) := nfa.add_empty
      let (nfa, exitS) := nfa.add_empty
      let conns0 := chars.foldl (fun cs c => hsInsert (c.toNat, c.toNat) cs) []
      let conns ← ranges.foldlM (fun cs r => do
          let slice ← rangeSlice alphabet r
          return slice.foldl (fun cs iv => hsInsert iv cs) cs) conns0
      let nfa := (reorder conns).foldl (fun n iv => n.connect_range entry exitS iv) nfa
      return (nfa, entry, exitS)
  | nfa, .alternatives subelems => do
      let (nfa, entry) := nfa.add_empty
      let (nfa, exitS) := nfa.add_empty
      let nfa ← connect_alts reorder alphabet nfa entry exitS subelems
      return (nfa, entry, exitS)
  | nfa, .oneOrMore inner => do
      let (nfa, entry, exitS) ← connect_element reorder alphabet nfa inner
      return (nfa.connect_epsilon exitS entry, entry, exitS)
  | nfa, .zeroOrMore inner => do
      let (nfa, entry, exitS) ← connect_element reorder alphabet nfa inner
      return ((nfa.connect_epsilon exitS entry).connect_epsilon entry exitS, entry, exitS)
  | _, .rule _ _ => none
  | nfa, .negatedSet chars ranges => do
      let (nfa, entry) := nfa.add_empty
      let (nfa, exitS) := nfa.add_empty
      let conns0 := alphabet.foldl (fun cs iv => hsInsert iv cs) []
      let conns1 := chars.foldl (fun cs c => hsRemove (c.toNat, c.toNat) cs) conns0
      let conns ← ranges.foldlM (fun cs r => do
          let slice ← rangeSlice alphabet r
          return slice.foldl (fun cs iv => hsRemove iv cs) cs) conns1
      let nfa := (reorder conns).foldl (fun n iv => n.connect_range entry exitS iv) nfa
      return (nfa, entry, exitS)
  | nfa, .literal lit =>
      match lit with
      | [] => none
      | first :: rest =>
          let (nfa, start) := nfa.add_empty
          let (nfa, e0) := nfa.add_empty
          let nfa := nfa.connect_range start e0 (first.toNat, first.toNat)
          let (nfa, endS) := rest.foldl (fun (p : NFA × Nat) c =>
              let (nfa, e) := p.1.add_empty
              (nfa.connect_range p.2 e (c.toNat, c.toNat), e)) (nfa, e0)
          some (nfa, start, endS)
  | nfa, .optional inner => do
      let (nfa, entry, exitS) ← connect_element reorder alphabet nfa inner
      return (nfa.connect_epsilon entry exitS, entry, exitS)

/-- The `for i in 1..subelems.len()` concatenation loop of the `Group` arm. -/
def connect_chain (reorder : List (Nat × Nat) → List (Nat × Nat))
    (alphabet : List (Nat × Nat)) :
    NFA → Nat → List Element → Option (NFA × Nat)
  | nfa, o, [] => some (nfa, o)
  | nfa, o, e :: rest => do
      let (nfa, i, o2) ← connect_element reorder alphabet nfa e
      connect_chain reorder alphabet (nfa.connect_epsilon o i) o2 rest

/-- The `for elem in subelems` loop of the `Alternatives` arm. -/
def connect_alts (reorder : List (Nat × Nat) → List (Nat × Nat))
    (alphabet : List (Nat × Nat)) :
    NFA → Nat → Nat → List Element → Option NFA
  | nfa, _, _, [] => some nfa
  | nfa, entry, exitS, e :: rest => do
      let (nfa, elemStart, elemEnd) ← connect_element reorder alphabet nfa e
      connect_alts reorder alphabet
        ((nfa.connect_epsilon entry elemStart).connect_epsilon elemEnd exitS) entry exitS rest
end

/-- The `for rule in rules` loop of `construct_nfa`. -/
def construct_nfa_loop (reorder : List (Nat × Nat) → List (Nat × Nat))
    (alphabet : List (Nat × Nat)) : NFA → List Rule → Option NFA
  | nfa, [] => some nfa
  | nfa, rule :: rules => do
      let (nfa, exitS) := nfa.add ⟨some rule.name⟩
      let (nfa, elem_entry, elem_exit) ← connect_element reorder alphabet nfa rule.element
      let nfa := nfa.connect_epsilon nfa.entry elem_entry
      construct_nfa_loop reorder alphabet (nfa.connect_epsilon elem_exit exitS) rules

/-- `construct_nfa` of `src/lexer.rs`. -/
def construct_nfa (reorder : List (Nat × Nat) → List (Nat × Nat))
    (rules : List Rule) (alphabet : List (Nat × Nat)) : Option NFA :=
  construct_nfa_loop reorder alphabet NFA.new rules

/-! ## ε-closure (`epsilon_closure`)

The Rust `epsilon_closure` repeatedly rescans `nfa.connections`, inserting
the target of every ε-edge whose source is already in the set, until no
insertion happens: it computes the least superset of its input closed
under following ε-edges.  The embedding computes the same closure as a
fixed point of one scan (`epsStep`), iterated enough times to stabilise
(each productive scan adds at least one of the at most
`conns.length` ε-targets). -/

/-- One scan of the connection list: add the targets of all ε-edges leaving
the current set. -/
def epsStep (conns : List EpsilonConnection) (s : Finset Nat) : Finset Nat :=
  s ∪ (conns.filterMap (fun c => match c with
    | .epsilon a b => if a ∈ s then some b else none
    | .connection _ _ _ => none)).toFinset

/-- `epsilon_closure` of `src/lexer.rs` (the closure of `s` under ε-edges). -/
def epsilon_closure (conns : List EpsilonConnection) (s : Finset Nat) : Finset Nat :=
  (epsStep conns)^[conns.length + 1] s

/-! ## Subset construction (`powerset_construction`) -/

/-- The inner loop of `powerset_construction`: the set of NFA states directly
reachable from `s` by a ranged transition labelled exactly `arange`. -/
def moveSet (conns : List EpsilonConnection) (s : Finset Nat) (arange : Nat × Nat) :
    Finset Nat :=
  (conns.filterMap (fun c => match c with
    | .connection range a b => if a ∈ s ∧ range = arange then some b else none
    | .epsilon _ _ => none)).toFinset

/-- The ε-closed subset reached from subset `s` on alphabet interval `arange`. -/
def transSet (conns : List EpsilonConnection) (s : Finset Nat) (arange : Nat × Nat) :
    Finset Nat :=
  epsilon_closure conns (moveSet conns s arange)

/-- `powerset_construction` of `src/lexer.rs`.  `sc` is `start_closure`;
`rest` is the part of the alphabet the current activation still has to
process; `ps`/`cs` are the `powersets`/`connections` vectors.  The Rust
function recurses on every newly discovered subset and terminates because
subsets are never discovered twice; the embedding makes this explicit with
`fuel` (`none` = fuel exhausted, which the real recursion never hits). -/
def pcAux (nfa : NFA) (alphabet : List (Nat × Nat)) :
    Nat → Nat → List (Nat × Nat) → List (Finset Nat) → List Connection →
    Option (List (Finset Nat) × List Connection)
  | 0, _, _, _, _ => none
  | _ + 1, _, [], ps, cs => some (ps, cs)
  | fuel + 1, sc, arange :: rest, ps, cs =>
      match ps.findIdx? (fun c => c == transSet nfa.connections (ps.getD sc ∅) arange) with
      | some pos => pcAux nfa alphabet fuel sc rest ps (cs ++ [⟨arange, sc, pos⟩])
      | none =>
          (pcAux nfa alphabet fuel ps.length alphabet
            (ps ++ [transSet nfa.connections (ps.getD sc ∅) arange]) cs).bind
            (fun res => pcAux nfa alphabet fuel sc rest res.1
              (res.2 ++ [⟨arange, sc, ps.length⟩]))

/-! ## DFA assembly (`Lexer::from_rules`) -/

/-- The members of a finite set of naturals, listed in ascending order:
the iteration order of a `BTreeSet<usize>`. -/
def finsetAsc (s : Finset Nat) : List Nat :=
  match s.max with
  | none => []
  | some m => (List.range (m + 1)).filter (fun i => decide (i ∈ s))

/-- The `for i in ps` accept-label collection loop of `Lexer::from_rules`;
`nfa.states[i]` out of bounds is a panic (`none`).  `BTreeSet` iterates
ascending, hence `finsetAsc`. -/
def acceptionsOf (nfa : NFA) (s : Finset Nat) : Option (List String) :=
  (finsetAsc s).foldlM (fun acc i => do
      match (← nfa.states.get? i).accepting with
      | some accept => return acc ++ [accept]
      | none => return acc) []

theorem mem_finsetAsc {s : Finset Nat} {i : Nat} : i ∈ finsetAsc s ↔ i ∈ s := by
  unfold finsetAsc
  cases hmax : s.max with
  | bot =>
    rw [Finset.max_eq_bot] at hmax
    subst hmax
    simp
  | coe m =>
    rw [List.mem_filter]
    simp only [List.mem_range, decide_eq_true_eq]
    constructor
    · rintro ⟨_, h⟩; exact h
    · intro h
      refine ⟨?_, h⟩
      have := Finset.le_max h
      rw [hmax] at this
      exact Nat.lt_succ_of_le (by exact_mod_cast this)

theorem finsetAsc_nodup (s : Finset Nat) : (finsetAsc s).Nodup := by
  unfold finsetAsc
  cases s.max with
  | bot => exact List.nodup_nil
  | coe m => exact (List.nodup_range _).filter _

/-- One iteration of the `for ps in powersets` state-building loop of
`Lexer::from_rules`: the empty subset becomes the `_TRAP` state, a subset
with two or more accepting members is the ambiguity error (`ensure!`),
otherwise the state carries the subset's unique accept label, if any. -/
def buildState (nfa : NFA) (s : Finset Nat) : Option (Except String NState) :=
  if s = ∅ then some (.ok ⟨some "_TRAP"⟩)
  else
    (acceptionsOf nfa s).bind (fun acceptions =>
      if 2 ≤ acceptions.length then
        some (.error "Accepting state must accept exactly one rule")
      else
        match acceptions with
        | [] => some (.ok ⟨none⟩)
        | a :: _ => some (.ok ⟨some a⟩))

/-- The `for ps in powersets` state-building loop, stopping at the first
panic (`none`) or `ensure!` error, exactly as the Rust loop does. -/
def buildDfaStates (nfa : NFA) : List (Finset Nat) → Option (Except String (List NState))
  | [] => some (.ok [])
  | s :: rest =>
      (buildState nfa s).bind (fun r =>
        match r with
        | .error m => some (.error m)
        | .ok st =>
            (buildDfaStates nfa rest).bind (fun r2 =>
              match r2 with
              | .error m => some (.error m)
              | .ok sts => some (.ok (st :: sts))))

/-- The result of `Lexer::from_rules`: `panicked` models any panic inside
the pipeline, `noFuel` is the embedding's fuel artefact, `error` is the
`ensure!` ambiguity error, `built` is `Ok(Lexer { dfa })`. -/
inductive BuildResult where
  | panicked
  | noFuel
  | error (msg : String)
  | built (dfa : DFA)
deriving DecidableEq

/-- `Lexer::from_rules` of `src/lexer.rs`. -/
def from_rules (reorder : List (Nat × Nat) → List (Nat × Nat)) (fuel : Nat)
    (rules : List Rule) : BuildResult :=
  let terminals := rules.filter (·.is_terminal)
  match construct_alphabet terminals with
  | none => .panicked
  | some alphabet =>
    match construct_nfa reorder terminals alphabet with
    | none => .panicked
    | some nfa =>
      let closure := epsilon_closure nfa.connections {nfa.entry}
      match pcAux nfa alphabet fuel 0 alphabet [closure] [] with
      | none => .noFuel
      | some (ps, cs) =>
        match buildDfaStates nfa ps with
        | none => .panicked
        | some (.error msg) => .error msg
        | some (.ok states) => .built ⟨states, cs⟩

/-- `Lexer::get_states`. -/
def DFA.get_states (d : DFA) : List (Option String) := d.states.map (·.accepting)

/-- `Lexer::get_connections`. -/
def DFA.get_connections (d : DFA) (start : Nat) : List (Nat × Nat × Nat) :=
  (d.connections.filter (fun c => c.start == start)).map (fun c => (c.range.1, c.range.2, c.tgt))

/-! ## Theory of the ε-closure -/

/-- There is an ε-edge from `a` to `b` in the connection list. -/
def epsEdge (conns : List EpsilonConnection) (a b : Nat) : Prop :=
  EpsilonConnection.epsilon a b ∈ conns

/-- ε-reachability: zero or more ε-edges. -/
def EpsReach (conns : List EpsilonConnection) : Nat → Nat → Prop :=
  Relation.ReflTransGen (epsEdge conns)

theorem mem_epsStep {conns : List EpsilonConnection} {s : Finset Nat} {x : Nat} :
    x ∈ epsStep conns s ↔ x ∈ s ∨ ∃ a ∈ s, epsEdge conns a x := by
  simp only [epsStep, Finset.mem_union, List.mem_toFinset, List.mem_filterMap, epsEdge]
  constructor
  · rintro (hx | ⟨c, hc, hfc⟩)
    · exact Or.inl hx
    · match c, hfc with
      | .epsilon a b, hfc =>
        by_cases ha : a ∈ s
        · simp only [ha, if_true, Option.some_inj] at hfc
          exact Or.inr ⟨a, ha, hfc ▸ hc⟩
        · simp [ha] at hfc
  · rintro (hx | ⟨a, ha, hedge⟩)
    · exact Or.inl hx
    · exact Or.inr ⟨.epsilon a x, hedge, by simp [ha]⟩

theorem subset_epsStep {conns : List EpsilonConnection} {s : Finset Nat} :
    s ⊆ epsStep conns s := Finset.subset_union_left

/-- All ε-targets of the connection list. -/
def epsTargetsAll (conns : List EpsilonConnection) : Finset Nat :=
  (conns.filterMap (fun c => match c with
    | .epsilon _ b => some b
    | .connection _ _ _ => none)).toFinset

theorem epsStep_subset_union {conns : List EpsilonConnection} {s : Finset Nat} :
    epsStep conns s ⊆ s ∪ epsTargetsAll conns := by
  intro x hx
  rcases mem_epsStep.mp hx with hx | ⟨a, _, hedge⟩
  · exact Finset.mem_union_left _ hx
  · refine Finset.mem_union_right _ ?_
    simp only [epsTargetsAll, List.mem_toFinset, List.mem_filterMap]
    exact ⟨.epsilon a x, hedge, rfl⟩

theorem card_epsTargetsAll_le {conns : List EpsilonConnection} :
    (epsTargetsAll conns).card ≤ conns.length :=
  le_trans (List.toFinset_card_le _) (List.length_filterMap_le _ _)

theorem iterate_epsStep_subset_union {conns : List EpsilonConnection} {s : Finset Nat}
    (n : Nat) : (epsStep conns)^[n] s ⊆ s ∪ epsTargetsAll conns := by
  induction n with
  | zero => simp
  | succ n ih =>
    rw [Function.iterate_succ_apply']
    intro x hx
    rcases Finset.mem_union.mp (epsStep_subset_union hx) with hx | hx
    · exact ih hx
    · exact Finset.mem_union_right _ hx

theorem exists_epsStep_fixed (conns : List EpsilonConnection) (s : Finset Nat) :
    ∃ k ≤ conns.length, (epsStep conns)^[k + 1] s = (epsStep conns)^[k] s := by
  by_contra h
  push_neg at h
  have hgrow : ∀ k, k ≤ conns.length + 1 → s.card + k ≤ ((epsStep conns)^[k] s).card := by
    intro k hk
    induction k with
    | zero => simp
    | succ k ih =>
      have h1 := ih (by omega)
      have hss : (epsStep conns)^[k] s ⊂ (epsStep conns)^[k + 1] s := by
        refine HasSubset.Subset.ssubset_of_ne ?_ ?_
        · rw [Function.iterate_succ_apply']
          exact subset_epsStep
        · exact Ne.symm (h k (by omega))
      have := Finset.card_lt_card hss
      omega
  have h1 := hgrow (conns.length + 1) le_rfl
  have h2 : ((epsStep conns)^[conns.length + 1] s).card ≤ s.card + conns.length := by
    calc ((epsStep conns)^[conns.length + 1] s).card
        ≤ (s ∪ epsTargetsAll conns).card :=
          Finset.card_le_card (iterate_epsStep_subset_union _)
      _ ≤ s.card + (epsTargetsAll conns).card := Finset.card_union_le _ _
      _ ≤ s.card + conns.length := by have := @card_epsTargetsAll_le conns; omega
  omega

theorem iterate_epsStep_stable {conns : List EpsilonConnection} {s : Finset Nat} {k : Nat}
    (hfix : (epsStep conns)^[k + 1] s = (epsStep conns)^[k] s) :
    ∀ j, (epsStep conns)^[k + j] s = (epsStep conns)^[k] s := by
  intro j
  induction j with
  | zero => rfl
  | succ j ih =>
    have : k + (j + 1) = (k + j) + 1 := by omega
    rw [this, Function.iterate_succ_apply', ih]
    exact (Function.iterate_succ_apply' (epsStep conns) k s).symm.trans hfix

theorem epsStep_epsilon_closure {conns : List EpsilonConnection} {s : Finset Nat} :
    epsStep conns (epsilon_closure conns s) = epsilon_closure conns s := by
  obtain ⟨k, hk, hfix⟩ := exists_epsStep_fixed conns s
  have hstable := iterate_epsStep_stable hfix
  have h1 : epsilon_closure conns s = (epsStep conns)^[k] s := by
    have := hstable (conns.length + 1 - k)
    rw [epsilon_closure]
    rw [show k + (conns.length + 1 - k) = conns.length + 1 by omega] at this
    exact this
  rw [h1]
  exact (Function.iterate_succ_apply' (epsStep conns) k s).symm.trans hfix

theorem subset_epsilon_closure {conns : List EpsilonConnection} {s : Finset Nat} :
    s ⊆ epsilon_closure conns s := by
  rw [epsilon_closure]
  induction (conns.length + 1) with
  | zero => simp
  | succ n ih =>
    rw [Function.iterate_succ_apply']
    exact le_trans ih subset_epsStep

theorem mem_epsilon_closure {conns : List EpsilonConnection} {s : Finset Nat} {x : Nat} :
    x ∈ epsilon_closure conns s ↔ ∃ a ∈ s, EpsReach conns a x := by
  constructor
  · rw [epsilon_closure]
    generalize (conns.length + 1) = n
    induction n generalizing x with
    | zero => intro hx; exact ⟨x, hx, Relation.ReflTransGen.refl⟩
    | succ n ih =>
      rw [Function.iterate_succ_apply']
      intro hx
      rcases mem_epsStep.mp hx with hx | ⟨a, ha, hedge⟩
      · exact ih hx
      · obtain ⟨a0, ha0, hreach⟩ := ih ha
        exact ⟨a0, ha0, Relation.ReflTransGen.tail hreach hedge⟩
  · rintro ⟨a, ha, hreach⟩
    induction hreach with
    | refl => exact subset_epsilon_closure ha
    | tail _ hedge ih =>
      rw [← epsStep_epsilon_closure]
      exact mem_epsStep.mpr (Or.inr ⟨_, ih, hedge⟩)

theorem epsilon_closure_empty {conns : List EpsilonConnection} :
    epsilon_closure conns (∅ : Finset Nat) = ∅ := by
  ext x
  simp [mem_epsilon_closure]

/-- Every member of a closure is a member of the seed set or the target of an
ε-edge of the connection list. -/
theorem mem_epsilon_closure_cases {conns : List EpsilonConnection} {s : Finset Nat} {x : Nat}
    (hx : x ∈ epsilon_closure conns s) :
    x ∈ s ∨ ∃ a, epsEdge conns a x := by
  obtain ⟨a, ha, hreach⟩ := mem_epsilon_closure.mp hx
  rcases Relation.ReflTransGen.cases_tail hreach with rfl | ⟨c, _, hedge⟩
  · exact Or.inl ha
  · exact Or.inr ⟨c, hedge⟩

/-! ## Invariants of the subset construction -/

/-- The connections of `cs` leaving state `i` with label `r`. -/
def connsFor (cs : List Connection) (i : Nat) (r : Nat × Nat) : List Connection :=
  cs.filter (fun c => decide (c.start = i ∧ c.range = r))

theorem connsFor_append {a b : List Connection} {i : Nat} {r : Nat × Nat} :
    connsFor (a ++ b) i r = connsFor a i r ++ connsFor b i r := by
  simp [connsFor]

theorem connsFor_nil {i : Nat} {r : Nat × Nat} : connsFor [] i r = [] := rfl

theorem connsFor_cons {c : Connection} {l : List Connection} {i : Nat} {r : Nat × Nat} :
    (connsFor (c :: l) i r).length =
      (if c.start = i ∧ c.range = r then 1 else 0) + (connsFor l i r).length := by
  by_cases h : c.start = i ∧ c.range = r <;> simp [connsFor, h] <;> omega

theorem connsFor_length_eq_zero {l : List Connection} {i : Nat} {r : Nat × Nat}
    (h : ∀ c ∈ l, c.start ≠ i) : (connsFor l i r).length = 0 := by
  induction l with
  | nil => rfl
  | cons c l ih =>
    rw [connsFor_cons, if_neg (fun hh => h c (by simp) hh.1),
      ih (fun c hc => h c (List.mem_cons_of_mem _ hc))]

theorem findIdx?_some_spec {α : Type} {p : α → Bool} {l : List α} {i : Nat}
    (h : l.findIdx? p = some i) :
    i < l.length ∧ ∃ x, l.get? i = some x ∧ p x = true := by
  obtain ⟨hlt, hidx⟩ := List.findIdx?_eq_some_iff_findIdx_eq.mp h
  refine ⟨hlt, l.get ⟨i, hlt⟩, List.get?_eq_get hlt, ?_⟩
  subst hidx
  exact List.findIdx_getElem (p := p)

/-- Postcondition of one `pcAux` activation: the vectors only grow; every
new connection belongs either to the activation's own state `sc` (with a
label it still had to process) or to a newly discovered state; `sc`
receives exactly one new connection per remaining label and every new
state exactly one per alphabet label; every new connection's target holds
the ε-closed move set of its source; and distinctness of the stored
subsets is preserved. -/
theorem pcAux_post {nfa : NFA} {alphabet : List (Nat × Nat)} :
    ∀ {fuel sc : Nat} {rest : List (Nat × Nat)} {ps ps' : List (Finset Nat)}
      {cs cs' : List Connection},
    pcAux nfa alphabet fuel sc rest ps cs = some (ps', cs') →
    sc < ps.length →
    ∃ ext extCs, ps' = ps ++ ext ∧ cs' = cs ++ extCs ∧
      (∀ c ∈ extCs, (c.start = sc ∧ c.range ∈ rest) ∨
        (ps.length ≤ c.start ∧ c.start < ps'.length ∧ c.range ∈ alphabet)) ∧
      (∀ r, (connsFor extCs sc r).length = rest.count r) ∧
      (∀ i, ps.length ≤ i → i < ps'.length → ∀ r,
        (connsFor extCs i r).length = alphabet.count r) ∧
      (∀ c ∈ extCs, c.tgt < ps'.length ∧ ∃ Si, ps'.get? c.start = some Si ∧
        ps'.get? c.tgt = some (transSet nfa.connections Si c.range)) ∧
      (ps.Nodup → ps'.Nodup) := by
  intro fuel
  induction fuel with
  | zero => intro sc rest ps ps' cs cs' h; exact absurd h (by simp [pcAux])
  | succ fuel ih =>
    intro sc rest ps ps' cs cs' h hsc
    match rest with
    | [] =>
      simp only [pcAux, Option.some_inj, Prod.mk.injEq] at h
      obtain ⟨hps, hcs⟩ := h
      subst hps; subst hcs
      refine ⟨[], [], by simp, by simp, by simp, ?_, ?_, by simp, fun hh => hh⟩
      · intro r; simp [connsFor]
      · intro i h1 h2; exact absurd h2 (by omega)
    | arange :: rest' =>
      rw [pcAux] at h
      cases hfind : ps.findIdx?
          (fun c => c == transSet nfa.connections (ps.getD sc ∅) arange) with
      | some pos =>
        rw [hfind] at h
        replace h : pcAux nfa alphabet fuel sc rest' ps (cs ++ [⟨arange, sc, pos⟩]) =
          some (ps', cs') := h
        obtain ⟨ext, extCs₃, hps, hcs, hC, hD, hE, hF, hG⟩ := ih h hsc
        obtain ⟨hposlt, x, hx, hxt⟩ := findIdx?_some_spec hfind
        have hxeq : x = transSet nfa.connections (ps.getD sc ∅) arange := by simpa using hxt
        subst hxeq
        refine ⟨ext, ⟨arange, sc, pos⟩ :: extCs₃, hps, by simpa using hcs, ?_, ?_, ?_, ?_, hG⟩
        · intro c hc
          rcases List.mem_cons.mp hc with rfl | hc
          · exact Or.inl ⟨rfl, by simp⟩
          · rcases hC c hc with ⟨h1, h2⟩ | h1
            · exact Or.inl ⟨h1, List.mem_cons_of_mem _ h2⟩
            · exact Or.inr h1
        · intro r
          rw [connsFor_cons, hD r, List.count_cons]
          by_cases hr : arange = r
          · subst hr; simp; omega
          · simp [hr, Ne.symm hr]
        · intro i h1 h2 r
          rw [connsFor_cons]
          have : ¬(sc = i ∧ arange = r ∨ sc = i ∧ (arange, sc, pos).2.1 = i ∧ True) := by
            intro hh; rcases hh with ⟨rfl, _⟩ | ⟨rfl, _⟩ <;> omega
          have hne : ¬((⟨arange, sc, pos⟩ : Connection).start = i ∧
              (⟨arange, sc, pos⟩ : Connection).range = r) := by
            intro hh
            have : sc = i := hh.1
            omega
          rw [if_neg hne, hE i h1 h2 r]
          omega
        · intro c hc
          rcases List.mem_cons.mp hc with rfl | hc
          · refine ⟨?_, ps.getD sc ∅, ?_, ?_⟩
            · show pos < ps'.length
              rw [hps]; simp only [List.length_append]; omega
            · show ps'.get? sc = some (ps.getD sc ∅)
              rw [hps, List.get?_append hsc, List.getD_eq_get?]
              cases hget : ps.get? sc with
              | none => exact absurd (List.get?_eq_none.mp hget) (by omega)
              | some y => simp
            · show ps'.get? pos = some (transSet nfa.connections (ps.getD sc ∅) arange)
              rw [hps, List.get?_append hposlt, hx]
          · exact hF c hc
      | none =>
        rw [hfind] at h
        replace h : (pcAux nfa alphabet fuel ps.length alphabet
            (ps ++ [transSet nfa.connections (ps.getD sc ∅) arange]) cs).bind
            (fun res => pcAux nfa alphabet fuel sc rest' res.1
              (res.2 ++ [⟨arange, sc, ps.length⟩])) = some (ps', cs') := h
        rcases Option.bind_eq_some.mp h with ⟨⟨ps₁, cs₁⟩, hcall2, h3⟩
        simp only [] at h3
        set t := transSet nfa.connections (ps.getD sc ∅) arange with ht
        have hsc1 : ps.length < (ps ++ [t]).length := by simp
        obtain ⟨ext₂, extCs₂, hps₂, hcs₂, hC₂, hD₂, hE₂, hF₂, hG₂⟩ := ih hcall2 hsc1
        have hsc2 : sc < ps₁.length := by rw [hps₂]; simp; omega
        obtain ⟨ext₃, extCs₃, hps₃, hcs₃, hC₃, hD₃, hE₃, hF₃, hG₃⟩ := ih h3 hsc2
        have hlen₁ : ps.length + 1 ≤ ps₁.length := by rw [hps₂]; simp
        have hlen' : ps₁.length ≤ ps'.length := by rw [hps₃]; simp
        refine ⟨[t] ++ ext₂ ++ ext₃, extCs₂ ++ ([⟨arange, sc, ps.length⟩] ++ extCs₃),
          by rw [hps₃, hps₂]; simp, by rw [hcs₃, hcs₂]; simp, ?_, ?_, ?_, ?_, ?_⟩
        · intro c hc
          rcases List.mem_append.mp hc with hc | hc
          · rcases hC₂ c hc with ⟨h1, h2⟩ | ⟨h1, h2, h3⟩
            · refine Or.inr ⟨by omega, by omega, h2⟩
            · refine Or.inr ⟨by simp at h1; omega, by omega, h3⟩
          · rcases List.mem_append.mp hc with hc | hc
            · rcases List.mem_singleton.mp hc with rfl
              exact Or.inl ⟨rfl, by simp⟩
            · rcases hC₃ c hc with ⟨h1, h2⟩ | ⟨h1, h2, h3⟩
              · exact Or.inl ⟨h1, List.mem_cons_of_mem _ h2⟩
              · exact Or.inr ⟨by omega, h2, h3⟩
        · intro r
          rw [connsFor_append, List.length_append, connsFor_append, List.length_append]
          have hz : (connsFor extCs₂ sc r).length = 0 := by
            refine connsFor_length_eq_zero ?_
            intro c hc
            rcases hC₂ c hc with ⟨h1, _⟩ | ⟨h1, _, _⟩
            · omega
            · simp at h1; omega
          rw [hz, connsFor_cons, connsFor_nil, List.length_nil, hD₃ r, List.count_cons]
          by_cases hr : arange = r
          · subst hr; simp <;> omega
          · simp [hr, Ne.symm hr] <;> omega
        · intro i h1 h2 r
          rw [connsFor_append, List.length_append, connsFor_append, List.length_append,
            connsFor_cons, connsFor_nil, List.length_nil]
          have hne : ¬((⟨arange, sc, ps.length⟩ : Connection).start = i ∧
              (⟨arange, sc, ps.length⟩ : Connection).range = r) := by
            intro hh
            have : sc = i := hh.1
            omega
          rw [if_neg hne]
          by_cases hcase : i < ps₁.length
          · have h3 : (connsFor extCs₃ i r).length = 0 := by
              refine connsFor_length_eq_zero ?_
              intro c hc
              rcases hC₃ c hc with ⟨hs, _⟩ | ⟨hs, _, _⟩
              · omega
              · omega
            rw [h3]
            by_cases hpos : i = ps.length
            · subst hpos
              rw [hD₂ r]
              omega
            · have : (ps ++ [t]).length ≤ i := by simp; omega
              rw [hE₂ i this hcase r]
              omega
          · have h2' : (connsFor extCs₂ i r).length = 0 := by
              refine connsFor_length_eq_zero ?_
              intro c hc
              rcases hC₂ c hc with ⟨hs, _⟩ | ⟨hs, hs2, _⟩
              · omega
              · omega
            rw [h2', hE₃ i (by omega) h2 r]
            omega
        · intro c hc
          rcases List.mem_append.mp hc with hc | hc
          · obtain ⟨htgt, Si, hSi, hSe⟩ := hF₂ c hc
            have hstart : c.start < ps₁.length := by
              rcases hC₂ c hc with ⟨h1, _⟩ | ⟨_, h1, _⟩
              · omega
              · exact h1
            refine ⟨by omega, Si, ?_, ?_⟩
            · rw [hps₃, List.get?_append hstart, hSi]
            · rw [hps₃, List.get?_append htgt, hSe]
          · rcases List.mem_append.mp hc with hc | hc
            · rcases List.mem_singleton.mp hc with rfl
              refine ⟨by simpa using by omega, ps.getD sc ∅, ?_, ?_⟩
              · show ps'.get? sc = some (ps.getD sc ∅)
                have hsc' : sc < ps'.length := by omega
                rw [hps₃, List.get?_append hsc2, hps₂,
                  List.get?_append (show sc < (ps ++ [t]).length by simp; omega),
                  List.get?_append hsc, List.getD_eq_get?]
                cases hget : ps.get? sc with
                | none => exact absurd (List.get?_eq_none.mp hget) (by omega)
                | some y => simp
              · show ps'.get? ps.length =
                  some (transSet nfa.connections (ps.getD sc ∅) arange)
                rw [hps₃, List.get?_append (by omega : ps.length < ps₁.length), hps₂,
                  List.get?_append (show ps.length < (ps ++ [t]).length by simp),
                  List.get?_concat_length]
            · exact hF₃ c hc
        · intro hnd
          refine hG₃ (hG₂ ?_)
          rw [List.nodup_append]
          refine ⟨hnd, by simp, ?_⟩
          intro x hx
          simp only [List.mem_singleton]
          intro hxt
          subst hxt
          have := List.findIdx?_eq_none_iff.mp hfind _ hx
          simp at this

/-! ## Characters referenced by an element -/

/-- The `(char, char)` pairs that `get_ranges_from_element` collects from an
element: singleton pairs for literal and set characters, the range pairs of
sets and negated sets. -/
inductive ElemPair : Element → Char × Char → Prop where
  | setChar {chars ranges c} : c ∈ chars → ElemPair (.set chars ranges) (c, c)
  | setRange {chars ranges r} : r ∈ ranges → ElemPair (.set chars ranges) r
  | negChar {chars ranges c} : c ∈ chars → ElemPair (.negatedSet chars ranges) (c, c)
  | negRange {chars ranges r} : r ∈ ranges → ElemPair (.negatedSet chars ranges) r
  | lit {lit c} : c ∈ lit → ElemPair (.literal lit) (c, c)
  | one {inner p} : ElemPair inner p → ElemPair (.oneOrMore inner) p
  | zero {inner p} : ElemPair inner p → ElemPair (.zeroOrMore inner) p
  | opt {inner p} : ElemPair inner p → ElemPair (.optional inner) p
  | alt {subelems e p} : e ∈ subelems → ElemPair e p → ElemPair (.alternatives subelems) p
  | grp {subelems e p} : e ∈ subelems → ElemPair e p → ElemPair (.group subelems) p

/-- Mutual induction over `Element` and `List Element`. -/
theorem Element.mutual_induction {P : Element → Prop} {Q : List Element → Prop}
    (hrule : ∀ var name, P (.rule var name))
    (hset : ∀ chars ranges, P (.set chars ranges))
    (hneg : ∀ chars ranges, P (.negatedSet chars ranges))
    (hlit : ∀ lit, P (.literal lit))
    (hone : ∀ inner, P inner → P (.oneOrMore inner))
    (hzero : ∀ inner, P inner → P (.zeroOrMore inner))
    (hopt : ∀ inner, P inner → P (.optional inner))
    (halt : ∀ subelems, Q subelems → P (.alternatives subelems))
    (hgrp : ∀ subelems, Q subelems → P (.group subelems))
    (hnil : Q [])
    (hcons : ∀ e es, P e → Q es → Q (e :: es)) :
    ∀ e, P e :=
  fun e => Element.rec (motive_1 := P) (motive_2 := Q)
    hrule hset hneg hlit hone hzero hopt halt hgrp hnil hcons e

/-- Folding `btInsertCC` only adds members. -/
theorem mem_foldl_btInsertCC {β : Type} (f : β → Char × Char) (l : List β)
    {acc : List (Char × Char)} {x : Char × Char} (hx : x ∈ acc) :
    x ∈ l.foldl (fun a b => btInsertCC (f b) a) acc := by
  induction l generalizing acc with
  | nil => exact hx
  | cons b bs ih => exact ih (mem_btInsertCC.mpr (Or.inr hx))

/-- Folding `btInsertCC` adds every inserted pair. -/
theorem self_mem_foldl_btInsertCC {β : Type} (f : β → Char × Char) (l : List β)
    {acc : List (Char × Char)} {b : β} (hb : b ∈ l) :
    f b ∈ l.foldl (fun a b => btInsertCC (f b) a) acc := by
  induction l generalizing acc with
  | nil => cases hb
  | cons c cs ih =>
    rcases List.mem_cons.mp hb with rfl | hb
    · exact mem_foldl_btInsertCC f cs (mem_btInsertCC.mpr (Or.inl rfl))
    · exact ih hb

/-- Members of a `btInsertCC` fold come from the accumulator or the inserted
pairs. -/
theorem mem_foldl_btInsertCC_cases {β : Type} (f : β → Char × Char) (l : List β)
    {acc : List (Char × Char)} {x : Char × Char}
    (hx : x ∈ l.foldl (fun a b => btInsertCC (f b) a) acc) :
    x ∈ acc ∨ ∃ b ∈ l, x = f b := by
  induction l generalizing acc with
  | nil => exact Or.inl hx
  | cons c cs ih =>
    rcases ih hx with hx | ⟨b, hb, rfl⟩
    · rcases mem_btInsertCC.mp hx with rfl | hx
      · exact Or.inr ⟨c, by simp, rfl⟩
      · exact Or.inl hx
    · exact Or.inr ⟨b, List.mem_cons_of_mem _ hb, rfl⟩

/-- Monotonicity of the collector: everything already in the accumulator
stays. -/
theorem get_ranges_mono :
    ∀ e : Element, ∀ {acc out : List (Char × Char)},
      get_ranges_from_element e acc = some out → ∀ x ∈ acc, x ∈ out := by
  have main := Element.mutual_induction
    (P := fun e => ∀ {acc out : List (Char × Char)},
      get_ranges_from_element e acc = some out → ∀ x ∈ acc, x ∈ out)
    (Q := fun es => ∀ {acc out : List (Char × Char)},
      get_ranges_from_list es acc = some out → ∀ x ∈ acc, x ∈ out)
  refine fun e => main ?_ ?_ ?_ ?_ ?_ ?_ ?_ ?_ ?_ ?_ ?_ e
  · intro var name acc out h; cases h
  · intro chars ranges acc out h x hx
    simp only [get_ranges_from_element, Option.some_inj] at h
    subst h
    exact mem_foldl_btInsertCC (fun r => r) ranges
      (mem_foldl_btInsertCC (fun c => (c, c)) chars hx)
  · intro chars ranges acc out h x hx
    simp only [get_ranges_from_element, Option.some_inj] at h
    subst h
    exact mem_foldl_btInsertCC (fun r => r) ranges
      (mem_foldl_btInsertCC (fun c => (c, c)) chars hx)
  · intro lit acc out h x hx
    simp only [get_ranges_from_element, Option.some_inj] at h
    subst h
    exact mem_foldl_btInsertCC (fun c => (c, c)) lit hx
  · intro inner ih acc out h x hx; exact ih h x hx
  · intro inner ih acc out h x hx; exact ih h x hx
  · intro inner ih acc out h x hx; exact ih h x hx
  · intro subelems ih acc out h x hx; exact ih h x hx
  · intro subelems ih acc out h x hx; exact ih h x hx
  · intro acc out h x hx
    simp only [get_ranges_from_list, Option.some_inj] at h
    exact h ▸ hx
  · intro e es ihe ihes acc out h x hx
    simp only [get_ranges_from_list, Option.bind_eq_bind] at h
    rcases Option.bind_eq_some.mp h with ⟨mid, hmid, hrest⟩
    exact ihes hrest x (ihe hmid x hx)

theorem get_ranges_list_mono :
    ∀ {es : List Element} {acc out : List (Char × Char)},
      get_ranges_from_list es acc = some out → ∀ x ∈ acc, x ∈ out := by
  intro es
  induction es with
  | nil =>
    intro acc out h x hx
    simp only [get_ranges_from_list, Option.some_inj] at h
    exact h ▸ hx
  | cons e es ih =>
    intro acc out h x hx
    simp only [get_ranges_from_list, Option.bind_eq_bind] at h
    rcases Option.bind_eq_some.mp h with ⟨mid, hmid, hrest⟩
    exact ih hrest x (get_ranges_mono e hmid x hx)

/-- Completeness of the collector: every referenced pair of an element is
collected. -/
theorem get_ranges_complete {e : Element} {p : Char × Char} (hp : ElemPair e p) :
    ∀ {acc out : List (Char × Char)}, get_ranges_from_element e acc = some out → p ∈ out := by
  induction hp with
  | setChar hc =>
    intro acc out h
    simp only [get_ranges_from_element, Option.some_inj] at h
    subst h
    exact mem_foldl_btInsertCC (fun r => r) _
      (self_mem_foldl_btInsertCC (fun c => (c, c)) _ hc)
  | setRange hr =>
    intro acc out h
    simp only [get_ranges_from_element, Option.some_inj] at h
    subst h
    exact self_mem_foldl_btInsertCC (fun r => r) _ hr
  | negChar hc =>
    intro acc out h
    simp only [get_ranges_from_element, Option.some_inj] at h
    subst h
    exact mem_foldl_btInsertCC (fun r => r) _
      (self_mem_foldl_btInsertCC (fun c => (c, c)) _ hc)
  | negRange hr =>
    intro acc out h
    simp only [get_ranges_from_element, Option.some_inj] at h
    subst h
    exact self_mem_foldl_btInsertCC (fun r => r) _ hr
  | lit hc =>
    intro acc out h
    simp only [get_ranges_from_element, Option.some_inj] at h
    subst h
    exact self_mem_foldl_btInsertCC (fun c => (c, c)) _ hc
  | one _ ih => intro acc out h; exact ih h
  | zero _ ih => intro acc out h; exact ih h
  | opt _ ih => intro acc out h; exact ih h
  | @alt subelems e p hmem _ ih =>
    intro acc out h
    simp only [get_ranges_from_element] at h
    revert hmem
    induction subelems generalizing acc with
    | nil => intro hmem; cases hmem
    | cons e' es ihl =>
      intro hmem
      simp only [get_ranges_from_list, Option.bind_eq_bind] at h
      rcases Option.bind_eq_some.mp h with ⟨mid, hmid, hrest⟩
      rcases List.mem_cons.mp hmem with rfl | hmem
      · exact get_ranges_list_mono hrest p (ih hmid)
      · exact ihl hrest hmem
  | @grp subelems e p hmem _ ih =>
    intro acc out h
    simp only [get_ranges_from_element] at h
    revert hmem
    induction subelems generalizing acc with
    | nil => intro hmem; cases hmem
    | cons e' es ihl =>
      intro hmem
      simp only [get_ranges_from_list, Option.bind_eq_bind] at h
      rcases Option.bind_eq_some.mp h with ⟨mid, hmid, hrest⟩
      rcases List.mem_cons.mp hmem with rfl | hmem
      · exact get_ranges_list_mono hrest p (ih hmid)
      · exact ihl hrest hmem

/-! ## From rules to alphabet facts -/

theorem mem_foldl_btInsertNat {β : Type} (f g : β → Nat) (l : List β)
    {acc : List Nat} {x : Nat} (hx : x ∈ acc) :
    x ∈ l.foldl (fun a b => btInsertNat (g b) (btInsertNat (f b) a)) acc := by
  induction l generalizing acc with
  | nil => exact hx
  | cons b bs ih =>
    exact ih (mem_btInsertNat.mpr (Or.inr (mem_btInsertNat.mpr (Or.inr hx))))

theorem self_mem_foldl_btInsertNat {β : Type} (f g : β → Nat) (l : List β)
    {acc : List Nat} {b : β} (hb : b ∈ l) :
    f b ∈ l.foldl (fun a b => btInsertNat (g b) (btInsertNat (f b) a)) acc ∧
    g b ∈ l.foldl (fun a b => btInsertNat (g b) (btInsertNat (f b) a)) acc := by
  induction l generalizing acc with
  | nil => cases hb
  | cons c cs ih =>
    rcases List.mem_cons.mp hb with rfl | hb
    · constructor
      · exact mem_foldl_btInsertNat f g cs
          (mem_btInsertNat.mpr (Or.inr (mem_btInsertNat.mpr (Or.inl rfl))))
      · exact mem_foldl_btInsertNat f g cs (mem_btInsertNat.mpr (Or.inl rfl))
    · exact ih hb

theorem mem_foldl_btInsertNat_cases {β : Type} (f g : β → Nat) (l : List β)
    {acc : List Nat} {x : Nat}
    (hx : x ∈ l.foldl (fun a b => btInsertNat (g b) (btInsertNat (f b) a)) acc) :
    x ∈ acc ∨ ∃ b ∈ l, x = f b ∨ x = g b := by
  induction l generalizing acc with
  | nil => exact Or.inl hx
  | cons c cs ih =>
    rcases ih hx with hx | ⟨b, hb, hfg⟩
    · rcases mem_btInsertNat.mp hx with rfl | hx
      · exact Or.inr ⟨c, by simp, Or.inr rfl⟩
      · rcases mem_btInsertNat.mp hx with rfl | hx
        · exact Or.inr ⟨c, by simp, Or.inl rfl⟩
        · exact Or.inl hx
    · exact Or.inr ⟨b, List.mem_cons_of_mem _ hb, hfg⟩

theorem sorted_foldl_btInsertNat {β : Type} (f g : β → Nat) (l : List β)
    {acc : List Nat} (hacc : acc.Pairwise (· < ·)) :
    (l.foldl (fun a b => btInsertNat (g b) (btInsertNat (f b) a)) acc).Pairwise (· < ·) := by
  induction l generalizing acc with
  | nil => exact hacc
  | cons b bs ih => exact ih (sorted_btInsertNat (sorted_btInsertNat hacc))

theorem mem_rangePoints_of_mem {raw : List (Char × Char)} {p : Char × Char} (hp : p ∈ raw) :
    p.1.toNat ∈ rangePoints raw ∧ p.2.toNat ∈ rangePoints raw :=
  self_mem_foldl_btInsertNat (fun q => q.1.toNat) (fun q => q.2.toNat) raw hp

theorem rangePoints_sorted (raw : List (Char × Char)) :
    (rangePoints raw).Pairwise (· < ·) :=
  sorted_foldl_btInsertNat _ _ raw (by simp)

theorem rangePoints_le_max {raw : List (Char × Char)} {x : Nat} (hx : x ∈ rangePoints raw) :
    x ≤ MAX_CODEPOINT := by
  rcases mem_foldl_btInsertNat_cases _ _ raw hx with hx | ⟨b, _, rfl | rfl⟩
  · cases hx
  · exact char_toNat_le_max _
  · exact char_toNat_le_max _

/-- The `rules.foldlM` raw-range collection collects every pair of every
rule. -/
theorem rules_fold_collects {rules : List Rule} :
    ∀ {acc raw : List (Char × Char)},
    rules.foldlM (fun acc r => get_ranges_from_element r.element acc) acc = some raw →
    (∀ x ∈ acc, x ∈ raw) ∧
    ∀ rule ∈ rules, ∀ p, ElemPair rule.element p → p ∈ raw := by
  induction rules with
  | nil =>
    intro acc raw h
    simp only [List.foldlM_nil, Option.pure_def, Option.some_inj] at h
    exact ⟨fun x hx => h ▸ hx, fun rule hr => absurd hr (by simp)⟩
  | cons rule rules ih =>
    intro acc raw h
    simp only [List.foldlM_cons, Option.pure_def, Option.bind_eq_bind] at h
    rcases Option.bind_eq_some.mp h with ⟨mid, hmid, hrest⟩
    obtain ⟨hmono, hall⟩ := ih hrest
    refine ⟨fun x hx => hmono x (get_ranges_mono _ hmid x hx), ?_⟩
    intro r hr p hp
    rcases List.mem_cons.mp hr with rfl | hr
    · exact hmono p (get_ranges_complete hp hmid)
    · exact hall r hr p hp

/-- Decomposition of `construct_alphabet`. -/
theorem construct_alphabet_parts {rules : List Rule} {al : List (Nat × Nat)}
    (h : construct_alphabet rules = some al) :
    ∃ raw, rules.foldlM (fun acc r => get_ranges_from_element r.element acc) [] = some raw ∧
      alphaLoop 0 (rangePoints raw) [] = some al := by
  simp only [construct_alphabet, Option.bind_eq_bind, bind] at h
  rcases Option.bind_eq_some.mp h with ⟨raw, hraw, hloop⟩
  exact ⟨raw, hraw, hloop⟩

/-- Every referenced code point has its singleton interval in the alphabet. -/
theorem construct_alphabet_singleton {rules : List Rule} {al : List (Nat × Nat)}
    (h : construct_alphabet rules = some al) {rule : Rule} (hr : rule ∈ rules)
    {p : Char × Char} (hp : ElemPair rule.element p) :
    (p.1.toNat, p.1.toNat) ∈ al ∧ (p.2.toNat, p.2.toNat) ∈ al := by
  obtain ⟨raw, hraw, hloop⟩ := construct_alphabet_parts h
  have hpraw : p ∈ raw := (rules_fold_collects hraw).2 rule hr p hp
  obtain ⟨h1, h2⟩ := mem_rangePoints_of_mem hpraw
  have hmem := alphaLoop_mem hloop
  constructor
  · exact (hmem _).mpr (Or.inr (alphaMem_singleton _ h1))
  · exact (hmem _).mpr (Or.inr (alphaMem_singleton _ h2))

/-- Global facts about a successfully constructed alphabet: sorted,
intervals well-formed and bounded by `MAX_CODEPOINT`, pairwise disjoint. -/
theorem construct_alphabet_spec {rules : List Rule} {al : List (Nat × Nat)}
    (h : construct_alphabet rules = some al) :
    al.Pairwise pairLt ∧
    (∀ x ∈ al, x.1 ≤ x.2 ∧ x.2 ≤ MAX_CODEPOINT) ∧
    (∀ x ∈ al, ∀ y ∈ al, x ≠ y → x.2 < y.1 ∨ y.2 < x.1) := by
  obtain ⟨raw, _, hloop⟩ := construct_alphabet_parts h
  have hsorted := rangePoints_sorted raw
  have hne := alphaLoop_points_ne_zero hloop
  have hgt : ∀ p ∈ rangePoints raw, 0 < p := fun p hp => Nat.pos_of_ne_zero (hne p hp)
  have hmax : ∀ p ∈ rangePoints raw, p ≤ MAX_CODEPOINT := fun p hp => rangePoints_le_max hp
  have hmem := alphaLoop_mem hloop
  refine ⟨alphaLoop_sorted hloop (by simp), ?_, ?_⟩
  · intro x hx
    rcases (hmem x).mp hx with hx | hx
    · cases hx
    · exact alphaMem_hi_le_max hmax (by simp [MAX_CODEPOINT]) x hx
  · intro x hx y hy hxy
    rcases (hmem x).mp hx with hx | hx
    · cases hx
    rcases (hmem y).mp hy with hy | hy
    · cases hy
    exact alphaMem_disjoint hgt hsorted x y hx hy hxy

/-! ## Well-formedness of the constructed NFA -/

/-- Both endpoints of a connection point at existing states. -/
def connBounded (n : Nat) : EpsilonConnection → Prop
  | .epsilon a b => a < n ∧ b < n
  | .connection _ a b => a < n ∧ b < n

/-- A ranged connection's label is an alphabet interval. -/
def connRangeOk (alphabet : List (Nat × Nat)) : EpsilonConnection → Prop
  | .epsilon _ _ => True
  | .connection r _ _ => r ∈ alphabet

/-- Every code point referenced in the element has its singleton interval in
the alphabet (guaranteed by `construct_alphabet` over the same rules). -/
def elemOk (alphabet : List (Nat × Nat)) (e : Element) : Prop :=
  ∀ p : Char × Char, ElemPair e p →
    (p.1.toNat, p.1.toNat) ∈ alphabet ∧ (p.2.toNat, p.2.toNat) ∈ alphabet

theorem mem_hsInsert {x y : Nat × Nat} {l : List (Nat × Nat)} :
    y ∈ hsInsert x l ↔ y = x ∨ y ∈ l := by
  unfold hsInsert
  by_cases hx : x ∈ l
  · simp only [hx, if_true]
    constructor
    · exact Or.inr
    · rintro (rfl | hy)
      · exact hx
      · exact hy
  · simp [hx]
    tauto

theorem mem_hsRemove {x y : Nat × Nat} {l : List (Nat × Nat)} (h : y ∈ hsRemove x l) :
    y ∈ l := List.mem_of_mem_filter h

theorem listSlice_subset {l out : List (Nat × Nat)} {s e : Nat}
    (h : listSlice l s e = some out) : ∀ x ∈ out, x ∈ l := by
  unfold listSlice at h
  split at h
  · intro x hx
    rw [Option.some_inj] at h
    subst h
    exact List.drop_subset _ _ (List.take_subset _ _ hx)
  · cases h

theorem rangeSlice_subset {alphabet out : List (Nat × Nat)} {r : Char × Char}
    (h : rangeSlice alphabet r = some out) : ∀ x ∈ out, x ∈ alphabet := by
  unfold rangeSlice at h
  simp only [Option.bind_eq_bind, Option.pure_def] at h
  rcases Option.bind_eq_some.mp h with ⟨i1, _, h⟩
  rcases Option.bind_eq_some.mp h with ⟨i2, _, h⟩
  exact listSlice_subset h

theorem mem_foldl_hsRemove {β : Type} (f : β → Nat × Nat) (l : List β) :
    ∀ {acc : List (Nat × Nat)} {y : Nat × Nat},
    y ∈ l.foldl (fun cs b => hsRemove (f b) cs) acc → y ∈ acc := by
  induction l with
  | nil => exact fun h => h
  | cons x xs ih => exact fun h => mem_hsRemove (ih h)

theorem mem_foldl_hsInsert {β : Type} (f : β → Nat × Nat) (l : List β)
    {acc : List (Nat × Nat)} {y : Nat × Nat}
    (hy : y ∈ l.foldl (fun cs b => hsInsert (f b) cs) acc) :
    y ∈ acc ∨ ∃ b ∈ l, y = f b := by
  induction l generalizing acc with
  | nil => exact Or.inl hy
  | cons b bs ih =>
    rcases ih hy with hy | ⟨c, hc, rfl⟩
    · rcases mem_hsInsert.mp hy with rfl | hy
      · exact Or.inr ⟨b, by simp, rfl⟩
      · exact Or.inl hy
    · exact Or.inr ⟨c, List.mem_cons_of_mem _ hc, rfl⟩

/-- Members of the slice-insert loop of the `Set` arm come from the initial
set or from the alphabet. -/
theorem set_ranges_fold_mem {alphabet : List (Nat × Nat)} {ranges : List (Char × Char)} :
    ∀ {init conns : List (Nat × Nat)},
    ranges.foldlM (fun cs r => do
        let slice ← rangeSlice alphabet r
        return slice.foldl (fun cs iv => hsInsert iv cs) cs) init = some conns →
    ∀ y ∈ conns, y ∈ init ∨ y ∈ alphabet := by
  induction ranges with
  | nil =>
    intro init conns h y hy
    simp only [List.foldlM_nil, Option.pure_def, Option.some_inj] at h
    exact Or.inl (h ▸ hy)
  | cons r rs ih =>
    intro init conns h y hy
    simp only [List.foldlM_cons, Option.pure_def, Option.bind_eq_bind] at h
    rcases Option.bind_eq_some.mp h with ⟨mid, hmid, hrest⟩
    rcases Option.bind_eq_some.mp hmid with ⟨slice, hslice, hmid'⟩
    simp only [Option.some_inj] at hmid'
    rcases ih hrest y hy with hy' | hy'
    · subst hmid'
      rcases mem_foldl_hsInsert (fun iv => iv) slice hy' with hy'' | ⟨b, hb, rfl⟩
      · exact Or.inl hy''
      · exact Or.inr (rangeSlice_subset hslice _ hb)
    · exact Or.inr hy'

/-- Members of the removal loop of the `NegatedSet` arm come from the initial
set. -/
theorem neg_ranges_fold_mem {alphabet : List (Nat × Nat)} {ranges : List (Char × Char)} :
    ∀ {init conns : List (Nat × Nat)},
    ranges.foldlM (fun cs r => do
        let slice ← rangeSlice alphabet r
        return slice.foldl (fun cs iv => hsRemove iv cs) cs) init = some conns →
    ∀ y ∈ conns, y ∈ init := by
  induction ranges with
  | nil =>
    intro init conns h y hy
    simp only [List.foldlM_nil, Option.pure_def, Option.some_inj] at h
    exact h ▸ hy
  | cons r rs ih =>
    intro init conns h y hy
    simp only [List.foldlM_cons, Option.pure_def, Option.bind_eq_bind] at h
    rcases Option.bind_eq_some.mp h with ⟨mid, hmid, hrest⟩
    rcases Option.bind_eq_some.mp hmid with ⟨slice, hslice, hmid'⟩
    simp only [Option.some_inj] at hmid'
    have hy' := ih hrest y hy
    subst hmid'
    exact mem_foldl_hsRemove (fun iv => iv) slice hy'

/-- Postcondition of `connect_element`: state and connection vectors only
grow, new states are non-accepting, new connections are bounded and carry
alphabet labels, and the returned fragment endpoints are valid states. -/
def ConnectPost (alphabet : List (Nat × Nat)) (nfa nfa' : NFA) (en ex : Nat) : Prop :=
  (∃ ext, nfa'.states = nfa.states ++ ext ∧ ∀ st ∈ ext, st = NState.mk none) ∧
  nfa'.entry = nfa.entry ∧
  (∃ extC, nfa'.connections = nfa.connections ++ extC ∧
    ∀ c ∈ extC, connBounded nfa'.states.length c ∧ connRangeOk alphabet c) ∧
  en < nfa'.states.length ∧ ex < nfa'.states.length

/-- Like `ConnectPost` but without returned fragment endpoints. -/
def GrowPost (alphabet : List (Nat × Nat)) (nfa nfa' : NFA) : Prop :=
  (∃ ext, nfa'.states = nfa.states ++ ext ∧ ∀ st ∈ ext, st = NState.mk none) ∧
  nfa'.entry = nfa.entry ∧
  (∃ extC, nfa'.connections = nfa.connections ++ extC ∧
    ∀ c ∈ extC, connBounded nfa'.states.length c ∧ connRangeOk alphabet c)

theorem GrowPost.rfl {alphabet : List (Nat × Nat)} {nfa : NFA} : GrowPost alphabet nfa nfa :=
  ⟨⟨[], by simp, by simp⟩, Eq.refl _, ⟨[], by simp, by simp⟩⟩

theorem GrowPost.trans {alphabet : List (Nat × Nat)} {n1 n2 n3 : NFA}
    (h12 : GrowPost alphabet n1 n2) (h23 : GrowPost alphabet n2 n3) :
    GrowPost alphabet n1 n3 := by
  obtain ⟨⟨e1, hs1, ha1⟩, he1, ⟨c1, hc1, hb1⟩⟩ := h12
  obtain ⟨⟨e2, hs2, ha2⟩, he2, ⟨c2, hc2, hb2⟩⟩ := h23
  have hlen : n2.states.length ≤ n3.states.length := by rw [hs2]; simp
  refine ⟨⟨e1 ++ e2, by rw [hs2, hs1, List.append_assoc], ?_⟩, he2.trans he1,
    ⟨c1 ++ c2, by rw [hc2, hc1, List.append_assoc], ?_⟩⟩
  · intro st hst
    rcases List.mem_append.mp hst with h | h
    · exact ha1 st h
    · exact ha2 st h
  · intro c hc
    rcases List.mem_append.mp hc with h | h
    · obtain ⟨hb, hr⟩ := hb1 c h
      refine ⟨?_, hr⟩
      cases c with
      | epsilon a b => simp only [connBounded] at hb ⊢; omega
      | connection r a b => simp only [connBounded] at hb ⊢; omega
    · exact hb2 c h

theorem GrowPost.length_le {alphabet : List (Nat × Nat)} {n1 n2 : NFA}
    (h : GrowPost alphabet n1 n2) : n1.states.length ≤ n2.states.length := by
  obtain ⟨⟨e1, hs1, _⟩, _, _⟩ := h
  rw [hs1]; simp

theorem connect_epsilon_grow {alphabet : List (Nat × Nat)} {nfa : NFA} {a b : Nat}
    (ha : a < nfa.states.length) (hb : b < nfa.states.length) :
    GrowPost alphabet nfa (nfa.connect_epsilon a b) := by
  refine ⟨⟨[], by simp [NFA.connect_epsilon], by simp⟩, Eq.refl _,
    ⟨[.epsilon a b], by simp [NFA.connect_epsilon], ?_⟩⟩
  intro c hc
  rcases List.mem_singleton.mp hc with rfl
  exact ⟨⟨ha, hb⟩, trivial⟩

theorem add_empty_grow {alphabet : List (Nat × Nat)} {nfa : NFA} :
    GrowPost alphabet nfa (nfa.add_empty).1 ∧
      (nfa.add_empty).2 < (nfa.add_empty).1.states.length ∧
      (nfa.add_empty).1.states.length = nfa.states.length + 1 := by
  refine ⟨⟨⟨[⟨none⟩], by simp [NFA.add_empty, NFA.add], ?_⟩, Eq.refl _,
    ⟨[], by simp [NFA.add_empty, NFA.add], by simp⟩⟩, ?_, ?_⟩
  · intro st hst; rcases List.mem_singleton.mp hst with rfl; rfl
  · simp [NFA.add_empty, NFA.add]
  · simp [NFA.add_empty, NFA.add]

/-- The transition-emitting fold of the `Set` and `NegatedSet` arms. -/
theorem emit_fold_spec {alphabet : List (Nat × Nat)} {ivs : List (Nat × Nat)}
    (hok : ∀ iv ∈ ivs, iv ∈ alphabet) :
    ∀ {nfa : NFA} {en ex : Nat}, en < nfa.states.length → ex < nfa.states.length →
    GrowPost alphabet nfa (ivs.foldl (fun n iv => n.connect_range en ex iv) nfa) := by
  induction ivs with
  | nil => intro nfa en ex _ _; exact GrowPost.rfl
  | cons iv ivs ih =>
    intro nfa en ex hen hex
    simp only [List.foldl_cons]
    have h1 : GrowPost alphabet nfa (nfa.connect_range en ex iv) := by
      refine ⟨⟨[], by simp [NFA.connect_range], by simp⟩, Eq.refl _,
        ⟨[.connection iv en ex], by simp [NFA.connect_range], ?_⟩⟩
      intro c hc
      rcases List.mem_singleton.mp hc with rfl
      exact ⟨⟨hen, hex⟩, hok iv (by simp)⟩
    exact h1.trans (ih (fun x hx => hok x (List.mem_cons_of_mem _ hx))
      (by simpa [NFA.connect_range] using hen) (by simpa [NFA.connect_range] using hex))

/-- The per-character chain-building fold of the `Literal` arm. -/
theorem literal_fold_spec {alphabet : List (Nat × Nat)} {rest : List Char}
    (hok : ∀ c ∈ rest, (c.toNat, c.toNat) ∈ alphabet) :
    ∀ {nfa : NFA} {e0 : Nat}, e0 < nfa.states.length →
    GrowPost alphabet nfa
      (rest.foldl (fun (p : NFA × Nat) c =>
        let q := p.1.add_empty
        (q.1.connect_range p.2 q.2 (c.toNat, c.toNat), q.2)) (nfa, e0)).1 ∧
    (rest.foldl (fun (p : NFA × Nat) c =>
        let q := p.1.add_empty
        (q.1.connect_range p.2 q.2 (c.toNat, c.toNat), q.2)) (nfa, e0)).2 <
      (rest.foldl (fun (p : NFA × Nat) c =>
        let q := p.1.add_empty
        (q.1.connect_range p.2 q.2 (c.toNat, c.toNat), q.2)) (nfa, e0)).1.states.length := by
  induction rest with
  | nil => intro nfa e0 he0; exact ⟨GrowPost.rfl, he0⟩
  | cons c cs ih =>
    intro nfa e0 he0
    simp only [List.foldl_cons]
    have hgrow1 : GrowPost alphabet nfa ((nfa.add_empty).1.connect_range e0
        (nfa.add_empty).2 (c.toNat, c.toNat)) := by
      obtain ⟨hg, hlt, hlen⟩ := @add_empty_grow alphabet nfa
      refine hg.trans ?_
      refine ⟨⟨[], by simp [NFA.connect_range], by simp⟩, Eq.refl _,
        ⟨[.connection (c.toNat, c.toNat) e0 (nfa.add_empty).2],
          by simp [NFA.connect_range], ?_⟩⟩
      intro x hx
      rcases List.mem_singleton.mp hx with rfl
      exact ⟨⟨by simpa [NFA.connect_range] using lt_of_lt_of_le he0 (by omega), by
        simpa [NFA.connect_range] using hlt⟩, hok c (by simp)⟩
    have hnext : (nfa.add_empty).2 <
        ((nfa.add_empty).1.connect_range e0 (nfa.add_empty).2
          (c.toNat, c.toNat)).states.length := by
      obtain ⟨_, hlt, _⟩ := @add_empty_grow alphabet nfa
      simpa [NFA.connect_range] using hlt
    obtain ⟨hg2, hlt2⟩ := ih (fun x hx => hok x (List.mem_cons_of_mem _ hx)) hnext
    exact ⟨hgrow1.trans hg2, hlt2⟩

/-- Shorthand: the `ConnectPost` property holds for every run of
`connect_element` on `e`. -/
def CEPost (reorder : List (Nat × Nat) → List (Nat × Nat))
    (alphabet : List (Nat × Nat)) (e : Element) : Prop :=
  ∀ {nfa nfa' : NFA} {en ex : Nat},
    elemOk alphabet e →
    connect_element reorder alphabet nfa e = some (nfa', en, ex) →
    ConnectPost alphabet nfa nfa' en ex

/-- The `Group` concatenation loop preserves well-formedness, given the
property for each sub-element. -/
theorem connect_chain_post {reorder : List (Nat × Nat) → List (Nat × Nat)}
    {alphabet : List (Nat × Nat)} :
    ∀ es : List Element, (∀ e ∈ es, CEPost reorder alphabet e) →
    ∀ {nfa nfa' : NFA} {o ex : Nat},
      (∀ e ∈ es, elemOk alphabet e) → o < nfa.states.length →
      connect_chain reorder alphabet nfa o es = some (nfa', ex) →
      GrowPost alphabet nfa nfa' ∧ ex < nfa'.states.length := by
  intro es
  induction es with
  | nil =>
    intro _ nfa nfa' o ex _ ho h
    simp only [connect_chain, Option.some_inj, Prod.mk.injEq] at h
    obtain ⟨h1, h2⟩ := h
    subst h1; subst h2
    exact ⟨GrowPost.rfl, ho⟩
  | cons e es ihes =>
    intro hP nfa nfa' o ex hok ho h
    simp only [connect_chain, Option.bind_eq_bind, Option.pure_def] at h
    rcases Option.bind_eq_some.mp h with ⟨⟨nfa1, i1, o2⟩, hconn, hrest⟩
    obtain ⟨hstates, hentry, hconns, hi1, ho2⟩ :=
      hP e (by simp) (hok e (by simp)) hconn
    have hgrow1 : GrowPost alphabet nfa nfa1 := ⟨hstates, hentry, hconns⟩
    have heps := @connect_epsilon_grow alphabet nfa1 o i1
      (by have := hgrow1.length_le; omega) hi1
    obtain ⟨hg2, hex2⟩ := ihes (fun e' he' => hP e' (List.mem_cons_of_mem _ he'))
      (fun e' he' => hok e' (List.mem_cons_of_mem _ he'))
      (o := o2) (by simpa [NFA.connect_epsilon] using ho2) hrest
    exact ⟨(hgrow1.trans heps).trans hg2, hex2⟩

/-- The `Alternatives` loop preserves well-formedness. -/
theorem connect_alts_post {reorder : List (Nat × Nat) → List (Nat × Nat)}
    {alphabet : List (Nat × Nat)} :
    ∀ es : List Element, (∀ e ∈ es, CEPost reorder alphabet e) →
    ∀ {nfa nfa' : NFA} {entry exitS : Nat},
      (∀ e ∈ es, elemOk alphabet e) → entry < nfa.states.length →
      exitS < nfa.states.length →
      connect_alts reorder alphabet nfa entry exitS es = some nfa' →
      GrowPost alphabet nfa nfa' := by
  intro es
  induction es with
  | nil =>
    intro _ nfa nfa' entry exitS _ _ _ h
    simp only [connect_alts, Option.some_inj] at h
    exact h ▸ GrowPost.rfl
  | cons e es ihes =>
    intro hP nfa nfa' entry exitS hok hentry hexit h
    simp only [connect_alts, Option.bind_eq_bind, Option.pure_def] at h
    rcases Option.bind_eq_some.mp h with ⟨⟨nfa1, s1, e1⟩, hconn, hrest⟩
    obtain ⟨hstates, hentry1, hconns, hs1, he1⟩ :=
      hP e (by simp) (hok e (by simp)) hconn
    have hgrow1 : GrowPost alphabet nfa nfa1 := ⟨hstates, hentry1, hconns⟩
    have hlen1 := hgrow1.length_le
    have heps1 := @connect_epsilon_grow alphabet nfa1 entry s1 (by omega) hs1
    have heps2 := @connect_epsilon_grow alphabet (nfa1.connect_epsilon entry s1) e1 exitS
      (by simpa [NFA.connect_epsilon] using he1)
      (by simp only [NFA.connect_epsilon]; omega)
    have hg3 := @ihes (fun e' he' => hP e' (List.mem_cons_of_mem _ he')) _ _ entry exitS
      (fun e' he' => hok e' (List.mem_cons_of_mem _ he'))
      (by simp only [NFA.connect_epsilon]; omega)
      (by simp only [NFA.connect_epsilon]; omega) hrest
    exact ((hgrow1.trans heps1).trans heps2).trans hg3

/-- Main well-formedness property of `connect_element` (mutual induction over
the element; the list motive carries the property pointwise). -/
theorem connect_element_post {reorder : List (Nat × Nat) → List (Nat × Nat)}
    (hre : ∀ l, List.Perm (reorder l) l) {alphabet : List (Nat × Nat)} :
    ∀ e : Element, CEPost reorder alphabet e := by
  have main := Element.mutual_induction
    (P := fun e => CEPost reorder alphabet e)
    (Q := fun es => ∀ e ∈ es, CEPost reorder alphabet e)
  refine fun e => main ?_ ?_ ?_ ?_ ?_ ?_ ?_ ?_ ?_ ?_ ?_ e
  -- Rule: panic
  · intro var name nfa nfa' en ex _ h; cases h
  -- Set
  · intro chars ranges nfa nfa' en ex hok h
    simp only [connect_element, Option.bind_eq_bind, Option.pure_def] at h
    rcases Option.bind_eq_some.mp h with ⟨conns, hconns, hret⟩
    simp only [Option.some_inj, Prod.mk.injEq] at hret
    obtain ⟨hnfa', hen, hex⟩ := hret
    subst hnfa'; subst hen; subst hex
    obtain ⟨hgA, hltA, hlenA⟩ := @add_empty_grow alphabet nfa
    obtain ⟨hgB, hltB, hlenB⟩ :=
      @add_empty_grow alphabet (nfa.add_empty).1
    have hconnsOk : ∀ iv ∈ reorder conns, iv ∈ alphabet := by
      intro iv hiv
      have hiv' : iv ∈ conns := (hre conns).mem_iff.mp hiv
      rcases set_ranges_fold_mem hconns iv hiv' with hiv'' | hiv''
      · rcases mem_foldl_hsInsert (fun c => (c.toNat, c.toNat)) chars hiv'' with h0 | ⟨c, hc, rfl⟩
        · cases h0
        · exact (hok (c, c) (ElemPair.setChar hc)).1
      · exact hiv''
    have hemit := @emit_fold_spec alphabet (reorder conns) hconnsOk
      ((nfa.add_empty).1.add_empty).1
      (nfa.add_empty).2 ((nfa.add_empty).1.add_empty).2
      (by omega) hltB
    have hgrow := (hgA.trans hgB).trans hemit
    have hlenFinal := hemit.length_le
    exact ⟨hgrow.1, hgrow.2.1, hgrow.2.2, by omega, by omega⟩
  -- NegatedSet
  · intro chars ranges nfa nfa' en ex _ h
    simp only [connect_element, Option.bind_eq_bind, Option.pure_def] at h
    rcases Option.bind_eq_some.mp h with ⟨conns, hconns, hret⟩
    simp only [Option.some_inj, Prod.mk.injEq] at hret
    obtain ⟨hnfa', hen, hex⟩ := hret
    subst hnfa'; subst hen; subst hex
    obtain ⟨hgA, hltA, hlenA⟩ := @add_empty_grow alphabet nfa
    obtain ⟨hgB, hltB, hlenB⟩ :=
      @add_empty_grow alphabet (nfa.add_empty).1
    have hconnsOk : ∀ iv ∈ reorder conns, iv ∈ alphabet := by
      intro iv hiv
      have hiv' : iv ∈ conns := (hre conns).mem_iff.mp hiv
      have hiv'' := neg_ranges_fold_mem hconns iv hiv'
      have hiv3 := mem_foldl_hsRemove (fun c => (c.toNat, c.toNat)) chars hiv''
      rcases mem_foldl_hsInsert (fun x => x) alphabet hiv3 with h0 | ⟨b, hb, rfl⟩
      · cases h0
      · exact hb
    have hemit := @emit_fold_spec alphabet (reorder conns) hconnsOk
      ((nfa.add_empty).1.add_empty).1
      (nfa.add_empty).2 ((nfa.add_empty).1.add_empty).2
      (by omega) hltB
    have hgrow := (hgA.trans hgB).trans hemit
    have hlenFinal := hemit.length_le
    exact ⟨hgrow.1, hgrow.2.1, hgrow.2.2, by omega, by omega⟩
  -- Literal
  · intro lit nfa nfa' en ex hok h
    match lit with
    | [] => cases h
    | first :: rest =>
      simp only [connect_element, Option.some_inj, Prod.mk.injEq] at h
      obtain ⟨hnfa', hen, hex⟩ := h
      subst hnfa'; subst hen; subst hex
      obtain ⟨hgA, hltA, hlenA⟩ := @add_empty_grow alphabet nfa
      obtain ⟨hgB, hltB, hlenB⟩ :=
        @add_empty_grow alphabet (nfa.add_empty).1
      have hg1 : GrowPost alphabet nfa
          (((nfa.add_empty).1.add_empty).1.connect_range (nfa.add_empty).2
            ((nfa.add_empty).1.add_empty).2 (first.toNat, first.toNat)) := by
        refine (hgA.trans hgB).trans ?_
        refine ⟨⟨[], by simp [NFA.connect_range], by simp⟩, Eq.refl _,
          ⟨[.connection (first.toNat, first.toNat) (nfa.add_empty).2
            ((nfa.add_empty).1.add_empty).2], by simp [NFA.connect_range], ?_⟩⟩
        intro c hc
        rcases List.mem_singleton.mp hc with rfl
        refine ⟨⟨by simpa [NFA.connect_range] using by omega,
          by simpa [NFA.connect_range] using hltB⟩, ?_⟩
        exact (hok (first, first) (ElemPair.lit (by simp))).1
      have hfold := @literal_fold_spec alphabet rest
        (fun c hc => (hok (c, c) (ElemPair.lit (List.mem_cons_of_mem _ hc))).1)
        (((nfa.add_empty).1.add_empty).1.connect_range (nfa.add_empty).2
          ((nfa.add_empty).1.add_empty).2 (first.toNat, first.toNat))
        ((nfa.add_empty).1.add_empty).2
        (by simpa [NFA.connect_range] using hltB)
      refine ⟨(hg1.trans hfold.1).1, (hg1.trans hfold.1).2.1, (hg1.trans hfold.1).2.2,
        ?_, hfold.2⟩
      have h1 := hg1.length_le
      have h2 := hfold.1.length_le
      have h3 : (nfa.add_empty).2 < nfa.states.length + 1 := hlenA ▸ hltA
      simp only [NFA.connect_range] at h2 ⊢
      omega
  -- OneOrMore
  · intro inner ih nfa nfa' en ex hok h
    simp only [connect_element, Option.bind_eq_bind, Option.pure_def] at h
    rcases Option.bind_eq_some.mp h with ⟨⟨nfa1, en1, ex1⟩, hconn, hret⟩
    simp only [Option.some_inj, Prod.mk.injEq] at hret
    obtain ⟨hnfa', hen, hex⟩ := hret
    subst hnfa'; subst hen; subst hex
    obtain ⟨hstates, hentry, hconns, hen1, hex1⟩ :=
      ih (fun p hp => hok p (ElemPair.one hp)) hconn
    have heps := @connect_epsilon_grow alphabet _ _ _ hex1 hen1
    exact ⟨(GrowPost.trans ⟨hstates, hentry, hconns⟩ heps).1,
      (GrowPost.trans ⟨hstates, hentry, hconns⟩ heps).2.1,
      (GrowPost.trans ⟨hstates, hentry, hconns⟩ heps).2.2,
      by simpa [NFA.connect_epsilon] using hen1,
      by simpa [NFA.connect_epsilon] using hex1⟩
  -- ZeroOrMore
  · intro inner ih nfa nfa' en ex hok h
    simp only [connect_element, Option.bind_eq_bind, Option.pure_def] at h
    rcases Option.bind_eq_some.mp h with ⟨⟨nfa1, en1, ex1⟩, hconn, hret⟩
    simp only [Option.some_inj, Prod.mk.injEq] at hret
    obtain ⟨hnfa', hen, hex⟩ := hret
    subst hnfa'; subst hen; subst hex
    obtain ⟨hstates, hentry, hconns, hen1, hex1⟩ :=
      ih (fun p hp => hok p (ElemPair.zero hp)) hconn
    have heps1 := @connect_epsilon_grow alphabet _ _ _ hex1 hen1
    have heps2 := @connect_epsilon_grow alphabet (nfa1.connect_epsilon ex1 en1) en1 ex1
      (by simpa [NFA.connect_epsilon] using hen1)
      (by simpa [NFA.connect_epsilon] using hex1)
    have hg := (GrowPost.trans ⟨hstates, hentry, hconns⟩ heps1).trans heps2
    exact ⟨hg.1, hg.2.1, hg.2.2,
      by simpa [NFA.connect_epsilon] using hen1,
      by simpa [NFA.connect_epsilon] using hex1⟩
  -- Optional
  · intro inner ih nfa nfa' en ex hok h
    simp only [connect_element, Option.bind_eq_bind, Option.pure_def] at h
    rcases Option.bind_eq_some.mp h with ⟨⟨nfa1, en1, ex1⟩, hconn, hret⟩
    simp only [Option.some_inj, Prod.mk.injEq] at hret
    obtain ⟨hnfa', hen, hex⟩ := hret
    subst hnfa'; subst hen; subst hex
    obtain ⟨hstates, hentry, hconns, hen1, hex1⟩ :=
      ih (fun p hp => hok p (ElemPair.opt hp)) hconn
    have heps := @connect_epsilon_grow alphabet _ _ _ hen1 hex1
    exact ⟨(GrowPost.trans ⟨hstates, hentry, hconns⟩ heps).1,
      (GrowPost.trans ⟨hstates, hentry, hconns⟩ heps).2.1,
      (GrowPost.trans ⟨hstates, hentry, hconns⟩ heps).2.2,
      by simpa [NFA.connect_epsilon] using hen1,
      by simpa [NFA.connect_epsilon] using hex1⟩
  -- Alternatives
  · intro subelems ih nfa nfa' en ex hok h
    simp only [connect_element, Option.bind_eq_bind, Option.pure_def] at h
    rcases Option.bind_eq_some.mp h with ⟨nfa1, halts, hret⟩
    simp only [Option.some_inj, Prod.mk.injEq] at hret
    obtain ⟨hnfa', hen, hex⟩ := hret
    subst hnfa'; subst hen; subst hex
    obtain ⟨hgA, hltA, hlenA⟩ := @add_empty_grow alphabet nfa
    obtain ⟨hgB, hltB, hlenB⟩ :=
      @add_empty_grow alphabet (nfa.add_empty).1
    have halts' := @connect_alts_post reorder alphabet subelems ih _ _
      (nfa.add_empty).2 _
      (fun e he p hp => hok p (ElemPair.alt he hp))
      (by omega) hltB halts
    have hg := (hgA.trans hgB).trans halts'
    have hlen := halts'.length_le
    exact ⟨hg.1, hg.2.1, hg.2.2, by omega, by omega⟩
  -- Group
  · intro subelems ih nfa nfa' en ex hok h
    match subelems with
    | [] => cases h
    | e :: rest =>
      simp only [connect_element, Option.bind_eq_bind, Option.pure_def] at h
      rcases Option.bind_eq_some.mp h with ⟨⟨nfa1, en1, o1⟩, hconn, hrest⟩
      rcases Option.bind_eq_some.mp hrest with ⟨⟨nfa2, ex2⟩, hchain, hret⟩
      simp only [Option.some_inj, Prod.mk.injEq] at hret
      obtain ⟨hnfa', hen, hex⟩ := hret
      subst hnfa'; subst hen; subst hex
      obtain ⟨hstates, hentry, hconns, hen1, ho1⟩ :=
        ih e (by simp) (fun p hp => hok p (ElemPair.grp (by simp) hp)) hconn
      have hgrow1 : GrowPost alphabet nfa nfa1 := ⟨hstates, hentry, hconns⟩
      obtain ⟨hg2, hex2⟩ := connect_chain_post rest
        (fun e' he' => ih e' (List.mem_cons_of_mem _ he'))
        (fun e' he' p hp => hok p (ElemPair.grp (List.mem_cons_of_mem _ he') hp))
        ho1 hchain
      refine ⟨(hgrow1.trans hg2).1, (hgrow1.trans hg2).2.1, (hgrow1.trans hg2).2.2,
        ?_, hex2⟩
      have := hg2.length_le
      omega
  -- nil
  · intro e he
    exact absurd he (by simp)
  -- cons
  · intro e es ihe ihes e' he'
    rcases List.mem_cons.mp he' with rfl | he'
    · exact ihe
    · exact ihes e' he'

/-- Well-formedness of a constructed NFA, relative to the alphabet and the
rule list. -/
structure NfaWf (alphabet : List (Nat × Nat)) (rules : List Rule) (nfa : NFA) : Prop where
  entry_eq : nfa.entry = 0
  states_pos : 0 < nfa.states.length
  conns_bounded : ∀ c ∈ nfa.connections, connBounded nfa.states.length c
  conns_rangeOk : ∀ c ∈ nfa.connections, connRangeOk alphabet c
  labels : ∀ st ∈ nfa.states, st.accepting = none ∨ ∃ rule ∈ rules, st.accepting = some rule.name

theorem construct_nfa_loop_wf {reorder : List (Nat × Nat) → List (Nat × Nat)}
    (hre : ∀ l, List.Perm (reorder l) l) {alphabet : List (Nat × Nat)}
    {rules : List Rule} :
    ∀ (todo : List Rule) {nfa0 nfa : NFA},
      (∀ r ∈ todo, r ∈ rules) → (∀ r ∈ todo, elemOk alphabet r.element) →
      NfaWf alphabet rules nfa0 →
      construct_nfa_loop reorder alphabet nfa0 todo = some nfa →
      NfaWf alphabet rules nfa := by
  intro todo
  induction todo with
  | nil =>
    intro nfa0 nfa _ _ hwf h
    simp only [construct_nfa_loop, Option.some_inj] at h
    exact h ▸ hwf
  | cons rule rules' ih =>
    intro nfa0 nfa hsub hok hwf h
    simp only [construct_nfa_loop, NFA.add, Option.bind_eq_bind, Option.pure_def] at h
    rcases Option.bind_eq_some.mp h with ⟨⟨nfa2, elem_entry, elem_exit⟩, hconn, hrest⟩
    refine ih (fun r hr => hsub r (List.mem_cons_of_mem _ hr))
      (fun r hr => hok r (List.mem_cons_of_mem _ hr)) ?_ hrest
    obtain ⟨⟨ext, hstates, hextnone⟩, hentry, ⟨extC, hconns, hextC⟩, hen, hex⟩ :=
      connect_element_post hre rule.element (hok rule (by simp)) hconn
    simp only at hstates hentry hconns
    have hlen2 : nfa0.states.length + 1 ≤ nfa2.states.length := by
      rw [hstates]; simp
    have hentry2 : nfa2.entry = 0 := by rw [hentry, hwf.entry_eq]
    constructor
    · simp [NFA.connect_epsilon, hentry2]
    · simp only [NFA.connect_epsilon]
      omega
    · intro c hc
      simp only [NFA.connect_epsilon, List.append_assoc, List.mem_append,
        List.mem_singleton, List.mem_cons, List.not_mem_nil, or_false] at hc
      rcases hc with hc | rfl | rfl
      · rw [hconns] at hc
        rcases List.mem_append.mp hc with hc | hc
        · have hb := hwf.conns_bounded c hc
          simp only [NFA.connect_epsilon]
          cases c with
          | epsilon a b => simp only [connBounded] at hb ⊢; omega
          | connection r a b => simp only [connBounded] at hb ⊢; omega
        · have hb := (hextC c hc).1
          simp only [NFA.connect_epsilon]
          cases c with
          | epsilon a b => simp only [connBounded] at hb ⊢; omega
          | connection r a b => simp only [connBounded] at hb ⊢; omega
      · simp only [NFA.connect_epsilon, connBounded]
        constructor
        · omega
        · omega
      · simp only [NFA.connect_epsilon, connBounded]
        constructor
        · omega
        · omega
    · intro c hc
      simp only [NFA.connect_epsilon, List.append_assoc, List.mem_append,
        List.mem_singleton, List.mem_cons, List.not_mem_nil, or_false] at hc
      rcases hc with hc | rfl | rfl
      · rw [hconns] at hc
        rcases List.mem_append.mp hc with hc | hc
        · exact hwf.conns_rangeOk c hc
        · exact (hextC c hc).2
      · trivial
      · trivial
    · intro st hst
      simp only [NFA.connect_epsilon] at hst
      rw [hstates] at hst
      rcases List.mem_append.mp hst with hst | hst
      · rcases List.mem_append.mp hst with hst | hst
        · exact hwf.labels st hst
        · rcases List.mem_singleton.mp hst with rfl
          exact Or.inr ⟨rule, hsub rule (by simp), rfl⟩
      · exact Or.inl (by rw [hextnone st hst])

theorem NFA_new_wf {alphabet : List (Nat × Nat)} {rules : List Rule} :
    NfaWf alphabet rules NFA.new := by
  constructor
  · rfl
  · simp [NFA.new]
  · intro c hc; cases hc
  · intro c hc; cases hc
  · intro st hst
    rcases List.mem_singleton.mp hst with rfl
    exact Or.inl rfl

theorem construct_nfa_wf {reorder : List (Nat × Nat) → List (Nat × Nat)}
    (hre : ∀ l, List.Perm (reorder l) l) {rules : List Rule}
    {alphabet : List (Nat × Nat)} {nfa : NFA}
    (hok : ∀ r ∈ rules, elemOk alphabet r.element)
    (h : construct_nfa reorder rules alphabet = some nfa) :
    NfaWf alphabet rules nfa :=
  construct_nfa_loop_wf hre rules (fun _ hr => hr) hok NFA_new_wf h

/-- Every rule of a successfully built alphabet is `elemOk`. -/
theorem rules_elemOk {rules : List Rule} {alphabet : List (Nat × Nat)}
    (h : construct_alphabet rules = some alphabet) :
    ∀ r ∈ rules, elemOk alphabet r.element := by
  intro r hr p hp
  exact construct_alphabet_singleton h hr hp

/-! ## Path semantics of the NFA -/

/-- Code point `c` lies in the closed interval `r`. -/
def inRange (c : Nat) (r : Nat × Nat) : Prop := r.1 ≤ c ∧ c ≤ r.2

instance {c : Nat} {r : Nat × Nat} : Decidable (inRange c r) := by
  unfold inRange; infer_instance

/-- A path through the NFA from state `a` over the code-point word `w`,
interleaving ε-edges and ranged transitions whose interval contains the
consumed code point. -/
inductive NfaReaches (nfa : NFA) : Nat → List Nat → Nat → Prop where
  | refl (s : Nat) : NfaReaches nfa s [] s
  | eps {a b t : Nat} {w : List Nat} :
      EpsilonConnection.epsilon a b ∈ nfa.connections →
      NfaReaches nfa b w t → NfaReaches nfa a w t
  | step {r : Nat × Nat} {a b t c : Nat} {w : List Nat} :
      EpsilonConnection.connection r a b ∈ nfa.connections →
      inRange c r → NfaReaches nfa b w t → NfaReaches nfa a (c :: w) t

/-- State `i` of the NFA is an accepting state. -/
def nfaAccepting (nfa : NFA) (i : Nat) : Prop :=
  ∃ st, nfa.states.get? i = some st ∧ st.accepting.isSome

/-- The NFA accepts `w`: some path from the entry state over `w` ends in an
accepting state. -/
def nfaAccepts (nfa : NFA) (w : List Nat) : Prop :=
  ∃ t, NfaReaches nfa nfa.entry w t ∧ nfaAccepting nfa t

/-- One character-step of the subset simulation: all states reachable from
`s` by one ranged transition whose interval contains `c`. -/
def charMove (conns : List EpsilonConnection) (s : Finset Nat) (c : Nat) : Finset Nat :=
  (conns.filterMap (fun e => match e with
    | .connection r a b => if a ∈ s ∧ inRange c r then some b else none
    | .epsilon _ _ => none)).toFinset

/-- The ε-closed set of NFA states reachable over the word `w`. -/
def reachSet (nfa : NFA) (w : List Nat) : Finset Nat :=
  w.foldl (fun s c => epsilon_closure nfa.connections (charMove nfa.connections s c))
    (epsilon_closure nfa.connections {nfa.entry})

theorem mem_charMove {conns : List EpsilonConnection} {s : Finset Nat} {c x : Nat} :
    x ∈ charMove conns s c ↔
      ∃ r a, EpsilonConnection.connection r a x ∈ conns ∧ a ∈ s ∧ inRange c r := by
  simp only [charMove, List.mem_toFinset, List.mem_filterMap]
  constructor
  · rintro ⟨e, he, hfe⟩
    cases e with
    | epsilon a b => simp at hfe
    | connection r a b =>
      simp only [] at hfe
      by_cases hcond : a ∈ s ∧ inRange c r
      · rw [if_pos hcond, Option.some_inj] at hfe
        exact ⟨r, a, hfe ▸ he, hcond⟩
      · simp [hcond] at hfe
  · rintro ⟨r, a, he, ha, hr⟩
    exact ⟨.connection r a x, he, by simp [ha, hr]⟩

/-- A set is ε-closed when every ε-edge out of it stays inside. -/
def EpsClosed (conns : List EpsilonConnection) (s : Finset Nat) : Prop :=
  ∀ a b, a ∈ s → epsEdge conns a b → b ∈ s

theorem epsilon_closure_closed {conns : List EpsilonConnection} {s : Finset Nat} :
    EpsClosed conns (epsilon_closure conns s) := by
  intro a b ha hab
  rw [← epsStep_epsilon_closure]
  exact mem_epsStep.mpr (Or.inr ⟨a, ha, hab⟩)

theorem mem_of_epsReach {conns : List EpsilonConnection} {s : Finset Nat} {a b : Nat}
    (hclosed : EpsClosed conns s) (ha : a ∈ s) (h : EpsReach conns a b) : b ∈ s := by
  induction h with
  | refl => exact ha
  | tail _ hedge ih => exact hclosed _ _ ih hedge

/-- A path over the empty word is an ε-chain. -/
theorem nfaReaches_nil_iff {nfa : NFA} {a t : Nat} :
    NfaReaches nfa a [] t ↔ EpsReach nfa.connections a t := by
  constructor
  · intro h
    generalize hw : ([] : List Nat) = w at h
    induction h with
    | refl => exact Relation.ReflTransGen.refl
    | eps hedge _ ih => exact Relation.ReflTransGen.head hedge (ih hw)
    | step hconn hr hrest ih => cases hw
  · intro h
    induction h using Relation.ReflTransGen.head_induction_on with
    | refl => exact NfaReaches.refl _
    | head hedge _ ih => exact NfaReaches.eps hedge ih

/-- Prepending an ε-chain to a path. -/
theorem nfaReaches_of_epsReach {nfa : NFA} {x y t : Nat} {w : List Nat}
    (h : EpsReach nfa.connections x y) (hp : NfaReaches nfa y w t) :
    NfaReaches nfa x w t := by
  induction h using Relation.ReflTransGen.head_induction_on with
  | refl => exact hp
  | head hedge _ ih => exact NfaReaches.eps hedge ih

/-- A path over `c :: w` decomposes into an ε-chain, one ranged step
consuming `c`, and a path over `w`. -/
theorem nfaReaches_cons_iff {nfa : NFA} {a t c : Nat} {w : List Nat} :
    NfaReaches nfa a (c :: w) t ↔
      ∃ a' b r, EpsReach nfa.connections a a' ∧
        EpsilonConnection.connection r a' b ∈ nfa.connections ∧ inRange c r ∧
        NfaReaches nfa b w t := by
  constructor
  · intro h
    generalize hw : (c :: w : List Nat) = w0 at h
    induction h with
    | refl => cases hw
    | eps hedge _ ih =>
      obtain ⟨a', b, r, hchain, hconn, hr, hrest⟩ := ih hw
      exact ⟨a', b, r, Relation.ReflTransGen.head hedge hchain, hconn, hr, hrest⟩
    | step hconn hr hrest ih =>
      obtain ⟨rfl, rfl⟩ : _ ∧ _ := by
        constructor
        · exact (List.cons.injEq _ _ _ _ ▸ hw).1
        · exact (List.cons.injEq _ _ _ _ ▸ hw).2
      exact ⟨_, _, _, Relation.ReflTransGen.refl, hconn, hr, hrest⟩
  · rintro ⟨a', b, r, hchain, hconn, hr, hrest⟩
    exact nfaReaches_of_epsReach hchain (NfaReaches.step hconn hr hrest)

/-- Characterisation of the subset-simulation fold by paths, relative to an
ε-closed start set. -/
theorem reach_fold_iff {nfa : NFA} :
    ∀ (w : List Nat) (s : Finset Nat), EpsClosed nfa.connections s →
    ∀ t, (t ∈ w.foldl
        (fun s c => epsilon_closure nfa.connections (charMove nfa.connections s c)) s ↔
      ∃ a ∈ s, NfaReaches nfa a w t) := by
  intro w
  induction w with
  | nil =>
    intro s hclosed t
    simp only [List.foldl_nil]
    constructor
    · intro ht
      exact ⟨t, ht, NfaReaches.refl t⟩
    · rintro ⟨a, ha, hreach⟩
      exact mem_of_epsReach hclosed ha (nfaReaches_nil_iff.mp hreach)
  | cons c w ih =>
    intro s hclosed t
    simp only [List.foldl_cons]
    rw [ih _ epsilon_closure_closed t]
    constructor
    · rintro ⟨b, hb, hrest⟩
      obtain ⟨b0, hb0, hchain⟩ := mem_epsilon_closure.mp hb
      obtain ⟨r, a, hconn, ha, hr⟩ := mem_charMove.mp hb0
      exact ⟨a, ha, NfaReaches.step hconn hr (nfaReaches_of_epsReach hchain hrest)⟩
    · rintro ⟨a, ha, hreach⟩
      obtain ⟨a', b, r, hchain, hconn, hr, hrest⟩ := nfaReaches_cons_iff.mp hreach
      have ha' : a' ∈ s := mem_of_epsReach hclosed ha hchain
      refine ⟨b, ?_, hrest⟩
      exact subset_epsilon_closure (mem_charMove.mpr ⟨r, a', hconn, ha', hr⟩)

/-- The reach set over `w` is exactly the set of path-reachable states. -/
theorem mem_reachSet {nfa : NFA} {w : List Nat} {t : Nat} :
    t ∈ reachSet nfa w ↔ NfaReaches nfa nfa.entry w t := by
  rw [reachSet, reach_fold_iff w _ epsilon_closure_closed t]
  constructor
  · rintro ⟨a, ha, hreach⟩
    obtain ⟨e, he, hchain⟩ := mem_epsilon_closure.mp ha
    rcases Finset.mem_singleton.mp he
    exact nfaReaches_of_epsReach hchain hreach
  · intro h
    exact ⟨nfa.entry, subset_epsilon_closure (Finset.mem_singleton_self _), h⟩

/-! ## DFA simulation -/

/-- One step of the DFA simulation from state `s` on code point `c`: follow
the unique transition of `s` whose interval contains `c` (`none` when no
transition matches). -/
def dfaStep (dfa : DFA) (s c : Nat) : Option Nat :=
  (dfa.connections.find? (fun conn => conn.start == s && decide (inRange c conn.range))).map
    (·.tgt)

/-- Run of the DFA simulation over a word. -/
def dfaRun (dfa : DFA) : Nat → List Nat → Option Nat
  | s, [] => some s
  | s, c :: w =>
      match dfaStep dfa s c with
      | some t => dfaRun dfa t w
      | none => none

/-- The DFA accepts `w`: the simulation from state 0 ends in a state whose
accepting label is `Some(name)` with `name ≠ "_TRAP"`. -/
def dfaAccepts (dfa : DFA) (w : List Nat) : Prop :=
  ∃ s st name, dfaRun dfa 0 w = some s ∧ dfa.states.get? s = some st ∧
    st.accepting = some name ∧ name ≠ "_TRAP"

/-- Top-level consequences of a completed subset construction. -/
theorem pc_top {nfa : NFA} {alphabet : List (Nat × Nat)} {fuel : Nat} {S0 : Finset Nat}
    {ps : List (Finset Nat)} {cs : List Connection}
    (h : pcAux nfa alphabet fuel 0 alphabet [S0] [] = some (ps, cs)) :
    ps.get? 0 = some S0 ∧ ps.Nodup ∧ 1 ≤ ps.length ∧
    (∀ i, i < ps.length → ∀ r, (connsFor cs i r).length = alphabet.count r) ∧
    (∀ c ∈ cs, c.range ∈ alphabet ∧ c.tgt < ps.length ∧ ∃ Si, ps.get? c.start = some Si ∧
      ps.get? c.tgt = some (transSet nfa.connections Si c.range)) := by
  obtain ⟨ext, extCs, hps, hcs, hC, hD, hE, hF, hG⟩ := pcAux_post h (by simp)
  have hcs' : cs = extCs := by simpa using hcs
  subst hcs'
  refine ⟨by rw [hps]; rfl, hG (by simp), by rw [hps]; simp, ?_, ?_⟩
  · intro i hi r
    match i, hi with
    | 0, _ => exact hD r
    | i + 1, hi => exact hE (i + 1) (by simp) hi r
  · intro c hc
    obtain ⟨htgt, Si, hSi, hSe⟩ := hF c hc
    refine ⟨?_, htgt, Si, hSi, hSe⟩
    rcases hC c hc with ⟨_, hr⟩ | ⟨_, _, hr⟩ <;> exact hr

theorem mem_moveSet {conns : List EpsilonConnection} {s : Finset Nat} {r : Nat × Nat}
    {x : Nat} :
    x ∈ moveSet conns s r ↔
      ∃ a, EpsilonConnection.connection r a x ∈ conns ∧ a ∈ s := by
  simp only [moveSet, List.mem_toFinset, List.mem_filterMap]
  constructor
  · rintro ⟨e, he, hfe⟩
    cases e with
    | epsilon a b => simp at hfe
    | connection r' a b =>
      simp only [] at hfe
      by_cases hcond : a ∈ s ∧ r' = r
      · rw [if_pos hcond, Option.some_inj] at hfe
        exact ⟨a, by rw [← hcond.2]; exact hfe ▸ he, hcond.1⟩
      · simp [hcond] at hfe
  · rintro ⟨a, he, ha⟩
    exact ⟨.connection r a x, he, by simp [ha]⟩

/-- When every ranged NFA connection is labelled by an alphabet interval and
the alphabet is pairwise disjoint, the character move through the interval
containing `c` is the interval move. -/
theorem charMove_eq_moveSet {conns : List EpsilonConnection} {alphabet : List (Nat × Nat)}
    {s : Finset Nat} {c : Nat} {r : Nat × Nat}
    (hok : ∀ e ∈ conns, connRangeOk alphabet e)
    (hdisj : ∀ x ∈ alphabet, ∀ y ∈ alphabet, x ≠ y → x.2 < y.1 ∨ y.2 < x.1)
    (hr : r ∈ alphabet) (hcr : inRange c r) :
    charMove conns s c = moveSet conns s r := by
  ext x
  rw [mem_charMove, mem_moveSet]
  constructor
  · rintro ⟨r', a, he, ha, hr'⟩
    have hr'mem : r' ∈ alphabet := hok _ he
    have : r' = r := by
      by_contra hne
      rcases hdisj r' hr'mem r hr hne with h | h
      · rcases hr' with ⟨h1, h2⟩
        rcases hcr with ⟨h3, h4⟩
        omega
      · rcases hr' with ⟨h1, h2⟩
        rcases hcr with ⟨h3, h4⟩
        omega
    exact ⟨a, this ▸ he, ha⟩
  · rintro ⟨a, he, ha⟩
    exact ⟨r, a, he, ha, hcr⟩

/-- When `c` lies in no alphabet interval, no ranged connection matches it. -/
theorem charMove_empty {conns : List EpsilonConnection} {alphabet : List (Nat × Nat)}
    {s : Finset Nat} {c : Nat}
    (hok : ∀ e ∈ conns, connRangeOk alphabet e)
    (huncov : ∀ r ∈ alphabet, ¬ inRange c r) :
    charMove conns s c = ∅ := by
  ext x
  simp only [Finset.not_mem_empty, iff_false]
  rw [mem_charMove]
  rintro ⟨r, a, he, _, hcr⟩
  exact huncov r (hok _ he) hcr

theorem mem_moveSet_lt {conns : List EpsilonConnection} {s : Finset Nat} {r : Nat × Nat}
    {n x : Nat} (hb : ∀ c ∈ conns, connBounded n c) (hx : x ∈ moveSet conns s r) :
    x < n := by
  obtain ⟨a, he, _⟩ := mem_moveSet.mp hx
  exact (hb _ he).2

theorem mem_epsilon_closure_lt {conns : List EpsilonConnection} {s : Finset Nat}
    {n x : Nat} (hb : ∀ c ∈ conns, connBounded n c) (hs : ∀ y ∈ s, y < n)
    (hx : x ∈ epsilon_closure conns s) : x < n := by
  rcases mem_epsilon_closure_cases hx with hmem | ⟨a, hedge⟩
  · exact hs x hmem
  · exact (hb _ hedge).2

theorem mem_transSet_lt {conns : List EpsilonConnection} {s : Finset Nat} {r : Nat × Nat}
    {n x : Nat} (hb : ∀ c ∈ conns, connBounded n c) (hs : ∀ y ∈ s, y < n)
    (hx : x ∈ transSet conns s r) : x < n :=
  mem_epsilon_closure_lt hb (fun y hy => mem_moveSet_lt hb hy) hx

theorem getD_bounded {ps : List (Finset Nat)} {n sc : Nat}
    (hps : ∀ S ∈ ps, ∀ x ∈ S, x < n) : ∀ x ∈ ps.getD sc ∅, x < n := by
  intro x hx
  by_cases hsc : sc < ps.length
  · have hmem : ps.getD sc ∅ ∈ ps := by
      rw [List.getD_eq_getElem?_getD, List.getElem?_eq_getElem hsc]
      exact List.getElem_mem _
    exact hps _ hmem x hx
  · rw [List.getD_eq_getElem?_getD, List.getElem?_eq_none (by omega)] at hx
    exact absurd hx (Finset.not_mem_empty x)

/-- The subset construction only ever registers subsets of valid NFA
states. -/
theorem pcAux_bounded {nfa : NFA} {alphabet : List (Nat × Nat)} {n : Nat}
    (hb : ∀ c ∈ nfa.connections, connBounded n c) :
    ∀ {fuel sc : Nat} {rest : List (Nat × Nat)} {ps ps' : List (Finset Nat)}
      {cs cs' : List Connection},
    pcAux nfa alphabet fuel sc rest ps cs = some (ps', cs') →
    (∀ S ∈ ps, ∀ x ∈ S, x < n) →
    ∀ S ∈ ps', ∀ x ∈ S, x < n := by
  intro fuel
  induction fuel with
  | zero => intro sc rest ps ps' cs cs' h; exact absurd h (by simp [pcAux])
  | succ fuel ih =>
    intro sc rest ps ps' cs cs' h hps
    match rest with
    | [] =>
      simp only [pcAux, Option.some_inj, Prod.mk.injEq] at h
      obtain ⟨hps', _⟩ := h
      subst hps'
      exact hps
    | arange :: rest' =>
      rw [pcAux] at h
      cases hfind : ps.findIdx?
          (fun c => c == transSet nfa.connections (ps.getD sc ∅) arange) with
      | some pos =>
        rw [hfind] at h
        replace h : pcAux nfa alphabet fuel sc rest' ps (cs ++ [⟨arange, sc, pos⟩]) =
          some (ps', cs') := h
        exact ih h hps
      | none =>
        rw [hfind] at h
        replace h : (pcAux nfa alphabet fuel ps.length alphabet
            (ps ++ [transSet nfa.connections (ps.getD sc ∅) arange]) cs).bind
            (fun res => pcAux nfa alphabet fuel sc rest' res.1
              (res.2 ++ [⟨arange, sc, ps.length⟩])) = some (ps', cs') := h
        rcases Option.bind_eq_some.mp h with ⟨⟨ps₁, cs₁⟩, hcall2, h3⟩
        simp only [] at h3
        have hnew : ∀ S ∈ ps ++ [transSet nfa.connections (ps.getD sc ∅) arange],
            ∀ x ∈ S, x < n := by
          intro S hS x hx
          rcases List.mem_append.mp hS with hS | hS
          · exact hps S hS x hx
          · rw [List.mem_singleton] at hS
            subst hS
            exact mem_transSet_lt hb (getD_bounded hps) hx
        exact ih h3 (ih hcall2 hnew)

/-- When every index of the list is a valid NFA state, the accept-label
collection fold does not panic. -/
theorem acceptions_fold_some {nfa : NFA} :
    ∀ (l : List Nat), (∀ i ∈ l, i < nfa.states.length) → ∀ (acc : List String),
      ∃ out, l.foldlM (fun acc i => do
        match (← nfa.states.get? i).accepting with
        | some accept => return acc ++ [accept]
        | none => return acc) acc = some out := by
  intro l
  induction l with
  | nil => intro _ acc; exact ⟨acc, rfl⟩
  | cons i is ih =>
    intro hl acc
    obtain ⟨st, hst⟩ : ∃ st, nfa.states.get? i = some st := by
      rw [List.get?_eq_get (hl i (List.mem_cons_self _ _))]
      exact ⟨_, rfl⟩
    cases hacc : st.accepting with
    | some a =>
      obtain ⟨out, hout⟩ := ih (fun j hj => hl j (List.mem_cons_of_mem _ hj)) (acc ++ [a])
      refine ⟨out, ?_⟩
      simp only [List.foldlM_cons, Option.pure_def, Option.bind_eq_bind, hst,
        Option.some_bind, hacc]
      exact hout
    | none =>
      obtain ⟨out, hout⟩ := ih (fun j hj => hl j (List.mem_cons_of_mem _ hj)) acc
      refine ⟨out, ?_⟩
      simp only [List.foldlM_cons, Option.pure_def, Option.bind_eq_bind, hst,
        Option.some_bind, hacc]
      exact hout

/-- When every member of the subset is a valid NFA state index, accept-label
collection does not panic. -/
theorem acceptionsOf_isSome {nfa : NFA} {s : Finset Nat}
    (hs : ∀ x ∈ s, x < nfa.states.length) :
    ∃ accs, acceptionsOf nfa s = some accs :=
  acceptions_fold_some (finsetAsc s) (fun i hi => hs i (mem_finsetAsc.mp hi)) []

/-- A subset of valid NFA state indices never makes `buildState` panic. -/
theorem buildState_isSome {nfa : NFA} {s : Finset Nat}
    (hs : ∀ x ∈ s, x < nfa.states.length) : buildState nfa s ≠ none := by
  unfold buildState
  by_cases hse : s = ∅
  · simp [hse]
  · rw [if_neg hse]
    obtain ⟨accs, haccs⟩ := acceptionsOf_isSome hs
    replace haccs : acceptionsOf nfa s = some accs := haccs
    rw [haccs, Option.some_bind]
    by_cases h2 : 2 ≤ accs.length
    · simp [h2]
    · rw [if_neg h2]
      cases accs <;> simp

theorem two_le_filterMap_length {α β : Type} {l : List α} {f : α → Option β}
    (hnd : l.Nodup) {i j : α} (hi : i ∈ l) (hj : j ∈ l) (hij : i ≠ j)
    (hfi : (f i).isSome) (hfj : (f j).isSome) : 2 ≤ (l.filterMap f).length := by
  induction l with
  | nil => cases hi
  | cons x xs ih =>
    obtain ⟨hxnot, hnd'⟩ := List.nodup_cons.mp hnd
    have key : ∀ a b : α, a = x → b ∈ xs → (f a).isSome → (f b).isSome →
        2 ≤ ((x :: xs).filterMap f).length := by
      intro a b ha hb hfa hfb
      subst ha
      rw [List.filterMap_cons]
      cases hfx : f a with
      | none => rw [hfx] at hfa; cases hfa
      | some v =>
        simp only [List.length_cons]
        obtain ⟨c, hc⟩ := Option.isSome_iff_exists.mp hfb
        have hcmem : c ∈ xs.filterMap f := List.mem_filterMap.mpr ⟨b, hb, hc⟩
        have := List.length_pos.mpr (List.ne_nil_of_mem hcmem)
        omega
    rcases List.mem_cons.mp hi with rfl | hi' <;> rcases List.mem_cons.mp hj with rfl | hj'
    · exact absurd rfl hij
    · exact key i j rfl hj' hfi hfj
    · exact key j i rfl hi' hfj hfi
    · rw [List.filterMap_cons]
      cases hfx : f x with
      | none => exact ih hnd' hi' hj'
      | some v =>
        simp only [List.length_cons]
        have := ih hnd' hi' hj'
        omega

theorem filterMap_two_mem {α β : Type} {l : List α} {f : α → Option β}
    (hnd : l.Nodup) (h2 : 2 ≤ (l.filterMap f).length) :
    ∃ i ∈ l, ∃ j ∈ l, i ≠ j ∧ (f i).isSome ∧ (f j).isSome := by
  induction l with
  | nil => simp at h2
  | cons x xs ih =>
    obtain ⟨hxnot, hnd'⟩ := List.nodup_cons.mp hnd
    rw [List.filterMap_cons] at h2
    cases hfx : f x with
    | none =>
      rw [hfx] at h2
      obtain ⟨i, hi, j, hj, hij, hsi, hsj⟩ := ih hnd' h2
      exact ⟨i, List.mem_cons_of_mem _ hi, j, List.mem_cons_of_mem _ hj, hij, hsi, hsj⟩
    | some b =>
      rw [hfx] at h2
      simp only [List.length_cons] at h2
      have h1 : 0 < (xs.filterMap f).length := by omega
      obtain ⟨c, hc⟩ := List.exists_mem_of_length_pos h1
      obtain ⟨j, hj, hfj⟩ := List.mem_filterMap.mp hc
      refine ⟨x, List.mem_cons_self _ _, j, List.mem_cons_of_mem _ hj, ?_,
        by rw [hfx]; rfl, by rw [hfj]; rfl⟩
      rintro rfl
      exact hxnot hj

/-- When no subset panics, the whole state-building loop cannot panic. -/
theorem buildDfaStates_ne_none {nfa : NFA} :
    ∀ {ps : List (Finset Nat)}, (∀ S ∈ ps, buildState nfa S ≠ none) →
    buildDfaStates nfa ps ≠ none := by
  intro ps
  induction ps with
  | nil => intro _; simp [buildDfaStates]
  | cons s rest ih =>
    intro hnp
    obtain ⟨r, hr⟩ := Option.ne_none_iff_exists'.mp (hnp s (List.mem_cons_self _ _))
    simp only [buildDfaStates, hr, Option.some_bind]
    cases r with
    | error m => simp
    | ok st =>
      obtain ⟨r2, hr2⟩ := Option.ne_none_iff_exists'.mp
        (ih (fun S hS => hnp S (List.mem_cons_of_mem _ hS)))
      rw [hr2]
      cases r2 <;> simp

/-- A state-building error is an error of one specific subset, with the same
message. -/
theorem buildDfaStates_error_mem {nfa : NFA} :
    ∀ {ps : List (Finset Nat)} {m : String},
    buildDfaStates nfa ps = some (.error m) →
    ∃ S ∈ ps, buildState nfa S = some (.error m) := by
  intro ps
  induction ps with
  | nil =>
    intro m h
    replace h : some (Except.ok (ε := String) ([] : List NState)) = some (.error m) := h
    rw [Option.some_inj] at h
    cases h
  | cons s rest ih =>
    intro m h
    simp only [buildDfaStates] at h
    rcases Option.bind_eq_some.mp h with ⟨r, hr, h2⟩
    cases r with
    | error m2 =>
      replace h2 : some (Except.error (α := List NState) m2) = some (.error m) := h2
      rw [Option.some_inj] at h2
      cases h2
      exact ⟨s, List.mem_cons_self _ _, hr⟩
    | ok st =>
      replace h2 : (buildDfaStates nfa rest).bind (fun r2 =>
          match r2 with
          | Except.error m2 => some (Except.error m2)
          | Except.ok sts2 => some (Except.ok (st :: sts2))) = some (Except.error m) := h2
      rcases Option.bind_eq_some.mp h2 with ⟨r2, hr2, h3⟩
      cases r2 with
      | error m2 =>
        replace h3 : some (Except.error (α := List NState) m2) = some (.error m) := h3
        rw [Option.some_inj] at h3
        cases h3
        obtain ⟨S, hS, hbs⟩ := ih hr2
        exact ⟨S, List.mem_cons_of_mem _ hS, hbs⟩
      | ok sts2 =>
        replace h3 : some (Except.ok (ε := String) (st :: sts2)) = some (.error m) := h3
        rw [Option.some_inj] at h3
        cases h3

/-- Decomposition of a successful `from_rules` run into its pipeline
stages. -/
theorem from_rules_anatomy {reorder : List (Nat × Nat) → List (Nat × Nat)} {fuel : Nat}
    {rules : List Rule} {dfa : DFA}
    (h : from_rules reorder fuel rules = .built dfa) :
    ∃ alphabet nfa ps cs sts,
      construct_alphabet (rules.filter (·.is_terminal)) = some alphabet ∧
      construct_nfa reorder (rules.filter (·.is_terminal)) alphabet = some nfa ∧
      pcAux nfa alphabet fuel 0 alphabet
        [epsilon_closure nfa.connections {nfa.entry}] [] = some (ps, cs) ∧
      buildDfaStates nfa ps = some (.ok sts) ∧
      dfa = ⟨sts, cs⟩ := by
  cases hal : construct_alphabet (rules.filter (·.is_terminal)) with
  | none => simp [from_rules, hal] at h
  | some alphabet =>
    cases hnfa : construct_nfa reorder (rules.filter (·.is_terminal)) alphabet with
    | none => simp [from_rules, hal, hnfa] at h
    | some nfa =>
      cases hpc : pcAux nfa alphabet fuel 0 alphabet
          [epsilon_closure nfa.connections {nfa.entry}] [] with
      | none => simp [from_rules, hal, hnfa, hpc] at h
      | some res =>
        obtain ⟨ps, cs⟩ := res
        cases hbuild : buildDfaStates nfa ps with
        | none => simp [from_rules, hal, hnfa, hpc, hbuild] at h
        | some exc =>
          cases exc with
          | error m => simp [from_rules, hal, hnfa, hpc, hbuild] at h
          | ok sts =>
            simp only [from_rules, hal, hnfa, hpc, hbuild] at h
            refine ⟨alphabet, nfa, ps, cs, sts, rfl, hnfa, hpc, hbuild, ?_⟩
            cases h
            rfl

theorem buildState_ok_spec {nfa : NFA} {s : Finset Nat} {st : NState}
    (h : buildState nfa s = some (.ok st)) :
    (s = ∅ ∧ st = ⟨some "_TRAP"⟩) ∨
    (s ≠ ∅ ∧ ∃ accs, acceptionsOf nfa s = some accs ∧ accs.length < 2 ∧
      st.accepting = accs.head?) := by
  unfold buildState at h
  by_cases hs : s = ∅
  · rw [if_pos hs, Option.some_inj] at h
    exact Or.inl ⟨hs, (Except.ok.inj h).symm ▸ rfl⟩
  · rw [if_neg hs] at h
    rcases Option.bind_eq_some.mp h with ⟨accs, hacc, hif⟩
    by_cases h2 : 2 ≤ accs.length
    · rw [if_pos h2, Option.some_inj] at hif
      cases hif
    · rw [if_neg h2] at hif
      refine Or.inr ⟨hs, accs, hacc, by omega, ?_⟩
      match accs, hif with
      | [], hif =>
        rw [Option.some_inj] at hif
        rw [← Except.ok.inj hif]
        rfl
      | a :: tail, hif =>
        rw [Option.some_inj] at hif
        rw [← Except.ok.inj hif]
        rfl

theorem buildState_error_spec {nfa : NFA} {s : Finset Nat} {m : String} :
    buildState nfa s = some (.error m) ↔
    (s ≠ ∅ ∧ ∃ accs, acceptionsOf nfa s = some accs ∧ 2 ≤ accs.length ∧
      m = "Accepting state must accept exactly one rule") := by
  unfold buildState
  by_cases hs : s = ∅
  · rw [if_pos hs]
    simp [hs]
  · rw [if_neg hs]
    constructor
    · intro h
      rcases Option.bind_eq_some.mp h with ⟨accs, hacc, hif⟩
      by_cases h2 : 2 ≤ accs.length
      · rw [if_pos h2, Option.some_inj] at hif
        exact ⟨hs, accs, hacc, h2, (Except.error.inj hif).symm⟩
      · rw [if_neg h2] at hif
        match accs, hif with
        | [], hif => rw [Option.some_inj] at hif; cases hif
        | a :: tail, hif => rw [Option.some_inj] at hif; cases hif
    · rintro ⟨_, accs, hacc, h2, rfl⟩
      rw [Option.bind_eq_some]
      exact ⟨accs, hacc, by rw [if_pos h2]⟩

theorem buildDfaStates_spec {nfa : NFA} :
    ∀ {ps : List (Finset Nat)} {sts : List NState},
    buildDfaStates nfa ps = some (.ok sts) →
    sts.length = ps.length ∧
    ∀ i S, ps.get? i = some S → ∃ st, sts.get? i = some st ∧
      buildState nfa S = some (.ok st) := by
  intro ps
  induction ps with
  | nil =>
    intro sts h
    simp only [buildDfaStates, Option.some_inj] at h
    cases h
    exact ⟨rfl, fun i S hS => by cases hS⟩
  | cons s rest ih =>
    intro sts h
    simp only [buildDfaStates] at h
    rcases Option.bind_eq_some.mp h with ⟨r, hr, h2⟩
    cases r with
    | error m => exact absurd h2 (by simp)
    | ok st =>
      replace h2 : (buildDfaStates nfa rest).bind (fun r2 =>
          match r2 with
          | Except.error m => some (Except.error m)
          | Except.ok sts2 => some (Except.ok (st :: sts2))) = some (Except.ok sts) := h2
      rcases Option.bind_eq_some.mp h2 with ⟨r2, hr2, h3⟩
      cases r2 with
      | error m => exact absurd h3 (by simp)
      | ok sts2 =>
        replace h3 : some (Except.ok (ε := String) (st :: sts2)) = some (.ok sts) := h3
        rw [Option.some_inj] at h3
        have hsts : sts = st :: sts2 := (Except.ok.inj h3).symm
        subst hsts
        obtain ⟨hlen, hget⟩ := ih hr2
        refine ⟨by simp [hlen], ?_⟩
        intro i S hS
        match i, hS with
        | 0, hS =>
          simp only [List.get?] at hS ⊢
          rw [Option.some_inj] at hS
          subst hS
          exact ⟨st, rfl, hr⟩
        | i + 1, hS => exact hget i S hS

/-- The state-building loop errors exactly when some subset errors, provided
no earlier subset panics. -/
theorem buildDfaStates_error_iff {nfa : NFA} :
    ∀ {ps : List (Finset Nat)},
    (∀ s ∈ ps, buildState nfa s ≠ none) →
    ((∃ m, buildDfaStates nfa ps = some (.error m)) ↔
      ∃ s ∈ ps, ∃ m, buildState nfa s = some (.error m)) := by
  intro ps
  induction ps with
  | nil =>
    intro _
    simp [buildDfaStates]
  | cons s rest ih =>
    intro hnp
    constructor
    · rintro ⟨m, h⟩
      simp only [buildDfaStates] at h
      rcases Option.bind_eq_some.mp h with ⟨r, hr, h2⟩
      cases r with
      | error m2 =>
        replace h2 : some (Except.error (α := List NState) m2) = some (.error m) := h2
        rw [Option.some_inj] at h2
        exact ⟨s, by simp, m2, hr⟩
      | ok st =>
        replace h2 : (buildDfaStates nfa rest).bind (fun r2 =>
            match r2 with
            | Except.error m => some (Except.error m)
            | Except.ok sts2 => some (Except.ok (st :: sts2))) = some (Except.error m) := h2
        rcases Option.bind_eq_some.mp h2 with ⟨r2, hr2, h3⟩
        cases r2 with
        | error m2 =>
          obtain ⟨s', hs', hm⟩ := (ih (fun x hx => hnp x (List.mem_cons_of_mem _ hx))).mp
            ⟨m2, hr2⟩
          exact ⟨s', List.mem_cons_of_mem _ hs', hm⟩
        | ok sts2 => exact absurd h3 (by simp)
    · rintro ⟨s', hs', m, hm⟩
      rcases List.mem_cons.mp hs' with rfl | hs'
      · exact ⟨m, by simp [buildDfaStates, hm]⟩
      · cases hr : buildState nfa s with
        | none => exact absurd hr (hnp s (by simp))
        | some r =>
          cases r with
          | error m2 => exact ⟨m2, by simp [buildDfaStates, hr]⟩
          | ok st =>
            obtain ⟨m3, h3⟩ := (ih (fun x hx => hnp x (List.mem_cons_of_mem _ hx))).mpr
              ⟨s', hs', m, hm⟩
            exact ⟨m3, by simp [buildDfaStates, hr, h3]⟩

theorem charMove_empty_set {conns : List EpsilonConnection} {c : Nat} :
    charMove conns (∅ : Finset Nat) c = ∅ := by
  ext x
  constructor
  · intro hx
    obtain ⟨r, a, _, ha, _⟩ := mem_charMove.mp hx
    exact absurd ha (Finset.not_mem_empty a)
  · intro hx
    exact absurd hx (Finset.not_mem_empty x)

theorem fold_step_empty {conns : List EpsilonConnection} :
    ∀ w : List Nat,
      w.foldl (fun s c => epsilon_closure conns (charMove conns s c)) ∅ = ∅ := by
  intro w
  induction w with
  | nil => rfl
  | cons c w ih =>
    simp only [List.foldl_cons, charMove_empty_set, epsilon_closure_empty]
    exact ih

theorem count_one_of_nodup_mem {l : List (Nat × Nat)} {r : Nat × Nat} (hnd : l.Nodup)
    (hr : r ∈ l) : l.count r = 1 := by
  induction l with
  | nil => cases hr
  | cons x xs ih =>
    obtain ⟨hnotin, hnd'⟩ := List.nodup_cons.mp hnd
    rw [List.count_cons]
    rcases List.mem_cons.mp hr with rfl | hmem
    · have h0 : xs.count r = 0 := by
        by_contra hpos
        exact hnotin (List.count_pos_iff.mp (Nat.pos_of_ne_zero hpos))
      rw [h0]
      simp
    · rw [ih hnd' hmem]
      have hxr : ¬ (x == r) = true := by
        intro hx
        rw [beq_iff_eq] at hx
        exact hnotin (hx.symm ▸ hmem)
      simp [hxr]

/-- One DFA step follows the subset construction: from a state holding
subset `S`, reading `c` leads to the state holding the ε-closed character
move of `S`, or fails when no alphabet interval covers `c`. -/
theorem dfaStep_spec {nfa : NFA} {alphabet : List (Nat × Nat)}
    {ps : List (Finset Nat)} {cs : List Connection} {sts : List NState}
    (hnodupAl : alphabet.Nodup)
    (hcount : ∀ i, i < ps.length → ∀ r, (connsFor cs i r).length = alphabet.count r)
    (hconnfacts : ∀ c ∈ cs, c.range ∈ alphabet ∧ c.tgt < ps.length ∧
      ∃ Si, ps.get? c.start = some Si ∧
        ps.get? c.tgt = some (transSet nfa.connections Si c.range))
    (hdisj : ∀ x ∈ alphabet, ∀ y ∈ alphabet, x ≠ y → x.2 < y.1 ∨ y.2 < x.1)
    (hrangesok : ∀ e ∈ nfa.connections, connRangeOk alphabet e)
    {s : Nat} {S : Finset Nat} (hs : s < ps.length) (hS : ps.get? s = some S)
    (c : Nat) :
    ((∃ r ∈ alphabet, inRange c r) →
      ∃ t, dfaStep ⟨sts, cs⟩ s c = some t ∧ t < ps.length ∧
        ps.get? t = some (epsilon_closure nfa.connections (charMove nfa.connections S c))) ∧
    ((∀ r ∈ alphabet, ¬ inRange c r) → dfaStep ⟨sts, cs⟩ s c = none) := by
  constructor
  · rintro ⟨r, hr, hcr⟩
    have hcnt : (connsFor cs s r).length = 1 :=
      (hcount s hs r).trans (count_one_of_nodup_mem hnodupAl hr)
    obtain ⟨c0, hc0⟩ := List.length_eq_one.mp hcnt
    have hc0mem : c0 ∈ connsFor cs s r := by rw [hc0]; simp
    obtain ⟨hc0cs, hc0pred⟩ := List.mem_filter.mp hc0mem
    rw [decide_eq_true_eq] at hc0pred
    obtain ⟨hc0start, hc0range⟩ := hc0pred
    cases hfind : cs.find? (fun conn => conn.start == s && decide (inRange c conn.range)) with
    | none =>
      exfalso
      have := List.find?_eq_none.mp hfind c0 hc0cs
      rw [hc0start, hc0range] at this
      simp [hcr] at this
    | some cf =>
      have hcfpred := List.find?_some hfind
      have hcfmem := List.mem_of_find?_eq_some hfind
      rw [Bool.and_eq_true, beq_iff_eq, decide_eq_true_eq] at hcfpred
      obtain ⟨hcfstart, hcfrange⟩ := hcfpred
      have hcfral : cf.range ∈ alphabet := (hconnfacts cf hcfmem).1
      have hcfr : cf.range = r := by
        by_contra hne
        rcases hdisj cf.range hcfral r hr hne with hlt | hlt
        · rcases hcfrange with ⟨h1, h2⟩; rcases hcr with ⟨h3, h4⟩; omega
        · rcases hcfrange with ⟨h1, h2⟩; rcases hcr with ⟨h3, h4⟩; omega
      have hcfconns : cf ∈ connsFor cs s r := by
        rw [connsFor, List.mem_filter]
        exact ⟨hcfmem, by rw [decide_eq_true_eq]; exact ⟨hcfstart, hcfr⟩⟩
      have hcfc0 : cf = c0 := by
        rw [hc0] at hcfconns
        exact List.mem_singleton.mp hcfconns
      obtain ⟨_, htgt, Si, hSi, hSe⟩ := hconnfacts c0 hc0cs
      have hSiS : Si = S := by
        rw [hc0start] at hSi
        rw [hS] at hSi
        exact (Option.some_inj.mp hSi).symm
      refine ⟨c0.tgt, ?_, htgt, ?_⟩
      · simp only [dfaStep, hfind, hcfc0]
        rfl
      · rw [hSe, hSiS, hc0range]
        rw [transSet, charMove_eq_moveSet hrangesok hdisj hr hcr]
  · intro huncov
    cases hfind : cs.find? (fun conn => conn.start == s && decide (inRange c conn.range)) with
    | none => rw [dfaStep]; simp [hfind]
    | some cf =>
      exfalso
      have hcfpred := List.find?_some hfind
      have hcfmem := List.mem_of_find?_eq_some hfind
      rw [Bool.and_eq_true, beq_iff_eq, decide_eq_true_eq] at hcfpred
      exact huncov cf.range (hconnfacts cf hcfmem).1 hcfpred.2

/-- The DFA run tracks the subset-simulation fold, failing exactly when the
fold collapses through an uncovered code point. -/
theorem dfaRun_spec {nfa : NFA} {alphabet : List (Nat × Nat)}
    {ps : List (Finset Nat)} {cs : List Connection} {sts : List NState}
    (hnodupAl : alphabet.Nodup)
    (hcount : ∀ i, i < ps.length → ∀ r, (connsFor cs i r).length = alphabet.count r)
    (hconnfacts : ∀ c ∈ cs, c.range ∈ alphabet ∧ c.tgt < ps.length ∧
      ∃ Si, ps.get? c.start = some Si ∧
        ps.get? c.tgt = some (transSet nfa.connections Si c.range))
    (hdisj : ∀ x ∈ alphabet, ∀ y ∈ alphabet, x ≠ y → x.2 < y.1 ∨ y.2 < x.1)
    (hrangesok : ∀ e ∈ nfa.connections, connRangeOk alphabet e) :
    ∀ (w : List Nat) (s : Nat) (S : Finset Nat), s < ps.length → ps.get? s = some S →
    (∃ t, dfaRun ⟨sts, cs⟩ s w = some t ∧ t < ps.length ∧
      ps.get? t = some (w.foldl
        (fun Sx c => epsilon_closure nfa.connections (charMove nfa.connections Sx c)) S)) ∨
    (dfaRun ⟨sts, cs⟩ s w = none ∧
      w.foldl (fun Sx c => epsilon_closure nfa.connections (charMove nfa.connections Sx c)) S
        = ∅) := by
  intro w
  induction w with
  | nil =>
    intro s S hs hS
    exact Or.inl ⟨s, rfl, hs, hS⟩
  | cons c w ih =>
    intro s S hs hS
    have hstep := @dfaStep_spec _ _ _ _ sts hnodupAl hcount hconnfacts hdisj hrangesok _ _ hs hS c
    by_cases hcov : ∃ r ∈ alphabet, inRange c r
    · obtain ⟨t, hstep', ht, hT⟩ := hstep.1 hcov
      simp only [List.foldl_cons]
      rcases ih t _ ht hT with ⟨t', h1, h2, h3⟩ | ⟨h1, h2⟩
      · refine Or.inl ⟨t', ?_, h2, h3⟩
        rw [dfaRun, hstep']
        exact h1
      · refine Or.inr ⟨?_, h2⟩
        rw [dfaRun, hstep']
        exact h1
    · push_neg at hcov
      have hnone := hstep.2 hcov
      refine Or.inr ⟨by rw [dfaRun, hnone], ?_⟩
      simp only [List.foldl_cons]
      rw [charMove_empty hrangesok hcov, epsilon_closure_empty]
      exact fold_step_empty w

/-- Characterisation of the accept-label collection loop. -/
theorem acceptions_fold_spec {nfa : NFA} :
    ∀ (l : List Nat) (acc : List String) {out : List String},
    l.foldlM (fun acc i => do
        match (← nfa.states.get? i).accepting with
        | some accept => return acc ++ [accept]
        | none => return acc) acc = some out →
    out = acc ++ l.filterMap (fun i => (nfa.states.get? i).bind (·.accepting)) := by
  intro l
  induction l with
  | nil =>
    intro acc out h
    simp only [List.foldlM_nil, Option.pure_def, Option.some_inj] at h
    simp [h.symm]
  | cons i is ih =>
    intro acc out h
    simp only [List.foldlM_cons, Option.pure_def, Option.bind_eq_bind] at h
    rcases Option.bind_eq_some.mp h with ⟨mid, hmid, hrest⟩
    rcases Option.bind_eq_some.mp hmid with ⟨st, hst, hmatch⟩
    have := ih mid hrest
    cases hacc : st.accepting with
    | some a =>
      rw [hacc] at hmatch
      replace hmatch : some (acc ++ [a]) = some mid := hmatch
      rw [Option.some_inj] at hmatch
      subst hmatch
      rw [this]
      simp [List.filterMap_cons, ← List.get?_eq_getElem?, hst, hacc]
    | none =>
      rw [hacc] at hmatch
      replace hmatch : some acc = some mid := hmatch
      rw [Option.some_inj] at hmatch
      subst hmatch
      rw [this]
      simp [List.filterMap_cons, ← List.get?_eq_getElem?, hst, hacc]

/-- The collected accept labels of subset `S` are exactly the accept labels
of its members. -/
theorem acceptionsOf_spec {nfa : NFA} {S : Finset Nat} {accs : List String}
    (h : acceptionsOf nfa S = some accs) :
    accs = (finsetAsc S).filterMap (fun i => (nfa.states.get? i).bind (·.accepting)) := by
  have := acceptions_fold_spec (finsetAsc S) [] h
  simpa using this

theorem mem_acceptionsOf {nfa : NFA} {S : Finset Nat} {accs : List String}
    (h : acceptionsOf nfa S = some accs) {a : String} :
    a ∈ accs ↔ ∃ i ∈ S, ∃ st, nfa.states.get? i = some st ∧ st.accepting = some a := by
  rw [acceptionsOf_spec h, List.mem_filterMap]
  constructor
  · rintro ⟨i, hi, hbind⟩
    rcases Option.bind_eq_some.mp hbind with ⟨st, hst, hacc⟩
    exact ⟨i, mem_finsetAsc.mp hi, st, hst, hacc⟩
  · rintro ⟨i, hi, st, hst, hacc⟩
    exact ⟨i, mem_finsetAsc.mpr hi, by rw [hst]; exact hacc⟩

theorem acceptionsOf_nil_iff {nfa : NFA} {S : Finset Nat} {accs : List String}
    (h : acceptionsOf nfa S = some accs) :
    accs = [] ↔ ∀ i ∈ S, ∀ st, nfa.states.get? i = some st → st.accepting = none := by
  constructor
  · intro hnil i hi st hst
    cases hacc : st.accepting with
    | none => rfl
    | some a =>
      exfalso
      have : a ∈ accs := (mem_acceptionsOf h).mpr ⟨i, hi, st, hst, hacc⟩
      rw [hnil] at this
      cases this
  · intro hall
    cases haccs : accs with
    | nil => rfl
    | cons a tail =>
      exfalso
      have : a ∈ accs := by rw [haccs]; simp
      obtain ⟨i, hi, st, hst, hacc⟩ := (mem_acceptionsOf h).mp this
      rw [hall i hi st hst] at hacc
      cases hacc

/-! ## Totality of the pipeline (no panics) -/

mutual
/-- Structural conditions under which neither `get_ranges_from_element` nor
`connect_element` panics: no `Rule` node (`panic!()`), no empty literal
(`unwrap`), no empty group (`assert!`). -/
def elemTotalB : Element → Bool
  | .rule _ _ => false
  | .set _ _ => true
  | .negatedSet _ _ => true
  | .literal lit => !lit.isEmpty
  | .oneOrMore e => elemTotalB e
  | .zeroOrMore e => elemTotalB e
  | .optional e => elemTotalB e
  | .alternatives es => listTotalB es
  | .group es => !es.isEmpty && listTotalB es

def listTotalB : List Element → Bool
  | [] => true
  | e :: es => elemTotalB e && listTotalB es
end

mutual
/-- `pr` holds of every `(char, char)` pair the element references. -/
def elemPairsAllB (pr : Char × Char → Bool) : Element → Bool
  | .rule _ _ => true
  | .set chars ranges => chars.all (fun c => pr (c, c)) && ranges.all pr
  | .negatedSet chars ranges => chars.all (fun c => pr (c, c)) && ranges.all pr
  | .literal lit => lit.all (fun c => pr (c, c))
  | .oneOrMore e => elemPairsAllB pr e
  | .zeroOrMore e => elemPairsAllB pr e
  | .optional e => elemPairsAllB pr e
  | .alternatives es => listPairsAllB pr es
  | .group es => listPairsAllB pr es

def listPairsAllB (pr : Char × Char → Bool) : List Element → Bool
  | [] => true
  | e :: es => elemPairsAllB pr e && listPairsAllB pr es
end

theorem listTotalB_mem {es : List Element} (h : listTotalB es = true) :
    ∀ e ∈ es, elemTotalB e = true := by
  induction es with
  | nil => intro e he; cases he
  | cons e' es' ih =>
    intro e he
    rw [listTotalB, Bool.and_eq_true] at h
    rcases List.mem_cons.mp he with rfl | he
    · exact h.1
    · exact ih h.2 e he

theorem listPairsAllB_mem {pr : Char × Char → Bool} {es : List Element}
    (h : listPairsAllB pr es = true) : ∀ e ∈ es, elemPairsAllB pr e = true := by
  induction es with
  | nil => intro e he; cases he
  | cons e' es' ih =>
    intro e he
    rw [listPairsAllB, Bool.and_eq_true] at h
    rcases List.mem_cons.mp he with rfl | he
    · exact h.1
    · exact ih h.2 e he

theorem elemPairsAllB_spec {pr : Char × Char → Bool} {e : Element}
    {p : Char × Char} (hp : ElemPair e p) (h : elemPairsAllB pr e = true) :
    pr p = true := by
  induction hp with
  | setChar hc =>
    rw [elemPairsAllB, Bool.and_eq_true] at h
    simp only [List.all_eq_true] at h
    exact h.1 _ hc
  | setRange hr =>
    rw [elemPairsAllB, Bool.and_eq_true] at h
    simp only [List.all_eq_true] at h
    exact h.2 _ hr
  | negChar hc =>
    rw [elemPairsAllB, Bool.and_eq_true] at h
    simp only [List.all_eq_true] at h
    exact h.1 _ hc
  | negRange hr =>
    rw [elemPairsAllB, Bool.and_eq_true] at h
    simp only [List.all_eq_true] at h
    exact h.2 _ hr
  | lit hc =>
    rw [elemPairsAllB] at h
    simp only [List.all_eq_true] at h
    exact h _ hc
  | one _ ih => exact ih h
  | zero _ ih => exact ih h
  | opt _ ih => exact ih h
  | @alt subelems e' p' hmem _ ih =>
    rw [elemPairsAllB] at h
    exact ih (listPairsAllB_mem h e' hmem)
  | @grp subelems e' p' hmem _ ih =>
    rw [elemPairsAllB] at h
    exact ih (listPairsAllB_mem h e' hmem)

/-- `get_ranges_from_element` cannot panic on a `Rule`-free element. -/
theorem get_ranges_total :
    ∀ e : Element, elemTotalB e = true →
      ∀ acc, ∃ out, get_ranges_from_element e acc = some out := by
  have main := Element.mutual_induction
    (P := fun e => elemTotalB e = true →
      ∀ acc, ∃ out, get_ranges_from_element e acc = some out)
    (Q := fun es => listTotalB es = true →
      ∀ acc, ∃ out, get_ranges_from_list es acc = some out)
  refine fun e => main ?_ ?_ ?_ ?_ ?_ ?_ ?_ ?_ ?_ ?_ ?_ e
  · intro var name h; cases h
  · intro chars ranges _ acc; exact ⟨_, rfl⟩
  · intro chars ranges _ acc; exact ⟨_, rfl⟩
  · intro lit _ acc; exact ⟨_, rfl⟩
  · intro inner ih h acc; exact ih h acc
  · intro inner ih h acc; exact ih h acc
  · intro inner ih h acc; exact ih h acc
  · intro subelems ih h acc; exact ih h acc
  · intro subelems ih h acc
    rw [elemTotalB, Bool.and_eq_true] at h
    exact ih h.2 acc
  · intro _ acc; exact ⟨acc, rfl⟩
  · intro e' es' ihe ihl h acc
    rw [listTotalB, Bool.and_eq_true] at h
    obtain ⟨out1, hout1⟩ := ihe h.1 acc
    obtain ⟨out2, hout2⟩ := ihl h.2 out1
    refine ⟨out2, ?_⟩
    simp only [get_ranges_from_list, Option.bind_eq_bind, Option.pure_def, hout1,
      Option.some_bind]
    exact hout2

/-- Every pair collected by `get_ranges_from_element` is a pair of the
element or was already in the accumulator. -/
theorem get_ranges_sound :
    ∀ e : Element, ∀ {acc out : List (Char × Char)},
      get_ranges_from_element e acc = some out →
      ∀ x ∈ out, x ∈ acc ∨ ElemPair e x := by
  have main := Element.mutual_induction
    (P := fun e => ∀ {acc out : List (Char × Char)},
      get_ranges_from_element e acc = some out →
      ∀ x ∈ out, x ∈ acc ∨ ElemPair e x)
    (Q := fun es => ∀ {acc out : List (Char × Char)},
      get_ranges_from_list es acc = some out →
      ∀ x ∈ out, x ∈ acc ∨ ∃ e ∈ es, ElemPair e x)
  refine fun e => main ?_ ?_ ?_ ?_ ?_ ?_ ?_ ?_ ?_ ?_ ?_ e
  · intro var name acc out h; cases h
  · intro chars ranges acc out h x hx
    simp only [get_ranges_from_element, Option.some_inj] at h
    subst h
    rcases mem_foldl_btInsertCC_cases (fun r => r) ranges hx with hx' | ⟨r, hr, rfl⟩
    · rcases mem_foldl_btInsertCC_cases (fun c => (c, c)) chars hx' with hx'' | ⟨c, hc, rfl⟩
      · exact Or.inl hx''
      · exact Or.inr (ElemPair.setChar hc)
    · exact Or.inr (ElemPair.setRange hr)
  · intro chars ranges acc out h x hx
    simp only [get_ranges_from_element, Option.some_inj] at h
    subst h
    rcases mem_foldl_btInsertCC_cases (fun r => r) ranges hx with hx' | ⟨r, hr, rfl⟩
    · rcases mem_foldl_btInsertCC_cases (fun c => (c, c)) chars hx' with hx'' | ⟨c, hc, rfl⟩
      · exact Or.inl hx''
      · exact Or.inr (ElemPair.negChar hc)
    · exact Or.inr (ElemPair.negRange hr)
  · intro lit acc out h x hx
    simp only [get_ranges_from_element, Option.some_inj] at h
    subst h
    rcases mem_foldl_btInsertCC_cases (fun c => (c, c)) lit hx with hx' | ⟨c, hc, rfl⟩
    · exact Or.inl hx'
    · exact Or.inr (ElemPair.lit hc)
  · intro inner ih acc out h x hx
    rcases ih h x hx with h' | h'
    · exact Or.inl h'
    · exact Or.inr (ElemPair.one h')
  · intro inner ih acc out h x hx
    rcases ih h x hx with h' | h'
    · exact Or.inl h'
    · exact Or.inr (ElemPair.zero h')
  · intro inner ih acc out h x hx
    rcases ih h x hx with h' | h'
    · exact Or.inl h'
    · exact Or.inr (ElemPair.opt h')
  · intro subelems ih acc out h x hx
    rcases ih h x hx with h' | ⟨e', he', hp⟩
    · exact Or.inl h'
    · exact Or.inr (ElemPair.alt he' hp)
  · intro subelems ih acc out h x hx
    rcases ih h x hx with h' | ⟨e', he', hp⟩
    · exact Or.inl h'
    · exact Or.inr (ElemPair.grp he' hp)
  · intro acc out h x hx
    simp only [get_ranges_from_list, Option.some_inj] at h
    subst h
    exact Or.inl hx
  · intro e' es' ihe ihl acc out h x hx
    simp only [get_ranges_from_list, Option.bind_eq_bind, Option.pure_def] at h
    rcases Option.bind_eq_some.mp h with ⟨mid, hmid, hrest⟩
    rcases ihl hrest x hx with h' | ⟨e'', he'', hp⟩
    · rcases ihe hmid x h' with h'' | hp
      · exact Or.inl h''
      · exact Or.inr ⟨e', List.mem_cons_self _ _, hp⟩
    · exact Or.inr ⟨e'', List.mem_cons_of_mem _ he'', hp⟩

/-- The rules fold of `construct_alphabet` cannot panic on `Rule`-free
elements, and only collects pairs of the rules. -/
theorem rules_fold_total {rules : List Rule}
    (h : ∀ rule ∈ rules, elemTotalB rule.element = true) :
    ∃ raw, rules.foldlM (fun acc r => get_ranges_from_element r.element acc) [] = some raw ∧
      ∀ x ∈ raw, ∃ rule ∈ rules, ElemPair rule.element x := by
  suffices hgen : ∀ (todo : List Rule), (∀ rule ∈ todo, elemTotalB rule.element = true) →
      ∀ (acc : List (Char × Char)),
      ∃ raw, todo.foldlM (fun acc r => get_ranges_from_element r.element acc) acc = some raw ∧
        ∀ x ∈ raw, x ∈ acc ∨ ∃ rule ∈ todo, ElemPair rule.element x by
    obtain ⟨raw, hraw, hmem⟩ := hgen rules h []
    refine ⟨raw, hraw, ?_⟩
    intro x hx
    rcases hmem x hx with h' | h'
    · cases h'
    · exact h'
  intro todo
  induction todo with
  | nil =>
    intro _ acc
    exact ⟨acc, rfl, fun x hx => Or.inl hx⟩
  | cons rule rest ih =>
    intro htot acc
    obtain ⟨out1, hout1⟩ := get_ranges_total rule.element
      (htot rule (List.mem_cons_self _ _)) acc
    obtain ⟨raw, hraw, hmem⟩ := ih (fun r hr => htot r (List.mem_cons_of_mem _ hr)) out1
    refine ⟨raw, ?_, ?_⟩
    · simp only [List.foldlM_cons, Option.pure_def, Option.bind_eq_bind, hout1,
        Option.some_bind]
      exact hraw
    · intro x hx
      rcases hmem x hx with h' | ⟨r, hr, hp⟩
      · rcases get_ranges_sound rule.element hout1 x h' with h'' | hp
        · exact Or.inl h''
        · exact Or.inr ⟨rule, List.mem_cons_self _ _, hp⟩
      · exact Or.inr ⟨r, List.mem_cons_of_mem _ hr, hp⟩

/-- The interval-emitting loop cannot panic when no break point is zero. -/
theorem alphaLoop_total {pts : List Nat} (h : ∀ p ∈ pts, p ≠ 0) :
    ∀ prev acc, ∃ out, alphaLoop prev pts acc = some out := by
  induction pts with
  | nil =>
    intro prev acc
    exact ⟨_, rfl⟩
  | cons q ps ih =>
    intro prev acc
    have hq : q ≠ 0 := h q (List.mem_cons_self _ _)
    obtain ⟨out, hout⟩ := ih (fun p hp => h p (List.mem_cons_of_mem _ hp)) q
      (btInsertPP (q, q)
        (if prev + 1 ≤ q - 1 then btInsertPP (prev + 1, q - 1) (btInsertPP (prev, prev) acc)
         else btInsertPP (prev, prev) acc))
    refine ⟨out, ?_⟩
    simp only [alphaLoop, hq, if_false]
    by_cases hgap : prev + 1 ≤ q - 1
    · rw [if_pos hgap] at hout ⊢
      exact hout
    · rw [if_neg hgap] at hout ⊢
      exact hout

/-- `construct_alphabet` cannot panic on `Rule`-free rules that reference no
NUL character. -/
theorem construct_alphabet_total {rules : List Rule}
    (htot : ∀ rule ∈ rules, elemTotalB rule.element = true)
    (hnz : ∀ rule ∈ rules, ∀ p : Char × Char, ElemPair rule.element p →
      p.1.toNat ≠ 0 ∧ p.2.toNat ≠ 0) :
    ∃ al, construct_alphabet rules = some al := by
  obtain ⟨raw, hraw, hmem⟩ := rules_fold_total htot
  have hptsnz : ∀ q ∈ rangePoints raw, q ≠ 0 := by
    intro q hq
    rcases mem_foldl_btInsertNat_cases _ _ raw hq with hq' | ⟨b, hb, rfl | rfl⟩
    · cases hq'
    · obtain ⟨rule, hrule, hp⟩ := hmem b hb
      exact (hnz rule hrule b hp).1
    · obtain ⟨rule, hrule, hp⟩ := hmem b hb
      exact (hnz rule hrule b hp).2
  obtain ⟨out, hout⟩ := alphaLoop_total hptsnz 0 []
  refine ⟨out, ?_⟩
  simp only [construct_alphabet, Option.bind_eq_bind, bind, hraw, Option.some_bind]
  exact hout

theorem findIdx?_isSome {α : Type} {p : α → Bool} {l : List α}
    (h : ∃ x ∈ l, p x = true) : ∃ i, l.findIdx? p = some i := by
  induction l with
  | nil => obtain ⟨x, hx, _⟩ := h; cases hx
  | cons a l ih =>
    by_cases ha : p a = true
    · exact ⟨0, by simp [List.findIdx?_cons, ha]⟩
    · obtain ⟨x, hx, hpx⟩ := h
      rcases List.mem_cons.mp hx with rfl | hx'
      · exact absurd hpx ha
      · obtain ⟨i, hi⟩ := ih ⟨x, hx', hpx⟩
        refine ⟨i + 1, ?_⟩
        rw [List.findIdx?_cons]
        simp [ha, hi]

theorem pairwise_get_lt {l : List (Nat × Nat)} (hs : l.Pairwise pairLt)
    {i j : Nat} {x y : Nat × Nat} (hij : i < j)
    (hx : l.get? i = some x) (hy : l.get? j = some y) : pairLt x y := by
  rcases List.get?_eq_some.mp hx with ⟨hi, hxe⟩
  rcases List.get?_eq_some.mp hy with ⟨hj, hye⟩
  subst hxe; subst hye
  exact List.pairwise_iff_get.mp hs ⟨i, hi⟩ ⟨j, hj⟩ hij

/-- The alphabet lookups and slice of the `Set`/`NegatedSet` arms cannot
panic when both range endpoints have their singleton interval in the
(sorted, disjoint, well-formed) alphabet and the range is not reversed. -/
theorem rangeSlice_total {alphabet : List (Nat × Nat)} {r : Char × Char}
    (hsorted : alphabet.Pairwise pairLt)
    (hwf : ∀ x ∈ alphabet, x.1 ≤ x.2 ∧ x.2 ≤ MAX_CODEPOINT)
    (hdisj : ∀ x ∈ alphabet, ∀ y ∈ alphabet, x ≠ y → x.2 < y.1 ∨ y.2 < x.1)
    (hlo : (r.1.toNat, r.1.toNat) ∈ alphabet)
    (hhi : (r.2.toNat, r.2.toNat) ∈ alphabet)
    (hle : r.1.toNat ≤ r.2.toNat) :
    ∃ s, rangeSlice alphabet r = some s := by
  obtain ⟨si, hsi⟩ := findIdx?_isSome (p := fun iv => iv.1 == r.1.toNat)
    ⟨(r.1.toNat, r.1.toNat), hlo, by simp⟩
  obtain ⟨ei, hei⟩ := findIdx?_isSome (p := fun iv => iv.2 == r.2.toNat)
    ⟨(r.2.toNat, r.2.toNat), hhi, by simp⟩
  obtain ⟨hsilt, x, hxget, hxp⟩ := findIdx?_some_spec hsi
  obtain ⟨heilt, y, hyget, hyp⟩ := findIdx?_some_spec hei
  rw [beq_iff_eq] at hxp hyp
  have hxmem : x ∈ alphabet := List.get?_mem hxget
  have hymem : y ∈ alphabet := List.get?_mem hyget
  have hxeq : x = (r.1.toNat, r.1.toNat) := by
    by_contra hne
    rcases hdisj x hxmem _ hlo hne with h | h
    · rw [← hxp] at h
      exact absurd h (by have := (hwf x hxmem).1; omega)
    · rw [← hxp] at h
      exact absurd h (by omega)
  have hyeq : y = (r.2.toNat, r.2.toNat) := by
    by_contra hne
    rcases hdisj y hymem _ hhi hne with h | h
    · rw [← hyp] at h
      exact absurd h (by omega)
    · rw [← hyp] at h
      exact absurd h (by have := (hwf y hymem).1; omega)
  subst hxeq; subst hyeq
  have hsiei : si ≤ ei := by
    by_contra hgt
    have := pairwise_get_lt hsorted (by omega : ei < si) hyget hxget
    rcases this with h | ⟨h1, h2⟩
    · simp only [] at h
      omega
    · simp only [] at h1 h2
      omega
  refine ⟨(alphabet.drop si).take (ei + 1 - si), ?_⟩
  simp only [rangeSlice, Option.bind_eq_bind, Option.pure_def, hsi, hei, Option.some_bind]
  simp only [listSlice]
  rw [if_pos ⟨by omega, by omega⟩]

theorem foldlM_total {α β : Type} {f : β → α → Option β} {l : List α}
    (h : ∀ a ∈ l, ∀ b, ∃ b2, f b a = some b2) :
    ∀ b0, ∃ out, l.foldlM f b0 = some out := by
  induction l with
  | nil => intro b0; exact ⟨b0, rfl⟩
  | cons a l ih =>
    intro b0
    obtain ⟨b1, hb1⟩ := h a (List.mem_cons_self _ _) b0
    obtain ⟨out, hout⟩ := ih (fun a' ha' b => h a' (List.mem_cons_of_mem _ ha') b) b1
    refine ⟨out, ?_⟩
    simp only [List.foldlM_cons, Option.pure_def, Option.bind_eq_bind, hb1, Option.some_bind]
    exact hout

theorem connect_chain_total {reorder : List (Nat × Nat) → List (Nat × Nat)}
    {alphabet : List (Nat × Nat)} :
    ∀ (es : List Element),
    (∀ e ∈ es, ∀ nfa, ∃ out, connect_element reorder alphabet nfa e = some out) →
    ∀ nfa o, ∃ out, connect_chain reorder alphabet nfa o es = some out := by
  intro es
  induction es with
  | nil => intro _ nfa o; exact ⟨(nfa, o), rfl⟩
  | cons e rest ih =>
    intro h nfa o
    obtain ⟨⟨nfa1, i, o2⟩, he⟩ := h e (List.mem_cons_self _ _) nfa
    obtain ⟨out, hout⟩ := ih (fun e' he' nfa' => h e' (List.mem_cons_of_mem _ he') nfa')
      (nfa1.connect_epsilon o i) o2
    refine ⟨out, ?_⟩
    simp only [connect_chain, Option.bind_eq_bind, Option.pure_def, he, Option.some_bind]
    exact hout

theorem connect_alts_total {reorder : List (Nat × Nat) → List (Nat × Nat)}
    {alphabet : List (Nat × Nat)} :
    ∀ (es : List Element),
    (∀ e ∈ es, ∀ nfa, ∃ out, connect_element reorder alphabet nfa e = some out) →
    ∀ nfa en ex, ∃ out, connect_alts reorder alphabet nfa en ex es = some out := by
  intro es
  induction es with
  | nil => intro _ nfa en ex; exact ⟨nfa, rfl⟩
  | cons e rest ih =>
    intro h nfa en ex
    obtain ⟨⟨nfa1, a, b⟩, he⟩ := h e (List.mem_cons_self _ _) nfa
    obtain ⟨out, hout⟩ := ih (fun e' he' nfa' => h e' (List.mem_cons_of_mem _ he') nfa')
      ((nfa1.connect_epsilon en a).connect_epsilon b ex) en ex
    refine ⟨out, ?_⟩
    simp only [connect_alts, Option.bind_eq_bind, Option.pure_def, he, Option.some_bind]
    exact hout

/-- The admissible-pair condition for `connect_element` totality: no range is
reversed. -/
def prOk (p : Char × Char) : Bool := decide (p.1.toNat ≤ p.2.toNat)

/-- `connect_element` cannot panic on a structurally sound element over a
sorted, disjoint, well-formed alphabet holding all referenced singletons. -/
theorem connect_element_total {reorder : List (Nat × Nat) → List (Nat × Nat)}
    {alphabet : List (Nat × Nat)}
    (hsorted : alphabet.Pairwise pairLt)
    (hwf : ∀ x ∈ alphabet, x.1 ≤ x.2 ∧ x.2 ≤ MAX_CODEPOINT)
    (hdisj : ∀ x ∈ alphabet, ∀ y ∈ alphabet, x ≠ y → x.2 < y.1 ∨ y.2 < x.1) :
    ∀ e : Element, elemTotalB e = true → elemPairsAllB prOk e = true →
      elemOk alphabet e →
      ∀ nfa, ∃ out, connect_element reorder alphabet nfa e = some out := by
  have main := Element.mutual_induction
    (P := fun e => elemTotalB e = true → elemPairsAllB prOk e = true →
      elemOk alphabet e →
      ∀ nfa, ∃ out, connect_element reorder alphabet nfa e = some out)
    (Q := fun es => ∀ e ∈ es, elemTotalB e = true → elemPairsAllB prOk e = true →
      elemOk alphabet e →
      ∀ nfa, ∃ out, connect_element reorder alphabet nfa e = some out)
  refine fun e => main ?_ ?_ ?_ ?_ ?_ ?_ ?_ ?_ ?_ ?_ ?_ e
  · intro var name h; cases h
  · intro chars ranges _ hpr hok nfa
    have hslice : ∀ r ∈ ranges, ∃ s, rangeSlice alphabet r = some s := by
      intro r hr
      have hps := hok r (ElemPair.setRange hr)
      have hle : r.1.toNat ≤ r.2.toNat :=
        of_decide_eq_true (elemPairsAllB_spec (ElemPair.setRange hr) hpr)
      exact rangeSlice_total hsorted hwf hdisj hps.1 hps.2 hle
    obtain ⟨conns, hconns⟩ := foldlM_total
      (f := fun cs r => do
        let slice ← rangeSlice alphabet r
        return slice.foldl (fun cs iv => hsInsert iv cs) cs)
      (l := ranges)
      (fun r hr cs => by
        obtain ⟨s, hs⟩ := hslice r hr
        refine ⟨s.foldl (fun cs iv => hsInsert iv cs) cs, ?_⟩
        simp only [Option.bind_eq_bind, Option.pure_def, hs, Option.some_bind])
      (chars.foldl (fun cs c => hsInsert (c.toNat, c.toNat) cs) [])
    refine ⟨((reorder conns).foldl
        (fun n iv => n.connect_range (nfa.add_empty).2 ((nfa.add_empty).1.add_empty).2 iv)
        ((nfa.add_empty).1.add_empty).1,
      (nfa.add_empty).2, ((nfa.add_empty).1.add_empty).2), ?_⟩
    simp only [Option.bind_eq_bind, Option.pure_def] at hconns
    simp only [connect_element, Option.bind_eq_bind, Option.pure_def, hconns, Option.some_bind]
  · intro chars ranges _ hpr hok nfa
    have hslice : ∀ r ∈ ranges, ∃ s, rangeSlice alphabet r = some s := by
      intro r hr
      have hps := hok r (ElemPair.negRange hr)
      have hle : r.1.toNat ≤ r.2.toNat :=
        of_decide_eq_true (elemPairsAllB_spec (ElemPair.negRange hr) hpr)
      exact rangeSlice_total hsorted hwf hdisj hps.1 hps.2 hle
    obtain ⟨conns, hconns⟩ := foldlM_total
      (f := fun cs r => do
        let slice ← rangeSlice alphabet r
        return slice.foldl (fun cs iv => hsRemove iv cs) cs)
      (l := ranges)
      (fun r hr cs => by
        obtain ⟨s, hs⟩ := hslice r hr
        refine ⟨s.foldl (fun cs iv => hsRemove iv cs) cs, ?_⟩
        simp only [Option.bind_eq_bind, Option.pure_def, hs, Option.some_bind])
      (chars.foldl (fun cs c => hsRemove (c.toNat, c.toNat) cs)
        (alphabet.foldl (fun cs iv => hsInsert iv cs) []))
    refine ⟨((reorder conns).foldl
        (fun n iv => n.connect_range (nfa.add_empty).2 ((nfa.add_empty).1.add_empty).2 iv)
        ((nfa.add_empty).1.add_empty).1,
      (nfa.add_empty).2, ((nfa.add_empty).1.add_empty).2), ?_⟩
    simp only [Option.bind_eq_bind, Option.pure_def] at hconns
    simp only [connect_element, Option.bind_eq_bind, Option.pure_def, hconns, Option.some_bind]
  · intro lit htot _ _ nfa
    rw [elemTotalB, Bool.not_eq_eq_eq_not, Bool.not_true, List.isEmpty_eq_false] at htot
    match lit, htot with
    | first :: rest, _ => exact ⟨_, rfl⟩
  · intro inner ih htot hpr hok nfa
    obtain ⟨⟨nfa1, en, ex⟩, hinner⟩ := ih htot hpr
      (fun p hp => hok p (ElemPair.one hp)) nfa
    refine ⟨(nfa1.connect_epsilon ex en, en, ex), ?_⟩
    simp only [connect_element, Option.bind_eq_bind, Option.pure_def, hinner, Option.some_bind]
  · intro inner ih htot hpr hok nfa
    obtain ⟨⟨nfa1, en, ex⟩, hinner⟩ := ih htot hpr
      (fun p hp => hok p (ElemPair.zero hp)) nfa
    refine ⟨((nfa1.connect_epsilon ex en).connect_epsilon en ex, en, ex), ?_⟩
    simp only [connect_element, Option.bind_eq_bind, Option.pure_def, hinner, Option.some_bind]
  · intro inner ih htot hpr hok nfa
    obtain ⟨⟨nfa1, en, ex⟩, hinner⟩ := ih htot hpr
      (fun p hp => hok p (ElemPair.opt hp)) nfa
    refine ⟨(nfa1.connect_epsilon en ex, en, ex), ?_⟩
    simp only [connect_element, Option.bind_eq_bind, Option.pure_def, hinner, Option.some_bind]
  · intro subelems ih htot hpr hok nfa
    rw [elemTotalB] at htot
    rw [elemPairsAllB] at hpr
    have hall : ∀ e ∈ subelems, ∀ nfa', ∃ out,
        connect_element reorder alphabet nfa' e = some out := by
      intro e' he' nfa'
      exact ih e' he' (listTotalB_mem htot e' he') (listPairsAllB_mem hpr e' he')
        (fun p hp => hok p (ElemPair.alt he' hp)) nfa'
    obtain ⟨out, hout⟩ := connect_alts_total subelems hall
      ((nfa.add_empty).1.add_empty).1 (nfa.add_empty).2 ((nfa.add_empty).1.add_empty).2
    refine ⟨(out, (nfa.add_empty).2, ((nfa.add_empty).1.add_empty).2), ?_⟩
    simp only [connect_element, Option.bind_eq_bind, Option.pure_def, hout, Option.some_bind]
  · intro subelems ih htot hpr hok nfa
    rw [elemTotalB, Bool.and_eq_true] at htot
    rw [elemPairsAllB] at hpr
    obtain ⟨hne, hltot⟩ := htot
    have hall : ∀ e ∈ subelems, ∀ nfa', ∃ out,
        connect_element reorder alphabet nfa' e = some out := by
      intro e' he' nfa'
      exact ih e' he' (listTotalB_mem hltot e' he') (listPairsAllB_mem hpr e' he')
        (fun p hp => hok p (ElemPair.grp he' hp)) nfa'
    match subelems, hne, hall with
    | e1 :: rest, _, hall =>
      obtain ⟨⟨nfa1, entry, o⟩, he1⟩ := hall e1 (List.mem_cons_self _ _) nfa
      obtain ⟨⟨nfa2, exitS⟩, hchain⟩ := connect_chain_total rest
        (fun e' he' nfa' => hall e' (List.mem_cons_of_mem _ he') nfa') nfa1 o
      refine ⟨(nfa2, entry, exitS), ?_⟩
      simp only [connect_element, Option.bind_eq_bind, Option.pure_def, he1,
        Option.some_bind, hchain]
  · intro e' he' _ _ _ _
    cases he'
  · intro e' es' ihe ihl e'' he''
    rcases List.mem_cons.mp he'' with rfl | he'''
    · exact ihe
    · exact ihl e'' he'''

/-- The no-NUL condition for `construct_alphabet` totality. -/
def prNZ (p : Char × Char) : Bool := decide (p.1.toNat ≠ 0)

theorem construct_nfa_loop_total {reorder : List (Nat × Nat) → List (Nat × Nat)}
    {alphabet : List (Nat × Nat)}
    (hsorted : alphabet.Pairwise pairLt)
    (hwf : ∀ x ∈ alphabet, x.1 ≤ x.2 ∧ x.2 ≤ MAX_CODEPOINT)
    (hdisj : ∀ x ∈ alphabet, ∀ y ∈ alphabet, x ≠ y → x.2 < y.1 ∨ y.2 < x.1) :
    ∀ (todo : List Rule),
    (∀ r ∈ todo, elemTotalB r.element = true ∧ elemPairsAllB prOk r.element = true ∧
      elemOk alphabet r.element) →
    ∀ nfa, ∃ out, construct_nfa_loop reorder alphabet nfa todo = some out := by
  intro todo
  induction todo with
  | nil => intro _ nfa; exact ⟨nfa, rfl⟩
  | cons rule rest ih =>
    intro h nfa
    obtain ⟨ht, hp, hok⟩ := h rule (List.mem_cons_self _ _)
    obtain ⟨⟨nfa1, en, ex⟩, hce⟩ := connect_element_total hsorted hwf hdisj rule.element
      ht hp hok (nfa.add ⟨some rule.name⟩).1
    obtain ⟨out, hout⟩ := ih (fun r hr => h r (List.mem_cons_of_mem _ hr))
      ((nfa1.connect_epsilon nfa1.entry en).connect_epsilon ex (nfa.add ⟨some rule.name⟩).2)
    refine ⟨out, ?_⟩
    simp only [construct_nfa_loop, Option.bind_eq_bind, Option.pure_def]
    rw [hce]
    exact hout

theorem construct_nfa_total {reorder : List (Nat × Nat) → List (Nat × Nat)}
    {alphabet : List (Nat × Nat)} {rules : List Rule}
    (hsorted : alphabet.Pairwise pairLt)
    (hwf : ∀ x ∈ alphabet, x.1 ≤ x.2 ∧ x.2 ≤ MAX_CODEPOINT)
    (hdisj : ∀ x ∈ alphabet, ∀ y ∈ alphabet, x ≠ y → x.2 < y.1 ∨ y.2 < x.1)
    (h : ∀ r ∈ rules, elemTotalB r.element = true ∧ elemPairsAllB prOk r.element = true ∧
      elemOk alphabet r.element) :
    ∃ nfa, construct_nfa reorder rules alphabet = some nfa :=
  construct_nfa_loop_total hsorted hwf hdisj rules h NFA.new

/-- C7 (amended) — pipeline totality: `from_rules` never panics on rule
lists whose terminal elements are structurally sound (no `Rule` node, no
empty literal, no empty group), reference no NUL character, and contain no
reversed set range.  (The parser accepts inputs that violate the last
condition, such as `token A = [z-a];`, and `from_rules` does panic on
those.) -/
theorem from_rules_no_panic {fuel : Nat} {rules : List Rule}
    (h : ∀ rule ∈ rules, rule.is_terminal = true →
      elemTotalB rule.element = true ∧
      elemPairsAllB prNZ rule.element = true ∧
      elemPairsAllB prOk rule.element = true) :
    from_rules id fuel rules ≠ BuildResult.panicked := by
  have hterm : ∀ r ∈ rules.filter (·.is_terminal),
      elemTotalB r.element = true ∧
      elemPairsAllB prNZ r.element = true ∧
      elemPairsAllB prOk r.element = true := by
    intro r hr
    obtain ⟨hmem, hterm⟩ := List.mem_filter.mp hr
    exact h r hmem hterm
  obtain ⟨al, hal⟩ := construct_alphabet_total
    (fun r hr => (hterm r hr).1)
    (fun r hr p hp => by
      have h1 : p.1.toNat ≠ 0 := of_decide_eq_true (elemPairsAllB_spec hp (hterm r hr).2.1)
      have h2 : p.1.toNat ≤ p.2.toNat :=
        of_decide_eq_true (elemPairsAllB_spec hp (hterm r hr).2.2)
      exact ⟨h1, by omega⟩)
  obtain ⟨hsorted, hwf, hdisj⟩ := construct_alphabet_spec hal
  obtain ⟨nfa, hnfa⟩ := @construct_nfa_total id _ _ hsorted hwf hdisj
    (fun r hr => ⟨(hterm r hr).1, (hterm r hr).2.2, rules_elemOk hal r hr⟩)
  have hid : ∀ l : List (Nat × Nat), List.Perm (id l) l := fun l => List.Perm.refl l
  have hwfN := construct_nfa_wf hid (rules_elemOk hal) hnfa
  intro hpanic
  cases hpc : pcAux nfa al fuel 0 al [epsilon_closure nfa.connections {nfa.entry}] [] with
  | none => simp [from_rules, hal, hnfa, hpc] at hpanic
  | some res =>
    obtain ⟨ps, cs⟩ := res
    have hb0 : ∀ S ∈ [epsilon_closure nfa.connections {nfa.entry}],
        ∀ x ∈ S, x < nfa.states.length := by
      intro S hS x hx
      rw [List.mem_singleton] at hS
      subst hS
      refine mem_epsilon_closure_lt hwfN.conns_bounded ?_ hx
      intro y hy
      rw [Finset.mem_singleton] at hy
      subst hy
      rw [hwfN.entry_eq]
      exact hwfN.states_pos
    have hball := pcAux_bounded hwfN.conns_bounded hpc hb0
    have hnp : ∀ S ∈ ps, buildState nfa S ≠ none :=
      fun S hS => buildState_isSome (hball S hS)
    cases hbd : buildDfaStates nfa ps with
    | none => exact absurd hbd (buildDfaStates_ne_none hnp)
    | some exc =>
      cases exc with
      | error m => simp [from_rules, hal, hnfa, hpc, hbd] at hpanic
      | ok sts => simp [from_rules, hal, hnfa, hpc, hbd] at hpanic

/-! ## Permutation-invariance of the pipeline (deterministic output)

The `HashSet` iteration order of the `Set`/`NegatedSet` arms is the only
nondeterminism in `Lexer::from_rules`; it is modelled by the `reorder`
parameter.  Two runs under different admissible orders produce NFAs with
identical states and entry and permuted connection lists, and everything
downstream depends on the connection list only through its membership. -/

/-- Two NFAs that differ only in the order of their connection lists. -/
structure NfaRel (a b : NFA) : Prop where
  states : a.states = b.states
  entry : a.entry = b.entry
  conns : List.Perm a.connections b.connections

theorem NfaRel.refl (a : NFA) : NfaRel a a := ⟨rfl, rfl, List.Perm.refl _⟩

theorem NfaRel.len {a b : NFA} (h : NfaRel a b) : a.states.length = b.states.length := by
  rw [h.states]

theorem NfaRel.add {a b : NFA} (h : NfaRel a b) (st : NState) :
    NfaRel (a.add st).1 (b.add st).1 ∧ (a.add st).2 = (b.add st).2 :=
  ⟨⟨by simp [NFA.add, h.states], h.entry, h.conns⟩, by simp [NFA.add, h.len]⟩

theorem NfaRel.add_empty {a b : NFA} (h : NfaRel a b) :
    NfaRel (a.add_empty).1 (b.add_empty).1 ∧ (a.add_empty).2 = (b.add_empty).2 :=
  h.add ⟨none⟩

theorem NfaRel.connect_epsilon {a b : NFA} (h : NfaRel a b) (x y : Nat) :
    NfaRel (a.connect_epsilon x y) (b.connect_epsilon x y) :=
  ⟨h.states, h.entry, h.conns.append (List.Perm.refl _)⟩

/-- The transition-emitting fold changes only the connection list, appending
one ranged connection per interval. -/
theorem emit_fold_states_conns (l : List (Nat × Nat)) :
    ∀ (nfa : NFA) (en ex : Nat),
    (l.foldl (fun n iv => n.connect_range en ex iv) nfa).states = nfa.states ∧
    (l.foldl (fun n iv => n.connect_range en ex iv) nfa).entry = nfa.entry ∧
    (l.foldl (fun n iv => n.connect_range en ex iv) nfa).connections =
      nfa.connections ++ l.map (fun iv => EpsilonConnection.connection iv en ex) := by
  induction l with
  | nil => intro nfa en ex; exact ⟨rfl, rfl, by simp⟩
  | cons iv ivs ih =>
    intro nfa en ex
    simp only [List.foldl_cons]
    obtain ⟨h1, h2, h3⟩ := ih (nfa.connect_range en ex iv) en ex
    refine ⟨h1, h2, ?_⟩
    rw [h3]
    simp [NFA.connect_range]

/-- The per-character chain fold of the `Literal` arm acts identically on
order-related NFAs. -/
theorem literal_fold_rel (rest : List Char) :
    ∀ (p1 p2 : NFA × Nat), NfaRel p1.1 p2.1 → p1.2 = p2.2 →
    NfaRel (rest.foldl (fun (p : NFA × Nat) c =>
        let (nfa, e) := p.1.add_empty
        (nfa.connect_range p.2 e (c.toNat, c.toNat), e)) p1).1
      (rest.foldl (fun (p : NFA × Nat) c =>
        let (nfa, e) := p.1.add_empty
        (nfa.connect_range p.2 e (c.toNat, c.toNat), e)) p2).1 ∧
    (rest.foldl (fun (p : NFA × Nat) c =>
        let (nfa, e) := p.1.add_empty
        (nfa.connect_range p.2 e (c.toNat, c.toNat), e)) p1).2 =
      (rest.foldl (fun (p : NFA × Nat) c =>
        let (nfa, e) := p.1.add_empty
        (nfa.connect_range p.2 e (c.toNat, c.toNat), e)) p2).2 := by
  induction rest with
  | nil => intro p1 p2 h1 h2; exact ⟨h1, h2⟩
  | cons c cs ih =>
    intro p1 p2 h1 h2
    simp only [List.foldl_cons]
    obtain ⟨hadd, haddi⟩ := h1.add_empty
    refine ih _ _ ?_ ?_
    · show NfaRel ((p1.1.add_empty).1.connect_range p1.2 (p1.1.add_empty).2 (c.toNat, c.toNat))
        ((p2.1.add_empty).1.connect_range p2.2 (p2.1.add_empty).2 (c.toNat, c.toNat))
      rw [h2, haddi]
      exact ⟨hadd.states, hadd.entry, hadd.conns.append (List.Perm.refl _)⟩
    · show (p1.1.add_empty).2 = (p2.1.add_empty).2
      exact haddi

theorem NfaRel.connect_range {a b : NFA} (h : NfaRel a b) (x y : Nat) (r : Nat × Nat) :
    NfaRel (a.connect_range x y r) (b.connect_range x y r) :=
  ⟨h.states, h.entry, h.conns.append (List.Perm.refl _)⟩

/-- Two runs of `connect_element` under different admissible orders, on
order-related NFAs, give order-related NFAs and the same fragment states. -/
def CERel (r1 r2 : List (Nat × Nat) → List (Nat × Nat)) (alphabet : List (Nat × Nat))
    (e : Element) : Prop :=
  ∀ {nfa1 nfa2 : NFA}, NfaRel nfa1 nfa2 →
    ∀ {o1 o2 : NFA × Nat × Nat},
      connect_element r1 alphabet nfa1 e = some o1 →
      connect_element r2 alphabet nfa2 e = some o2 →
      NfaRel o1.1 o2.1 ∧ o1.2.1 = o2.2.1 ∧ o1.2.2 = o2.2.2

theorem connect_chain_rel {r1 r2 : List (Nat × Nat) → List (Nat × Nat)}
    {alphabet : List (Nat × Nat)} :
    ∀ es : List Element, (∀ e ∈ es, CERel r1 r2 alphabet e) →
    ∀ {nfa1 nfa2 : NFA} {o : Nat} {out1 out2 : NFA × Nat},
      NfaRel nfa1 nfa2 →
      connect_chain r1 alphabet nfa1 o es = some out1 →
      connect_chain r2 alphabet nfa2 o es = some out2 →
      NfaRel out1.1 out2.1 ∧ out1.2 = out2.2 := by
  intro es
  induction es with
  | nil =>
    intro _ nfa1 nfa2 o out1 out2 hrel h1 h2
    replace h1 : some (nfa1, o) = some out1 := h1
    replace h2 : some (nfa2, o) = some out2 := h2
    rw [Option.some_inj] at h1 h2
    subst h1
    subst h2
    exact ⟨hrel, rfl⟩
  | cons e es ih =>
    intro hP nfa1 nfa2 o out1 out2 hrel h1 h2
    simp only [connect_chain, Option.bind_eq_bind, Option.pure_def] at h1 h2
    rcases Option.bind_eq_some.mp h1 with ⟨⟨nfa1b, i1, o1b⟩, hc1, hr1⟩
    rcases Option.bind_eq_some.mp h2 with ⟨⟨nfa2b, i2, o2b⟩, hc2, hr2⟩
    obtain ⟨hrelb, hieq, hoeq⟩ := hP e (List.mem_cons_self _ _) hrel hc1 hc2
    simp only [] at hrelb hieq hoeq
    subst hieq
    subst hoeq
    exact ih (fun e' he' => hP e' (List.mem_cons_of_mem _ he'))
      (hrelb.connect_epsilon o i1) hr1 hr2

theorem connect_alts_rel {r1 r2 : List (Nat × Nat) → List (Nat × Nat)}
    {alphabet : List (Nat × Nat)} :
    ∀ es : List Element, (∀ e ∈ es, CERel r1 r2 alphabet e) →
    ∀ {nfa1 nfa2 : NFA} {en ex : Nat} {out1 out2 : NFA},
      NfaRel nfa1 nfa2 →
      connect_alts r1 alphabet nfa1 en ex es = some out1 →
      connect_alts r2 alphabet nfa2 en ex es = some out2 →
      NfaRel out1 out2 := by
  intro es
  induction es with
  | nil =>
    intro _ nfa1 nfa2 en ex out1 out2 hrel h1 h2
    replace h1 : some nfa1 = some out1 := h1
    replace h2 : some nfa2 = some out2 := h2
    rw [Option.some_inj] at h1 h2
    subst h1
    subst h2
    exact hrel
  | cons e es ih =>
    intro hP nfa1 nfa2 en ex out1 out2 hrel h1 h2
    simp only [connect_alts, Option.bind_eq_bind, Option.pure_def] at h1 h2
    rcases Option.bind_eq_some.mp h1 with ⟨⟨nfa1b, a1, b1⟩, hc1, hr1⟩
    rcases Option.bind_eq_some.mp h2 with ⟨⟨nfa2b, a2, b2⟩, hc2, hr2⟩
    obtain ⟨hrelb, haeq, hbeq⟩ := hP e (List.mem_cons_self _ _) hrel hc1 hc2
    simp only [] at hrelb haeq hbeq
    subst haeq
    subst hbeq
    exact ih (fun e' he' => hP e' (List.mem_cons_of_mem _ he'))
      (((hrelb.connect_epsilon en a1).connect_epsilon b1 ex)) hr1 hr2

theorem connect_element_rel {r1 r2 : List (Nat × Nat) → List (Nat × Nat)}
    (hp1 : ∀ l, List.Perm (r1 l) l) (hp2 : ∀ l, List.Perm (r2 l) l)
    {alphabet : List (Nat × Nat)} :
    ∀ e, CERel r1 r2 alphabet e := by
  have main := Element.mutual_induction (P := fun e => CERel r1 r2 alphabet e)
    (Q := fun es => ∀ e ∈ es, CERel r1 r2 alphabet e)
  refine fun e => main ?_ ?_ ?_ ?_ ?_ ?_ ?_ ?_ ?_ ?_ ?_ e
  -- Rule
  · intro var name nfa1 nfa2 _ o1 o2 h1 _
    cases h1
  -- Set
  · intro chars ranges nfa1 nfa2 hrel o1 o2 h1 h2
    simp only [connect_element, Option.bind_eq_bind, Option.pure_def] at h1 h2
    rcases Option.bind_eq_some.mp h1 with ⟨conns1, hc1, hret1⟩
    rcases Option.bind_eq_some.mp h2 with ⟨conns2, hc2, hret2⟩
    have hceq : conns1 = conns2 := by
      rw [hc1] at hc2
      exact Option.some_inj.mp hc2
    subst hceq
    simp only [Option.some_inj] at hret1 hret2
    subst hret1
    subst hret2
    obtain ⟨haddA, hiA⟩ := hrel.add_empty
    obtain ⟨haddB, hiB⟩ := haddA.add_empty
    obtain ⟨hs1, he1, hc1f⟩ := emit_fold_states_conns (r1 conns1)
      ((nfa1.add_empty).1.add_empty).1 (nfa1.add_empty).2 ((nfa1.add_empty).1.add_empty).2
    obtain ⟨hs2, he2, hc2f⟩ := emit_fold_states_conns (r2 conns1)
      ((nfa2.add_empty).1.add_empty).1 (nfa2.add_empty).2 ((nfa2.add_empty).1.add_empty).2
    refine ⟨⟨?_, ?_, ?_⟩, hiA, hiB⟩
    · rw [hs1, hs2, haddB.states]
    · rw [he1, he2, haddB.entry]
    · rw [hc1f, hc2f, hiA, hiB]
      exact haddB.conns.append (((hp1 conns1).map _).trans ((hp2 conns1).map _).symm)
  -- NegatedSet
  · intro chars ranges nfa1 nfa2 hrel o1 o2 h1 h2
    simp only [connect_element, Option.bind_eq_bind, Option.pure_def] at h1 h2
    rcases Option.bind_eq_some.mp h1 with ⟨conns1, hc1, hret1⟩
    rcases Option.bind_eq_some.mp h2 with ⟨conns2, hc2, hret2⟩
    have hceq : conns1 = conns2 := by
      rw [hc1] at hc2
      exact Option.some_inj.mp hc2
    subst hceq
    simp only [Option.some_inj] at hret1 hret2
    subst hret1
    subst hret2
    obtain ⟨haddA, hiA⟩ := hrel.add_empty
    obtain ⟨haddB, hiB⟩ := haddA.add_empty
    obtain ⟨hs1, he1, hc1f⟩ := emit_fold_states_conns (r1 conns1)
      ((nfa1.add_empty).1.add_empty).1 (nfa1.add_empty).2 ((nfa1.add_empty).1.add_empty).2
    obtain ⟨hs2, he2, hc2f⟩ := emit_fold_states_conns (r2 conns1)
      ((nfa2.add_empty).1.add_empty).1 (nfa2.add_empty).2 ((nfa2.add_empty).1.add_empty).2
    refine ⟨⟨?_, ?_, ?_⟩, hiA, hiB⟩
    · rw [hs1, hs2, haddB.states]
    · rw [he1, he2, haddB.entry]
    · rw [hc1f, hc2f, hiA, hiB]
      exact haddB.conns.append (((hp1 conns1).map _).trans ((hp2 conns1).map _).symm)
  -- Literal
  · intro lit nfa1 nfa2 hrel o1 o2 h1 h2
    match lit, h1, h2 with
    | first :: rest, h1, h2 =>
      replace h1 : some ((rest.foldl (fun (p : NFA × Nat) c =>
          let (nfa, e) := p.1.add_empty
          (nfa.connect_range p.2 e (c.toNat, c.toNat), e))
            (((nfa1.add_empty).1.add_empty).1.connect_range (nfa1.add_empty).2
              ((nfa1.add_empty).1.add_empty).2 (first.toNat, first.toNat),
             ((nfa1.add_empty).1.add_empty).2)).1,
          (nfa1.add_empty).2,
          (rest.foldl (fun (p : NFA × Nat) c =>
          let (nfa, e) := p.1.add_empty
          (nfa.connect_range p.2 e (c.toNat, c.toNat), e))
            (((nfa1.add_empty).1.add_empty).1.connect_range (nfa1.add_empty).2
              ((nfa1.add_empty).1.add_empty).2 (first.toNat, first.toNat),
             ((nfa1.add_empty).1.add_empty).2)).2) = some o1 := h1
      replace h2 : some ((rest.foldl (fun (p : NFA × Nat) c =>
          let (nfa, e) := p.1.add_empty
          (nfa.connect_range p.2 e (c.toNat, c.toNat), e))
            (((nfa2.add_empty).1.add_empty).1.connect_range (nfa2.add_empty).2
              ((nfa2.add_empty).1.add_empty).2 (first.toNat, first.toNat),
             ((nfa2.add_empty).1.add_empty).2)).1,
          (nfa2.add_empty).2,
          (rest.foldl (fun (p : NFA × Nat) c =>
          let (nfa, e) := p.1.add_empty
          (nfa.connect_range p.2 e (c.toNat, c.toNat), e))
            (((nfa2.add_empty).1.add_empty).1.connect_range (nfa2.add_empty).2
              ((nfa2.add_empty).1.add_empty).2 (first.toNat, first.toNat),
             ((nfa2.add_empty).1.add_empty).2)).2) = some o2 := h2
      rw [Option.some_inj] at h1 h2
      subst h1
      subst h2
      obtain ⟨haddA, hiA⟩ := hrel.add_empty
      obtain ⟨haddB, hiB⟩ := haddA.add_empty
      have hbase : NfaRel
          (((nfa1.add_empty).1.add_empty).1.connect_range (nfa1.add_empty).2
            ((nfa1.add_empty).1.add_empty).2 (first.toNat, first.toNat))
          (((nfa2.add_empty).1.add_empty).1.connect_range (nfa2.add_empty).2
            ((nfa2.add_empty).1.add_empty).2 (first.toNat, first.toNat)) := by
        rw [hiA, hiB]
        exact haddB.connect_range _ _ _
      obtain ⟨hfrel, hfeq⟩ := literal_fold_rel rest
        (((nfa1.add_empty).1.add_empty).1.connect_range (nfa1.add_empty).2
            ((nfa1.add_empty).1.add_empty).2 (first.toNat, first.toNat),
         ((nfa1.add_empty).1.add_empty).2)
        (((nfa2.add_empty).1.add_empty).1.connect_range (nfa2.add_empty).2
            ((nfa2.add_empty).1.add_empty).2 (first.toNat, first.toNat),
         ((nfa2.add_empty).1.add_empty).2)
        hbase hiB
      exact ⟨hfrel, hiA, hfeq⟩
  -- OneOrMore
  · intro inner ih nfa1 nfa2 hrel o1 o2 h1 h2
    simp only [connect_element, Option.bind_eq_bind, Option.pure_def] at h1 h2
    rcases Option.bind_eq_some.mp h1 with ⟨⟨nfa1b, en1, ex1⟩, hc1, hret1⟩
    rcases Option.bind_eq_some.mp h2 with ⟨⟨nfa2b, en2, ex2⟩, hc2, hret2⟩
    obtain ⟨hrelb, heneq, hexeq⟩ := ih hrel hc1 hc2
    simp only [] at hrelb heneq hexeq
    subst heneq
    subst hexeq
    simp only [Option.some_inj] at hret1 hret2
    subst hret1
    subst hret2
    exact ⟨hrelb.connect_epsilon ex1 en1, rfl, rfl⟩
  -- ZeroOrMore
  · intro inner ih nfa1 nfa2 hrel o1 o2 h1 h2
    simp only [connect_element, Option.bind_eq_bind, Option.pure_def] at h1 h2
    rcases Option.bind_eq_some.mp h1 with ⟨⟨nfa1b, en1, ex1⟩, hc1, hret1⟩
    rcases Option.bind_eq_some.mp h2 with ⟨⟨nfa2b, en2, ex2⟩, hc2, hret2⟩
    obtain ⟨hrelb, heneq, hexeq⟩ := ih hrel hc1 hc2
    simp only [] at hrelb heneq hexeq
    subst heneq
    subst hexeq
    simp only [Option.some_inj] at hret1 hret2
    subst hret1
    subst hret2
    exact ⟨(hrelb.connect_epsilon ex1 en1).connect_epsilon en1 ex1, rfl, rfl⟩
  -- Optional
  · intro inner ih nfa1 nfa2 hrel o1 o2 h1 h2
    simp only [connect_element, Option.bind_eq_bind, Option.pure_def] at h1 h2
    rcases Option.bind_eq_some.mp h1 with ⟨⟨nfa1b, en1, ex1⟩, hc1, hret1⟩
    rcases Option.bind_eq_some.mp h2 with ⟨⟨nfa2b, en2, ex2⟩, hc2, hret2⟩
    obtain ⟨hrelb, heneq, hexeq⟩ := ih hrel hc1 hc2
    simp only [] at hrelb heneq hexeq
    subst heneq
    subst hexeq
    simp only [Option.some_inj] at hret1 hret2
    subst hret1
    subst hret2
    exact ⟨hrelb.connect_epsilon en1 ex1, rfl, rfl⟩
  -- Alternatives
  · intro subelems ih nfa1 nfa2 hrel o1 o2 h1 h2
    simp only [connect_element, Option.bind_eq_bind, Option.pure_def] at h1 h2
    rcases Option.bind_eq_some.mp h1 with ⟨nfa1b, hc1, hret1⟩
    rcases Option.bind_eq_some.mp h2 with ⟨nfa2b, hc2, hret2⟩
    obtain ⟨haddA, hiA⟩ := hrel.add_empty
    obtain ⟨haddB, hiB⟩ := haddA.add_empty
    rw [← hiA, ← hiB] at hc2
    have hrelb : NfaRel nfa1b nfa2b := connect_alts_rel subelems ih haddB hc1 hc2
    simp only [Option.some_inj] at hret1 hret2
    subst hret1
    subst hret2
    exact ⟨hrelb, hiA, hiB⟩
  -- Group
  · intro subelems ih nfa1 nfa2 hrel o1 o2 h1 h2
    match subelems, ih, h1, h2 with
    | e :: rest, ih, h1, h2 =>
      simp only [connect_element, Option.bind_eq_bind, Option.pure_def] at h1 h2
      rcases Option.bind_eq_some.mp h1 with ⟨⟨nfa1b, en1, o1b⟩, hc1, hr1⟩
      rcases Option.bind_eq_some.mp h2 with ⟨⟨nfa2b, en2, o2b⟩, hc2, hr2⟩
      obtain ⟨hrelb, heneq, hoeq⟩ := ih e (List.mem_cons_self _ _) hrel hc1 hc2
      simp only [] at hrelb heneq hoeq
      subst heneq
      subst hoeq
      rcases Option.bind_eq_some.mp hr1 with ⟨⟨nfa1c, ex1⟩, hch1, hret1⟩
      rcases Option.bind_eq_some.mp hr2 with ⟨⟨nfa2c, ex2⟩, hch2, hret2⟩
      obtain ⟨hrelc, hexeq⟩ := connect_chain_rel rest
        (fun e' he' => ih e' (List.mem_cons_of_mem _ he')) hrelb hch1 hch2
      simp only [] at hrelc hexeq
      subst hexeq
      simp only [Option.some_inj] at hret1 hret2
      subst hret1
      subst hret2
      exact ⟨hrelc, rfl, rfl⟩
  -- Q nil / cons
  · intro e' he'
    cases he'
  · intro e' es' ihe ihl e'' he''
    rcases List.mem_cons.mp he'' with rfl | he'''
    · exact ihe
    · exact ihl e'' he'''

theorem construct_nfa_loop_rel {r1 r2 : List (Nat × Nat) → List (Nat × Nat)}
    (hp1 : ∀ l, List.Perm (r1 l) l) (hp2 : ∀ l, List.Perm (r2 l) l)
    {alphabet : List (Nat × Nat)} :
    ∀ (rules : List Rule) {nfa1 nfa2 : NFA}, NfaRel nfa1 nfa2 →
    ∀ {out1 out2 : NFA},
      construct_nfa_loop r1 alphabet nfa1 rules = some out1 →
      construct_nfa_loop r2 alphabet nfa2 rules = some out2 →
      NfaRel out1 out2 := by
  intro rules
  induction rules with
  | nil =>
    intro nfa1 nfa2 hrel out1 out2 h1 h2
    replace h1 : some nfa1 = some out1 := h1
    replace h2 : some nfa2 = some out2 := h2
    rw [Option.some_inj] at h1 h2
    subst h1
    subst h2
    exact hrel
  | cons rule rules ih =>
    intro nfa1 nfa2 hrel out1 out2 h1 h2
    simp only [construct_nfa_loop, Option.bind_eq_bind, Option.pure_def] at h1 h2
    rcases Option.bind_eq_some.mp h1 with ⟨⟨nfa1b, en1, ex1⟩, hc1, hr1⟩
    rcases Option.bind_eq_some.mp h2 with ⟨⟨nfa2b, en2, ex2⟩, hc2, hr2⟩
    obtain ⟨haddRel, haddIdx⟩ := hrel.add ⟨some rule.name⟩
    obtain ⟨hrelb, heneq, hexeq⟩ :=
      connect_element_rel hp1 hp2 rule.element haddRel hc1 hc2
    simp only [] at hrelb heneq hexeq
    subst heneq
    subst hexeq
    refine ih ?_ hr1 hr2
    rw [← hrelb.entry, ← haddIdx]
    exact (hrelb.connect_epsilon _ _).connect_epsilon _ _

/-- Two runs of `construct_nfa` under admissible orders build order-related
NFAs. -/
theorem construct_nfa_rel {r1 r2 : List (Nat × Nat) → List (Nat × Nat)}
    (hp1 : ∀ l, List.Perm (r1 l) l) (hp2 : ∀ l, List.Perm (r2 l) l)
    {alphabet : List (Nat × Nat)} (rules : List Rule) {out1 out2 : NFA}
    (h1 : construct_nfa r1 rules alphabet = some out1)
    (h2 : construct_nfa r2 rules alphabet = some out2) :
    NfaRel out1 out2 :=
  construct_nfa_loop_rel hp1 hp2 rules (NfaRel.refl NFA.new) h1 h2

theorem epsStep_perm {c1 c2 : List EpsilonConnection} (h : List.Perm c1 c2)
    (s : Finset Nat) : epsStep c1 s = epsStep c2 s := by
  unfold epsStep
  rw [List.toFinset_eq_of_perm _ _ (h.filterMap _)]

theorem epsilon_closure_perm {c1 c2 : List EpsilonConnection} (h : List.Perm c1 c2)
    (s : Finset Nat) : epsilon_closure c1 s = epsilon_closure c2 s := by
  unfold epsilon_closure
  rw [h.length_eq, funext (epsStep_perm h)]

theorem moveSet_perm {c1 c2 : List EpsilonConnection} (h : List.Perm c1 c2)
    (s : Finset Nat) (arange : Nat × Nat) : moveSet c1 s arange = moveSet c2 s arange := by
  unfold moveSet
  rw [List.toFinset_eq_of_perm _ _ (h.filterMap _)]

theorem transSet_perm {c1 c2 : List EpsilonConnection} (h : List.Perm c1 c2)
    (s : Finset Nat) (arange : Nat × Nat) :
    transSet c1 s arange = transSet c2 s arange := by
  unfold transSet
  rw [moveSet_perm h, epsilon_closure_perm h]

/-- `pcAux` depends on the NFA only through `transSet` over its connection
list, so order-related NFAs drive identical subset constructions. -/
theorem pcAux_rel {nfa1 nfa2 : NFA} (h : NfaRel nfa1 nfa2)
    (alphabet : List (Nat × Nat)) :
    ∀ (fuel sc : Nat) (rest : List (Nat × Nat)) (ps : List (Finset Nat))
      (cs : List Connection),
      pcAux nfa1 alphabet fuel sc rest ps cs = pcAux nfa2 alphabet fuel sc rest ps cs := by
  intro fuel
  induction fuel with
  | zero => intro sc rest ps cs; rfl
  | succ fuel ih =>
    intro sc rest ps cs
    cases rest with
    | nil => rfl
    | cons arange rest =>
      rw [pcAux, pcAux, transSet_perm h.conns]
      cases hfind : ps.findIdx?
          (fun c => c == transSet nfa2.connections (ps.getD sc ∅) arange) with
      | some pos =>
        exact ih sc rest ps (cs ++ [⟨arange, sc, pos⟩])
      | none =>
        simp only [ih]

theorem acceptionsOf_rel {nfa1 nfa2 : NFA} (h : nfa1.states = nfa2.states)
    (s : Finset Nat) : acceptionsOf nfa1 s = acceptionsOf nfa2 s := by
  simp only [acceptionsOf, h]

theorem buildState_rel {nfa1 nfa2 : NFA} (h : nfa1.states = nfa2.states)
    (s : Finset Nat) : buildState nfa1 s = buildState nfa2 s := by
  simp only [buildState, acceptionsOf_rel h]

theorem buildDfaStates_rel {nfa1 nfa2 : NFA} (h : nfa1.states = nfa2.states) :
    ∀ l, buildDfaStates nfa1 l = buildDfaStates nfa2 l := by
  intro l
  induction l with
  | nil => rfl
  | cons s rest ih =>
    simp only [buildDfaStates, buildState_rel h, ih]

/-! ## The rules parser (`src/rules.rs`)

Each nom parser is embedded as a function `List Char → Option (List Char × α)`
returning the remaining input with the parsed value, `none` for a nom error.
The recursive element grammar is fuel-indexed; the Rust parsers terminate
because every recursion step consumes at least one character, so any fuel of
at least the input length behaves as the original. -/

/-- nom `tag`. -/
def ptag (s : List Char) (src : List Char) : Option (List Char × Unit) :=
  if List.isPrefixOf s src then some (src.drop s.length, ()) else none

/-- nom `opt`. -/
def popt {α : Type} (p : List Char → Option (List Char × α)) (src : List Char) :
    Option (List Char × Option α) :=
  match p src with
  | some (rest, a) => some (rest, some a)
  | none => some (src, none)

/-- nom `satisfy`. -/
def psatisfy (pred : Char → Bool) : List Char → Option (List Char × Char)
  | [] => none
  | c :: rest => if pred c then some (rest, c) else none

/-- nom `one_of`. -/
def pone_of (s : List Char) : List Char → Option (List Char × Char) :=
  psatisfy (fun c => s.contains c)

/-- nom `newline`. -/
def pnewline : List Char → Option (List Char × Char) :=
  psatisfy (fun c => c == '\n')

/-- nom's inline whitespace: space and tab. -/
def isNomSpace (c : Char) : Bool := c == ' ' || c == '\t'

/-- nom `take_while`. -/
def ptake_while (pred : Char → Bool) (src : List Char) :
    Option (List Char × List Char) :=
  some (src.dropWhile pred, src.takeWhile pred)

/-- nom `take_while1`. -/
def ptake_while1 (pred : Char → Bool) (src : List Char) :
    Option (List Char × List Char) :=
  if (src.takeWhile pred).isEmpty then none
  else some (src.dropWhile pred, src.takeWhile pred)

/-- nom `take_while_m_n(1, 1, pred)`: exactly one character. -/
def ptake1 (pred : Char → Bool) : List Char → Option (List Char × List Char)
  | [] => none
  | c :: rest => if pred c then some (rest, [c]) else none

/-- nom `space0`. -/
def pspace0 (src : List Char) : Option (List Char × Unit) :=
  some (src.dropWhile isNomSpace, ())

/-- nom `space1`. -/
def pspace1 (src : List Char) : Option (List Char × Unit) :=
  match ptake_while1 isNomSpace src with
  | some (rest, _) => some (rest, ())
  | none => none

/-- nom `alt` of two parsers (`alt` of more is nested `por`). -/
def por {α : Type} (p q : List Char → Option (List Char × α))
    (src : List Char) : Option (List Char × α) :=
  match p src with
  | some r => some r
  | none => q src

/-- nom `many0`, with its must-consume check. -/
def pmany0 {α : Type} (p : List Char → Option (List Char × α)) :
    Nat → List Char → Option (List Char × List α)
  | 0, _ => none
  | fuel + 1, src =>
    match p src with
    | none => some (src, [])
    | some (rest, a) =>
        if rest.length == src.length then none
        else
          match pmany0 p fuel rest with
          | some (rest2, as2) => some (rest2, a :: as2)
          | none => none

/-- The loop of nom `separated_list1`/`separated_list0`, with the
must-consume check on the separator. -/
def psep1Go {α β : Type} (sep : List Char → Option (List Char × β))
    (p : List Char → Option (List Char × α)) :
    Nat → List Char → List α → Option (List Char × List α)
  | 0, _, _ => none
  | fuel + 1, i, res =>
    match sep i with
    | none => some (i, res)
    | some (i1, _) =>
        if i1.length == i.length then none
        else
          match p i1 with
          | none => some (i, res)
          | some (i2, a) => psep1Go sep p fuel i2 (res ++ [a])

/-- nom `separated_list1`. -/
def psep1 {α β : Type} (sep : List Char → Option (List Char × β))
    (p : List Char → Option (List Char × α)) (src : List Char) :
    Option (List Char × List α) :=
  match p src with
  | none => none
  | some (i1, a) => psep1Go sep p (i1.length + 1) i1 [a]

/-- nom `separated_list0`. -/
def psep0 {α β : Type} (sep : List Char → Option (List Char × β))
    (p : List Char → Option (List Char × α)) (src : List Char) :
    Option (List Char × List α) :=
  match p src with
  | none => some (src, [])
  | some (i1, a) => psep1Go sep p (i1.length + 1) i1 [a]

/-- The loop of nom 7's `escaped`: alternate runs of `normal` and
`control`-prefixed escape sequences; an immediate mismatch (nothing
consumed) is an error, stopping later returns the consumed prefix. -/
def pescGo (normal : List Char → Option (List Char × List Char)) (control : Char)
    (escapable : List Char → Option (List Char × Unit)) (inputLen : Nat) :
    Nat → List Char → Option (List Char)
  | 0, _ => none
  | fuel + 1, i =>
    match i with
    | [] => some []
    | c :: restI =>
      match normal (c :: restI) with
      | some (i2, _) =>
          if i2.isEmpty then some []
          else if i2.length == (c :: restI).length then some i2
          else pescGo normal control escapable inputLen fuel i2
      | none =>
          if c == control then
            match restI with
            | [] => none
            | _ :: _ =>
              match escapable restI with
              | some (i2, _) =>
                  if i2.isEmpty then some []
                  else pescGo normal control escapable inputLen fuel i2
              | none => none
          else if (c :: restI).length == inputLen then none
          else some (c :: restI)

/-- nom `escaped`. -/
def pescaped (normal : List Char → Option (List Char × List Char)) (control : Char)
    (escapable : List Char → Option (List Char × Unit)) (src : List Char) :
    Option (List Char × List Char) :=
  match pescGo normal control escapable src.length (src.length + 1) src with
  | some rest => some (rest, src.take (src.length - rest.length))
  | none => none

/-- Rust `char::is_alphabetic` (the Unicode `Alphabetic` property), modelled
exactly on ASCII and on the Greek block: ASCII letters and the Greek letters
`U+0391..U+03A9` (minus the reserved `U+03A2`) and `U+03B1..U+03C9` — in
particular `α` — are alphabetic; no other ASCII character is.  The theorems
below evaluate it on those ranges only. -/
def rust_is_alphabetic (c : Char) : Bool :=
  (('A' ≤ c && c ≤ 'Z') || ('a' ≤ c && c ≤ 'z')) ||
  (0x391 ≤ c.toNat && c.toNat ≤ 0x3A9 && c.toNat != 0x3A2) ||
  (0x3B1 ≤ c.toNat && c.toNat ≤ 0x3C9)

/-- Rust `char::is_numeric`, modelled exactly on ASCII digits. -/
def rust_is_numeric (c : Char) : Bool := '0' ≤ c && c ≤ '9'

/-- Rust `char::is_alphanumeric`. -/
def rust_is_alphanumeric (c : Char) : Bool := rust_is_alphabetic c || rust_is_numeric c

/-- `parse_name` of `src/rules.rs`: one `is_alphabetic` character, then
`is_alphanumeric`-or-underscore characters. -/
def parse_name (src : List Char) : Option (List Char × List Char) :=
  match ptake1 rust_is_alphabetic src with
  | none => none
  | some (src1, fc) =>
    match ptake_while (fun c => rust_is_alphanumeric c || c == '_') src1 with
    | some (src2, rest) => some (src2, fc ++ rest)
    | none => none

/-- The item alternatives of `parse_set`. -/
inductive CharOrRange where
  | chr (c : Char)
  | range (r : Char × Char)

def parse_set_item : List Char → Option (List Char × CharOrRange) :=
  por (fun s => match ptag ['\\', ']'] s with
        | some (r, _) => some (r, CharOrRange.chr ']')
        | none => none)
  (por (fun s => match ptag ['\\', '\\'] s with
        | some (r, _) => some (r, CharOrRange.chr '\\')
        | none => none)
  (por (fun s => match ptag ['\\', '-'] s with
        | some (r, _) => some (r, CharOrRange.chr '-')
        | none => none)
  (por (fun s => do
        let (s, a) ← psatisfy (fun c => c != ']') s
        let (s, _) ← ptag ['-'] s
        let (s, b) ← psatisfy (fun c => c != ']') s
        pure (s, CharOrRange.range (a, b)))
    (fun s => match psatisfy (fun c => c != ']') s with
        | some (r, c) => some (r, CharOrRange.chr c)
        | none => none))))

/-- `parse_set` of `src/rules.rs`. -/
def parse_set (src : List Char) : Option (List Char × Element) := do
  let (src, _) ← ptag ['['] src
  let (src, negated) ← popt (ptag ['^']) src
  let (src, items) ← pmany0 parse_set_item (src.length + 1) src
  let (src, _) ← ptag [']'] src
  let chars := items.filterMap (fun i => match i with
    | CharOrRange.chr c => some c
    | CharOrRange.range _ => none)
  let ranges := items.filterMap (fun i => match i with
    | CharOrRange.range r => some r
    | CharOrRange.chr _ => none)
  if negated.isSome then pure (src, Element.negatedSet chars ranges)
  else pure (src, Element.set chars ranges)

/-- `parse_literal` of `src/rules.rs`. -/
def parse_literal (src : List Char) : Option (List Char × Element) := do
  let (src, _) ← ptag ['\"'] src
  let (src, contents) ← pescaped (ptake_while1 (fun c => c != '\"')) '\\'
    (ptag ['\"']) src
  let (src, _) ← ptag ['\"'] src
  pure (src, Element.literal contents)

/-- `parse_element_rule` of `src/rules.rs`. -/
def parse_element_rule (src : List Char) : Option (List Char × Element) := do
  let (src, var_opt) ← popt (fun s => do
      let (s, v) ← parse_name s
      let (s, _) ← ptag [':'] s
      pure (s, v)) src
  let (src, name) ← parse_name src
  pure (src, Element.rule (var_opt.map (fun v => String.mk v)) (String.mk name))

/-- The separator `tuple((space0, tag("|"), space0))`. -/
def psepBar (src : List Char) : Option (List Char × Unit) := do
  let (src, _) ← pspace0 src
  let (src, _) ← ptag ['|'] src
  let (src, _) ← pspace0 src
  pure (src, ())

mutual
/-- `parse_element` of `src/rules.rs`. -/
def parse_element : Nat → List Char → Option (List Char × Element)
  | 0, _ => none
  | fuel + 1, src =>
      por (parse_repetition fuel)
        (por parse_literal (por parse_set (por parse_element_rule
          (por (parse_group fuel) (parse_alternatives fuel))))) src

/-- `parse_element_no_rule` of `src/rules.rs`. -/
def parse_element_no_rule : Nat → List Char → Option (List Char × Element)
  | 0, _ => none
  | fuel + 1, src =>
      por (parse_repetition_no_rule fuel)
        (por parse_literal (por parse_set
          (por (parse_group_no_rule fuel) (parse_alternatives_no_rule fuel)))) src

/-- `parse_repetition` of `src/rules.rs`. -/
def parse_repetition : Nat → List Char → Option (List Char × Element)
  | 0, _ => none
  | fuel + 1, src => do
      let (src, base) ← parse_group fuel src
      let (src, kind) ← pone_of ['+', '*', '?'] src
      if kind == '+' then pure (src, Element.oneOrMore base)
      else if kind == '*' then pure (src, Element.zeroOrMore base)
      else if kind == '?' then pure (src, Element.optional base)
      else none

/-- `parse_repetition_no_rule` of `src/rules.rs`. -/
def parse_repetition_no_rule : Nat → List Char → Option (List Char × Element)
  | 0, _ => none
  | fuel + 1, src => do
      let (src, base) ← parse_group_no_rule fuel src
      let (src, kind) ← pone_of ['+', '*', '?'] src
      if kind == '+' then pure (src, Element.oneOrMore base)
      else if kind == '*' then pure (src, Element.zeroOrMore base)
      else if kind == '?' then pure (src, Element.optional base)
      else none

/-- `parse_group` of `src/rules.rs`. -/
def parse_group : Nat → List Char → Option (List Char × Element)
  | 0, _ => none
  | fuel + 1, src => do
      let (src, _) ← ptag ['('] src
      let (src, _) ← pspace0 src
      let (src, elements) ← psep1 pspace1 (parse_element fuel) src
      let (src, _) ← pspace0 src
      let (src, _) ← ptag [')'] src
      match elements with
      | [e] => pure (src, e)
      | _ => pure (src, Element.group elements)

/-- `parse_alternatives` of `src/rules.rs`. -/
def parse_alternatives : Nat → List Char → Option (List Char × Element)
  | 0, _ => none
  | fuel + 1, src => do
      let (src, _) ← ptag ['('] src
      let (src, _) ← pspace0 src
      let (src, elements) ← psep1 psepBar (parse_element fuel) src
      let (src, _) ← pspace0 src
      let (src, _) ← ptag [')'] src
      match elements with
      | [e] => pure (src, e)
      | _ => pure (src, Element.alternatives elements)

/-- `parse_group_no_rule` of `src/rules.rs`. -/
def parse_group_no_rule : Nat → List Char → Option (List Char × Element)
  | 0, _ => none
  | fuel + 1, src => do
      let (src, _) ← ptag ['('] src
      let (src, _) ← pspace0 src
      let (src, elements) ← psep1 pspace1 (parse_element_no_rule fuel) src
      let (src, _) ← pspace0 src
      let (src, _) ← ptag [')'] src
      match elements with
      | [e] => pure (src, e)
      | _ => pure (src, Element.group elements)

/-- `parse_alternatives_no_rule` of `src/rules.rs`. -/
def parse_alternatives_no_rule : Nat → List Char → Option (List Char × Element)
  | 0, _ => none
  | fuel + 1, src => do
      let (src, _) ← ptag ['('] src
      let (src, _) ← pspace0 src
      let (src, elements) ← psep1 psepBar (parse_element_no_rule fuel) src
      let (src, _) ← pspace0 src
      let (src, _) ← ptag [')'] src
      match elements with
      | [e] => pure (src, e)
      | _ => pure (src, Element.alternatives elements)
end

/-- `parse_token` of `src/rules.rs`. -/
def parse_token (fuel : Nat) (src : List Char) : Option (List Char × Rule) := do
  let (src, _) ← ptag ['t', 'o', 'k', 'e', 'n'] src
  let (src, _) ← pspace1 src
  let (src, name) ← parse_name src
  let (src, _) ← pspace0 src
  let (src, _) ← ptag ['='] src
  let (src, _) ← pspace0 src
  let (src, elements) ← psep1 pspace1 (parse_element_no_rule fuel) src
  let (src, _) ← ptag [';'] src
  pure (src, ⟨true, false, String.mk name, Element.group elements, none, none⟩)

/-- `parse_constructor` of `src/rules.rs`. -/
def parse_constructor (src : List Char) :
    Option (List Char × (List Char × List (List Char))) := do
  let (src, type_name) ← parse_name src
  let (src, _) ← ptag ['('] src
  let (src, vars) ← psep0 (fun s => do
      let (s, _) ← pspace0 s
      let (s, _) ← ptag [','] s
      let (s, _) ← pspace0 s
      pure (s, ())) parse_name src
  let (src, _) ← ptag [')'] src
  pure (src, (type_name, vars))

/-- `parse_nonterminal` of `src/rules.rs`. -/
def parse_nonterminal (fuel : Nat) (src : List Char) : Option (List Char × Rule) := do
  let (src, _) ← ptag ['n', 'o', 'n', 't', 'e', 'r', 'm'] src
  let (src, _) ← pspace1 src
  let (src, name) ← parse_name src
  let (src, _) ← pspace0 src
  let (src, _) ← ptag ['='] src
  let (src, _) ← pspace0 src
  let (src, elements) ← psep1 pspace1 (parse_element fuel) src
  let (src, _) ← pspace0 src
  let (src, _) ← ptag ['-', '>'] src
  let (src, _) ← pspace0 src
  let (src, ctor) ← parse_constructor src
  let (src, _) ← ptag [';'] src
  pure (src, ⟨false, false, String.mk name, Element.group elements,
    some (String.mk ctor.1), some (ctor.2.map (fun v => String.mk v))⟩)

/-- `parse_rule` of `src/rules.rs`. -/
def parse_rule (fuel : Nat) (src : List Char) : Option (List Char × Rule) := do
  let (src, ex) ← popt (ptag ['e', 'x', 'p', 'o', 'r', 't', ' ']) src
  let (src, rule) ← por (parse_token fuel) (parse_nonterminal fuel) src
  pure (src, { rule with exportRule := ex.isSome })

/-- `parse_rules` of `src/rules.rs`. -/
def parse_rules (fuel : Nat) (src : List Char) : Option (List Char × List Rule) := do
  let (src, rules) ← psep1 pnewline (parse_rule fuel) src
  let (src, _) ← popt pnewline src
  pure (src, rules)

/-- The parsing core of `parse_file` of `src/rules.rs` on the file's
contents: `parse_rules` must consume the whole input and the rule names must
be distinct (the `HashSet` length check); every `bail!`/`ensure!` failure is
`none`. -/
def parse_file_src (fuel : Nat) (src : List Char) : Option (List Rule) :=
  match parse_rules fuel src with
  | some (rest, rules) =>
      if rest.isEmpty then
        if (rules.map (fun r => r.name)).Nodup then some rules else none
      else none
  | none => none

/-- Concrete example for the equivalence witness: the rule set of
`token A = "a";`. -/
def exC1Rules : List Rule := [⟨true, false, "A", .group [.literal ['a']], none, none⟩]

/-- The alphabet `construct_alphabet` produces for `exC1Rules`. -/
def exC1Alphabet : List (Nat × Nat) := [(0, 0), (1, 96), (97, 97), (98, 1114111)]

/-- The NFA `construct_nfa` produces for `exC1Rules` over `exC1Alphabet`. -/
def exC1Nfa : NFA :=
  ⟨[⟨none⟩, ⟨some "A"⟩, ⟨none⟩, ⟨none⟩], 0,
   [.connection (97, 97) 2 3, .epsilon 0 2, .epsilon 3 1]⟩

/-- The DFA `from_rules` produces for `exC1Rules`. -/
def exC1Dfa : DFA :=
  ⟨[⟨none⟩, ⟨some "_TRAP"⟩, ⟨some "A"⟩],
   [⟨(0, 0), 1, 1⟩, ⟨(1, 96), 1, 1⟩, ⟨(97, 97), 1, 1⟩, ⟨(98, 1114111), 1, 1⟩,
    ⟨(0, 0), 0, 1⟩, ⟨(1, 96), 0, 1⟩, ⟨(0, 0), 2, 1⟩, ⟨(1, 96), 2, 1⟩,
    ⟨(97, 97), 2, 1⟩, ⟨(98, 1114111), 2, 1⟩, ⟨(97, 97), 0, 2⟩,
    ⟨(98, 1114111), 0, 1⟩]⟩

/-- C1 — NFA/DFA equivalence: for the NFA built by `construct_nfa` from the
terminal rules and the DFA built from it by the subset construction over the
same alphabet, a word of code points is accepted by the DFA (the simulation
from state 0 ends in a state labelled `Some(name)` with `name ≠ "_TRAP"`)
exactly when some path through the NFA from its entry state over the word
ends in an accepting NFA state. -/
theorem nfa_dfa_equivalence
    {fuel : Nat} {rules : List Rule} {alphabet : List (Nat × Nat)} {nfa : NFA} {dfa : DFA}
    (hal : construct_alphabet (rules.filter (·.is_terminal)) = some alphabet)
    (hnfa : construct_nfa id (rules.filter (·.is_terminal)) alphabet = some nfa)
    (hbuilt : from_rules id fuel rules = .built dfa)
    (hnames : ∀ rule ∈ rules, rule.name ≠ "_TRAP")
    (w : List Nat) :
    dfaAccepts dfa w ↔ nfaAccepts nfa w := by
  obtain ⟨al', nfa', ps, cs, sts, hal', hnfa', hpc, hbuild, hdfa⟩ := from_rules_anatomy hbuilt
  rw [hal'] at hal
  rw [Option.some_inj] at hal
  subst hal
  rw [hnfa'] at hnfa
  rw [Option.some_inj] at hnfa
  subst hnfa
  subst hdfa
  have hid : ∀ l : List (Nat × Nat), List.Perm (id l) l := fun l => List.Perm.refl l
  obtain ⟨hget0, hnodupPs, hlen1, hcount, hconnfacts⟩ := pc_top hpc
  obtain ⟨hsorted, hwf_iv, hdisj⟩ := construct_alphabet_spec hal'
  have hnodupAl : al'.Nodup :=
    hsorted.imp (fun hab heq => absurd (heq ▸ hab) pairLt_irrefl)
  have hwf := construct_nfa_wf hid (rules_elemOk hal') hnfa'
  obtain ⟨hstslen, hstget⟩ := buildDfaStates_spec hbuild
  have hrun := @dfaRun_spec _ _ _ _ sts hnodupAl hcount hconnfacts hdisj
    hwf.conns_rangeOk w 0 (epsilon_closure nfa'.connections {nfa'.entry})
    (by omega) hget0
  have hreach : reachSet nfa' w = w.foldl
      (fun Sx c => epsilon_closure nfa'.connections (charMove nfa'.connections Sx c))
      (epsilon_closure nfa'.connections {nfa'.entry}) := rfl
  have hnfaAcc : nfaAccepts nfa' w ↔ ∃ t ∈ reachSet nfa' w, nfaAccepting nfa' t := by
    unfold nfaAccepts
    constructor
    · rintro ⟨t, hpath, hacc⟩
      exact ⟨t, mem_reachSet.mpr hpath, hacc⟩
    · rintro ⟨t, hmem, hacc⟩
      exact ⟨t, mem_reachSet.mp hmem, hacc⟩
  rcases hrun with ⟨t, hrunEq, ht, hT⟩ | ⟨hrunEq, hempty⟩
  · rw [← hreach] at hT
    obtain ⟨st, hstEq, hbs⟩ := hstget t _ hT
    rcases buildState_ok_spec hbs with ⟨hSempty, hstTrap⟩ | ⟨hSne, accs, haccs, hlt2, hhead⟩
    · -- trap state: both sides reject
      constructor
      · rintro ⟨s', st', name, hrun', hst', hname, hne⟩
        rw [hrunEq, Option.some_inj] at hrun'
        have hst2 : sts.get? t = some st' := by rw [hrun']; exact hst'
        rw [hstEq, Option.some_inj] at hst2
        rw [← hst2, hstTrap] at hname
        exact absurd (Option.some_inj.mp hname).symm hne
      · intro hacc
        obtain ⟨t', hmem, _⟩ := hnfaAcc.mp hacc
        rw [hSempty] at hmem
        exact absurd hmem (Finset.not_mem_empty t')
    · rcases accs with _ | ⟨a, tail⟩
      · -- no accepting member: both sides reject
        constructor
        · rintro ⟨s', st', name, hrun', hst', hname, hne⟩
          rw [hrunEq, Option.some_inj] at hrun'
          have hst2 : sts.get? t = some st' := by rw [hrun']; exact hst'
          rw [hstEq, Option.some_inj] at hst2
          rw [← hst2, hhead] at hname
          cases hname
        · intro hacc
          obtain ⟨t', hmem, st', hst', hissome⟩ := hnfaAcc.mp hacc
          cases hacc' : st'.accepting with
          | none => rw [hacc'] at hissome; cases hissome
          | some a =>
            have := (acceptionsOf_nil_iff haccs).mp rfl t' hmem st' hst'
            rw [this] at hacc'
            cases hacc'
      · -- unique accept label: both sides accept
        have hamem : a ∈ a :: tail := by simp
        obtain ⟨i, hiS, sti, hsti, hstiacc⟩ := (mem_acceptionsOf haccs).mp hamem
        have haneq : a ≠ "_TRAP" := by
          have hmem := List.get?_mem hsti
          rcases hwf.labels sti hmem with hnone | ⟨rule, hrule, heq⟩
          · rw [hnone] at hstiacc; cases hstiacc
          · rw [heq] at hstiacc
            rw [Option.some_inj] at hstiacc
            subst hstiacc
            exact hnames rule (List.mem_of_mem_filter hrule)
        constructor
        · intro _
          exact hnfaAcc.mpr ⟨i, hiS, sti, hsti, by rw [hstiacc]; rfl⟩
        · intro _
          refine ⟨t, st, a, hrunEq, hstEq, ?_, haneq⟩
          rw [hhead]
          rfl
  · rw [← hreach] at hempty
    constructor
    · rintro ⟨s', st', name, hrun', _, _, _⟩
      rw [hrunEq] at hrun'
      cases hrun'
    · intro hacc
      obtain ⟨t', hmem, _⟩ := hnfaAcc.mp hacc
      rw [hempty] at hmem
      exact absurd hmem (Finset.not_mem_empty t')

theorem nfa_dfa_equivalence_witness :
    from_rules id 30 exC1Rules = BuildResult.built exC1Dfa ∧
    (dfaAccepts exC1Dfa [97] ↔ nfaAccepts exC1Nfa [97]) :=
  ⟨by decide,
   @nfa_dfa_equivalence 30 exC1Rules exC1Alphabet exC1Nfa exC1Dfa
     (by decide) (by decide) (by decide) (by decide) [97]⟩

/-- Counterexample to C2 as stated: with no terminal rules `construct_alphabet`
returns the single interval `[1, MAX_CODEPOINT]`, not `[0, MAX_CODEPOINT]`;
code point `0` is covered by no interval of the output. -/
theorem alphabet_partition_cex :
    construct_alphabet ([] : List Rule) = some [(1, MAX_CODEPOINT)] ∧
    ¬ ∃ x ∈ [((1 : Nat), MAX_CODEPOINT)], x.1 ≤ 0 ∧ 0 ≤ x.2 := by
  decide

/-- C2 (amended) — alphabet partition: the intervals `construct_alphabet`
returns are sorted by lower bound, well-formed within `[0, MAX_CODEPOINT]`,
and pairwise disjoint; every code point in `[1, MAX_CODEPOINT]` is covered;
either the rules reference no code point and the output is exactly
`[(1, MAX_CODEPOINT)]` (so `0` is uncovered), or the union is all of
`[0, MAX_CODEPOINT]`; and every referenced code point appears as its own
singleton interval. -/
theorem alphabet_partition {rules : List Rule} {al : List (Nat × Nat)}
    (h : construct_alphabet rules = some al) :
    al.Pairwise pairLt ∧
    (∀ x ∈ al, x.1 ≤ x.2 ∧ x.2 ≤ MAX_CODEPOINT) ∧
    (∀ x ∈ al, ∀ y ∈ al, x ≠ y → x.2 < y.1 ∨ y.2 < x.1) ∧
    (∀ c, 1 ≤ c → c ≤ MAX_CODEPOINT → ∃ x ∈ al, x.1 ≤ c ∧ c ≤ x.2) ∧
    (al = [(1, MAX_CODEPOINT)] ∨
      ∀ c, c ≤ MAX_CODEPOINT → ∃ x ∈ al, x.1 ≤ c ∧ c ≤ x.2) ∧
    (∀ rule ∈ rules, ∀ p : Char × Char, ElemPair rule.element p →
      (p.1.toNat, p.1.toNat) ∈ al ∧ (p.2.toNat, p.2.toNat) ∈ al) := by
  obtain ⟨hsorted, hwf, hdisj⟩ := construct_alphabet_spec h
  obtain ⟨raw, hraw, hloop⟩ := construct_alphabet_parts h
  have hptsorted := rangePoints_sorted raw
  have hne0 := alphaLoop_points_ne_zero hloop
  have hgt : ∀ p ∈ rangePoints raw, 0 < p := fun p hp => Nat.pos_of_ne_zero (hne0 p hp)
  have hmax : ∀ p ∈ rangePoints raw, p ≤ MAX_CODEPOINT := fun p hp => rangePoints_le_max hp
  have hmem := alphaLoop_mem hloop
  refine ⟨hsorted, hwf, hdisj, ?_, ?_, ?_⟩
  · intro c hc1 hcmax
    cases hpts : rangePoints raw with
    | nil =>
      rw [hpts] at hloop
      have hnil : alphaLoop 0 ([] : List Nat) [] = some [(1, MAX_CODEPOINT)] := by decide
      rw [hnil, Option.some_inj] at hloop
      exact ⟨(1, MAX_CODEPOINT), hloop ▸ List.mem_singleton_self _, hc1, hcmax⟩
    | cons q ps =>
      obtain ⟨x, hx, hxc⟩ := alphaMem_covers hgt hptsorted hmax c hcmax
        (Or.inr ⟨by rw [hpts]; exact List.cons_ne_nil _ _, Nat.zero_le c⟩)
      exact ⟨x, (hmem x).mpr (Or.inr hx), hxc⟩
  · cases hpts : rangePoints raw with
    | nil =>
      left
      rw [hpts] at hloop
      have hnil : alphaLoop 0 ([] : List Nat) [] = some [(1, MAX_CODEPOINT)] := by decide
      rw [hnil, Option.some_inj] at hloop
      exact hloop.symm
    | cons q ps =>
      right
      intro c hcmax
      obtain ⟨x, hx, hxc⟩ := alphaMem_covers hgt hptsorted hmax c hcmax
        (Or.inr ⟨by rw [hpts]; exact List.cons_ne_nil _ _, Nat.zero_le c⟩)
      exact ⟨x, (hmem x).mpr (Or.inr hx), hxc⟩
  · intro rule hr p hp
    exact construct_alphabet_singleton h hr hp

theorem alphabet_partition_witness :
    construct_alphabet ([] : List Rule) = some [(1, MAX_CODEPOINT)] ∧
    ([((1 : Nat), MAX_CODEPOINT)].Pairwise pairLt ∧
     (∀ x ∈ [((1 : Nat), MAX_CODEPOINT)], x.1 ≤ x.2 ∧ x.2 ≤ MAX_CODEPOINT) ∧
     (∀ x ∈ [((1 : Nat), MAX_CODEPOINT)], ∀ y ∈ [((1 : Nat), MAX_CODEPOINT)],
       x ≠ y → x.2 < y.1 ∨ y.2 < x.1) ∧
     (∀ c, 1 ≤ c → c ≤ MAX_CODEPOINT →
       ∃ x ∈ [((1 : Nat), MAX_CODEPOINT)], x.1 ≤ c ∧ c ≤ x.2) ∧
     ([((1 : Nat), MAX_CODEPOINT)] = [(1, MAX_CODEPOINT)] ∨
       ∀ c, c ≤ MAX_CODEPOINT →
         ∃ x ∈ [((1 : Nat), MAX_CODEPOINT)], x.1 ≤ c ∧ c ≤ x.2) ∧
     (∀ rule ∈ ([] : List Rule), ∀ p : Char × Char, ElemPair rule.element p →
       (p.1.toNat, p.1.toNat) ∈ [((1 : Nat), MAX_CODEPOINT)] ∧
       (p.2.toNat, p.2.toNat) ∈ [((1 : Nat), MAX_CODEPOINT)])) :=
  ⟨by decide, @alphabet_partition [] [(1, MAX_CODEPOINT)] (by decide)⟩

/-- C3 — DFA totality and determinism: for every non-trap DFA state `s` of a
DFA produced by `from_rules` and every interval `r` of the alphabet, the
connection list contains exactly one transition `(r, s, t)`; and any two
distinct transitions out of one state carry disjoint intervals. -/
theorem dfa_totality_determinism
    {fuel : Nat} {rules : List Rule} {alphabet : List (Nat × Nat)} {dfa : DFA}
    (hal : construct_alphabet (rules.filter (·.is_terminal)) = some alphabet)
    (hbuilt : from_rules id fuel rules = .built dfa)
    {s : Nat} (hs : s < dfa.states.length)
    (hnontrap : (DFA.get_states dfa).get? s ≠ some (some "_TRAP")) :
    (∀ r ∈ alphabet, (connsFor dfa.connections s r).length = 1) ∧
    (∀ c1 ∈ dfa.connections, ∀ c2 ∈ dfa.connections,
      c1.start = s → c2.start = s → c1 ≠ c2 →
      c1.range.2 < c2.range.1 ∨ c2.range.2 < c1.range.1) := by
  obtain ⟨al', nfa', ps, cs, sts, hal', hnfa', hpc, hbuild, hdfa⟩ := from_rules_anatomy hbuilt
  rw [hal'] at hal
  rw [Option.some_inj] at hal
  subst hal
  subst hdfa
  obtain ⟨hget0, hnodupPs, hlen1, hcount, hconnfacts⟩ := pc_top hpc
  obtain ⟨hsorted, hwf, hdisj⟩ := construct_alphabet_spec hal'
  have hnodupAl : al'.Nodup :=
    hsorted.imp (fun hab heq => absurd (heq ▸ hab) pairLt_irrefl)
  obtain ⟨hstslen, _⟩ := buildDfaStates_spec hbuild
  replace hs : s < sts.length := hs
  have hs' : s < ps.length := by rw [← hstslen]; exact hs
  have htotal : ∀ r ∈ al', (connsFor cs s r).length = 1 := by
    intro r hr
    rw [hcount s hs' r]
    exact count_one_of_nodup_mem hnodupAl hr
  refine ⟨htotal, ?_⟩
  intro c1 h1 c2 h2 hs1 hs2 hne
  replace h1 : c1 ∈ cs := h1
  replace h2 : c2 ∈ cs := h2
  have hr1 := (hconnfacts c1 h1).1
  have hr2 := (hconnfacts c2 h2).1
  by_cases hreq : c1.range = c2.range
  · exfalso
    have hm1 : c1 ∈ connsFor cs s c1.range := by
      simp [connsFor, List.mem_filter, h1, hs1]
    have hm2 : c2 ∈ connsFor cs s c1.range := by
      simp [connsFor, List.mem_filter, h2, hs2, hreq]
    obtain ⟨a, ha⟩ := List.length_eq_one.mp (htotal c1.range hr1)
    rw [ha, List.mem_singleton] at hm1 hm2
    exact hne (hm1.trans hm2.symm)
  · exact hdisj _ hr1 _ hr2 hreq

theorem dfa_totality_determinism_witness :
    from_rules id 30 exC1Rules = BuildResult.built exC1Dfa ∧
    (∀ r ∈ exC1Alphabet, (connsFor exC1Dfa.connections 0 r).length = 1) ∧
    (∀ c1 ∈ exC1Dfa.connections, ∀ c2 ∈ exC1Dfa.connections,
      c1.start = 0 → c2.start = 0 → c1 ≠ c2 →
      c1.range.2 < c2.range.1 ∨ c2.range.2 < c1.range.1) :=
  ⟨by decide,
   @dfa_totality_determinism 30 exC1Rules exC1Alphabet exC1Dfa
     (by decide) (by decide) 0 (by decide) (by decide)⟩

/-- The rule set of `token A = ([^])+;`: the empty negated set matches every
code point, so the empty NFA subset is never registered during the subset
construction. -/
def exC4Rules : List Rule :=
  [⟨true, false, "A", .group [.oneOrMore (.negatedSet [] [])], none, none⟩]

/-- The DFA `from_rules` produces for `exC4Rules`. -/
def exC4Dfa : DFA :=
  ⟨[⟨none⟩, ⟨some "A"⟩], [⟨(1, 1114111), 1, 1⟩, ⟨(1, 1114111), 0, 1⟩]⟩

/-- Counterexample to C4 as stated: `from_rules` succeeds on
`token A = ([^])+;`, yet no state of the resulting DFA carries
`Some("_TRAP")` — the trap state does not always exist. -/
theorem trap_uniqueness_cex :
    from_rules id 30 exC4Rules = BuildResult.built exC4Dfa ∧
    DFA.get_states exC4Dfa = [none, some "A"] ∧
    ¬ some "_TRAP" ∈ DFA.get_states exC4Dfa := by
  decide

/-- C4 (amended) — trap uniqueness: for every rule set on which `from_rules`
succeeds and which names no rule `_TRAP`, at most one state of `get_states()`
carries `Some("_TRAP")`, and a state carries it exactly when it was built
from the empty NFA subset; such a state need not exist. -/
theorem trap_uniqueness
    {fuel : Nat} {rules : List Rule} {dfa : DFA}
    (hbuilt : from_rules id fuel rules = .built dfa)
    (hnames : ∀ rule ∈ rules, rule.name ≠ "_TRAP") :
    (∀ i j, (DFA.get_states dfa).get? i = some (some "_TRAP") →
      (DFA.get_states dfa).get? j = some (some "_TRAP") → i = j) ∧
    ∃ alphabet nfa ps cs,
      construct_alphabet (rules.filter (·.is_terminal)) = some alphabet ∧
      construct_nfa id (rules.filter (·.is_terminal)) alphabet = some nfa ∧
      pcAux nfa alphabet fuel 0 alphabet
        [epsilon_closure nfa.connections {nfa.entry}] [] = some (ps, cs) ∧
      ∀ i, (DFA.get_states dfa).get? i = some (some "_TRAP") ↔ ps.get? i = some ∅ := by
  obtain ⟨al', nfa', ps, cs, sts, hal', hnfa', hpc, hbuild, hdfa⟩ := from_rules_anatomy hbuilt
  subst hdfa
  obtain ⟨hget0, hnodupPs, hlen1, hcount, hconnfacts⟩ := pc_top hpc
  obtain ⟨hstslen, hstget⟩ := buildDfaStates_spec hbuild
  have hid : ∀ l : List (Nat × Nat), List.Perm (id l) l := fun l => List.Perm.refl l
  have hwf := construct_nfa_wf hid (rules_elemOk hal') hnfa'
  have hchar : ∀ i, (DFA.get_states ⟨sts, cs⟩).get? i = some (some "_TRAP") ↔
      ps.get? i = some ∅ := by
    intro i
    constructor
    · intro h
      replace h : (sts.map (·.accepting)).get? i = some (some "_TRAP") := h
      rw [List.get?_map] at h
      obtain ⟨st, hst, hacc⟩ := Option.map_eq_some'.mp h
      have hilt : i < sts.length := by
        rcases List.get?_eq_some.mp hst with ⟨hh, _⟩
        exact hh
      have hilt' : i < ps.length := by rw [← hstslen]; exact hilt
      obtain ⟨S, hS⟩ : ∃ S, ps.get? i = some S := by
        rw [List.get?_eq_get hilt']
        exact ⟨_, rfl⟩
      obtain ⟨st', hst', hbs⟩ := hstget i S hS
      rw [hst, Option.some_inj] at hst'
      subst hst'
      rcases buildState_ok_spec hbs with ⟨hSe, _⟩ | ⟨hSne, accs, haccs, _, hhead⟩
      · rw [hS, hSe]
      · exfalso
        rw [hacc] at hhead
        have hmemaccs : "_TRAP" ∈ accs := by
          cases accs with
          | nil => cases hhead
          | cons a tail =>
            rw [Option.some_inj.mp hhead.symm]
            exact List.mem_cons_self _ _
        obtain ⟨k, hkS, stk, hstk, hstkacc⟩ := (mem_acceptionsOf haccs).mp hmemaccs
        rcases hwf.labels stk (List.get?_mem hstk) with hnone | ⟨rule, hrule, heq⟩
        · rw [hnone] at hstkacc; cases hstkacc
        · rw [heq, Option.some_inj] at hstkacc
          exact hnames rule (List.mem_of_mem_filter hrule) hstkacc
    · intro hS
      obtain ⟨st, hst, hbs⟩ := hstget i ∅ hS
      rcases buildState_ok_spec hbs with ⟨_, hstv⟩ | ⟨hSne, _⟩
      · show (sts.map (·.accepting)).get? i = some (some "_TRAP")
        rw [List.get?_map, hst, hstv]
        rfl
      · exact absurd rfl hSne
  refine ⟨?_, al', nfa', ps, cs, hal', hnfa', hpc, hchar⟩
  intro i j hi hj
  have hi' := (hchar i).mp hi
  have hj' := (hchar j).mp hj
  have hilt : i < ps.length := by
    rcases List.get?_eq_some.mp hi' with ⟨hh, _⟩
    exact hh
  exact List.get?_inj hilt hnodupPs (hi'.trans hj'.symm)

theorem trap_uniqueness_witness :
    from_rules id 30 exC1Rules = BuildResult.built exC1Dfa ∧
    ((∀ i j, (DFA.get_states exC1Dfa).get? i = some (some "_TRAP") →
      (DFA.get_states exC1Dfa).get? j = some (some "_TRAP") → i = j) ∧
    ∃ alphabet nfa ps cs,
      construct_alphabet (exC1Rules.filter (·.is_terminal)) = some alphabet ∧
      construct_nfa id (exC1Rules.filter (·.is_terminal)) alphabet = some nfa ∧
      pcAux nfa alphabet 30 0 alphabet
        [epsilon_closure nfa.connections {nfa.entry}] [] = some (ps, cs) ∧
      ∀ i, (DFA.get_states exC1Dfa).get? i = some (some "_TRAP") ↔ ps.get? i = some ∅) :=
  ⟨by decide, @trap_uniqueness 30 exC1Rules exC1Dfa (by decide) (by decide)⟩

/-- The rule set of `token A = "ab"; token B = "ab";`. -/
def exC5Rules : List Rule :=
  [⟨true, false, "A", .group [.literal ['a', 'b']], none, none⟩,
   ⟨true, false, "B", .group [.literal ['a', 'b']], none, none⟩]

/-- Counterexample to C5 as stated: the error message of the ambiguity error
is `Accepting state must accept exactly one rule` with a capital `A`, not the
claimed all-lowercase `accepting state must accept exactly one rule`. -/
theorem ambiguity_error_cex :
    from_rules id 60 exC5Rules =
      BuildResult.error "Accepting state must accept exactly one rule" ∧
    "Accepting state must accept exactly one rule" ≠
      "accepting state must accept exactly one rule" := by
  constructor
  · decide
  · decide

/-- Decomposition of a `from_rules` run that ends in an error into its
pipeline stages. -/
theorem from_rules_error_anatomy {reorder : List (Nat × Nat) → List (Nat × Nat)}
    {fuel : Nat} {rules : List Rule} {m : String}
    (h : from_rules reorder fuel rules = .error m) :
    ∃ alphabet nfa ps cs,
      construct_alphabet (rules.filter (·.is_terminal)) = some alphabet ∧
      construct_nfa reorder (rules.filter (·.is_terminal)) alphabet = some nfa ∧
      pcAux nfa alphabet fuel 0 alphabet
        [epsilon_closure nfa.connections {nfa.entry}] [] = some (ps, cs) ∧
      buildDfaStates nfa ps = some (.error m) := by
  cases hal : construct_alphabet (rules.filter (·.is_terminal)) with
  | none => simp [from_rules, hal] at h
  | some alphabet =>
    cases hnfa : construct_nfa reorder (rules.filter (·.is_terminal)) alphabet with
    | none => simp [from_rules, hal, hnfa] at h
    | some nfa =>
      cases hpc : pcAux nfa alphabet fuel 0 alphabet
          [epsilon_closure nfa.connections {nfa.entry}] [] with
      | none => simp [from_rules, hal, hnfa, hpc] at h
      | some res =>
        obtain ⟨ps, cs⟩ := res
        cases hbuild : buildDfaStates nfa ps with
        | none => simp [from_rules, hal, hnfa, hpc, hbuild] at h
        | some exc =>
          cases exc with
          | ok sts => simp [from_rules, hal, hnfa, hpc, hbuild] at h
          | error m2 =>
            have : m2 = m := by
              have hred : from_rules reorder fuel rules = .error m2 := by
                simp [from_rules, hal, hnfa, hpc, hbuild]
              rw [hred] at h
              exact BuildResult.error.inj h
            subst this
            exact ⟨alphabet, nfa, ps, cs, rfl, hnfa, hpc, hbuild⟩

/-- C5 (amended) — the ambiguity error: every error `from_rules` returns
carries the message `Accepting state must accept exactly one rule` (capital
`A`), and given the pipeline stages of the run, the run fails with an error
exactly when some registered non-empty subset contains two or more accepting
NFA states. -/
theorem ambiguity_error {fuel : Nat} {rules : List Rule} :
    (∀ m, from_rules id fuel rules = .error m →
      m = "Accepting state must accept exactly one rule") ∧
    (∀ alphabet nfa ps cs,
      construct_alphabet (rules.filter (·.is_terminal)) = some alphabet →
      construct_nfa id (rules.filter (·.is_terminal)) alphabet = some nfa →
      pcAux nfa alphabet fuel 0 alphabet
        [epsilon_closure nfa.connections {nfa.entry}] [] = some (ps, cs) →
      ((∃ m, from_rules id fuel rules = .error m) ↔
        ∃ S ∈ ps, S ≠ ∅ ∧ ∃ i ∈ S, ∃ j ∈ S, i ≠ j ∧
          (∃ sti, nfa.states.get? i = some sti ∧ sti.accepting ≠ none) ∧
          (∃ stj, nfa.states.get? j = some stj ∧ stj.accepting ≠ none))) := by
  refine ⟨?_, ?_⟩
  · intro m hm
    obtain ⟨alphabet, nfa, ps, cs, _, _, _, hbd⟩ := from_rules_error_anatomy hm
    obtain ⟨S, hS, hbs⟩ := buildDfaStates_error_mem hbd
    obtain ⟨_, _, _, _, hmsg⟩ := buildState_error_spec.mp hbs
    exact hmsg
  intro alphabet nfa ps cs hal hnfa hpc
  have hid : ∀ l : List (Nat × Nat), List.Perm (id l) l := fun l => List.Perm.refl l
  have hwf := construct_nfa_wf hid (rules_elemOk hal) hnfa
  have hb0 : ∀ S ∈ [epsilon_closure nfa.connections {nfa.entry}],
      ∀ x ∈ S, x < nfa.states.length := by
    intro S hS x hx
    rw [List.mem_singleton] at hS
    subst hS
    refine mem_epsilon_closure_lt hwf.conns_bounded ?_ hx
    intro y hy
    rw [Finset.mem_singleton] at hy
    subst hy
    rw [hwf.entry_eq]
    exact hwf.states_pos
  have hball := pcAux_bounded hwf.conns_bounded hpc hb0
  have hnp : ∀ S ∈ ps, buildState nfa S ≠ none :=
    fun S hS => buildState_isSome (hball S hS)
  have hkey : from_rules id fuel rules =
      (match buildDfaStates nfa ps with
        | none => BuildResult.panicked
        | some (.error msg) => BuildResult.error msg
        | some (.ok sts) => BuildResult.built ⟨sts, cs⟩) := by
    simp only [from_rules, hal, hnfa, hpc]
  -- conversion between a buildState error on S and the two-accepting-members view
  have hconv : ∀ S ∈ ps, ((∃ m, buildState nfa S = some (.error m)) ↔
      (S ≠ ∅ ∧ ∃ i ∈ S, ∃ j ∈ S, i ≠ j ∧
        (∃ sti, nfa.states.get? i = some sti ∧ sti.accepting ≠ none) ∧
        (∃ stj, nfa.states.get? j = some stj ∧ stj.accepting ≠ none))) := by
    intro S hS
    constructor
    · rintro ⟨m, hm⟩
      obtain ⟨hSne, accs, haccs, h2, _⟩ := buildState_error_spec.mp hm
      rw [acceptionsOf_spec haccs] at h2
      obtain ⟨i, hi, j, hj, hij, hsi, hsj⟩ := filterMap_two_mem (finsetAsc_nodup S) h2
      refine ⟨hSne, i, mem_finsetAsc.mp hi, j, mem_finsetAsc.mp hj, hij, ?_, ?_⟩
      · obtain ⟨a, ha⟩ := Option.isSome_iff_exists.mp hsi
        obtain ⟨sti, hsti, hacc⟩ := Option.bind_eq_some.mp ha
        exact ⟨sti, hsti, by rw [hacc]; exact Option.some_ne_none a⟩
      · obtain ⟨a, ha⟩ := Option.isSome_iff_exists.mp hsj
        obtain ⟨stj, hstj, hacc⟩ := Option.bind_eq_some.mp ha
        exact ⟨stj, hstj, by rw [hacc]; exact Option.some_ne_none a⟩
    · rintro ⟨hSne, i, hi, j, hj, hij, ⟨sti, hsti, hacci⟩, ⟨stj, hstj, haccj⟩⟩
      obtain ⟨accs, haccs⟩ := acceptionsOf_isSome (hball S hS)
      replace haccs : acceptionsOf nfa S = some accs := haccs
      have hsi : ((nfa.states.get? i).bind (·.accepting)).isSome := by
        rw [hsti, Option.some_bind]
        exact Option.ne_none_iff_isSome.mp hacci
      have hsj : ((nfa.states.get? j).bind (·.accepting)).isSome := by
        rw [hstj, Option.some_bind]
        exact Option.ne_none_iff_isSome.mp haccj
      have h2 : 2 ≤ accs.length := by
        rw [acceptionsOf_spec haccs]
        exact two_le_filterMap_length (finsetAsc_nodup S) (mem_finsetAsc.mpr hi)
          (mem_finsetAsc.mpr hj) hij hsi hsj
      exact ⟨"Accepting state must accept exactly one rule",
        buildState_error_spec.mpr ⟨hSne, accs, haccs, h2, rfl⟩⟩
  constructor
  · rintro ⟨m, hm⟩
    obtain ⟨al2, nfa2, ps2, cs2, hal2, hnfa2, hpc2, hbd⟩ := from_rules_error_anatomy hm
    rw [hal] at hal2
    rw [Option.some_inj] at hal2
    subst hal2
    rw [hnfa] at hnfa2
    rw [Option.some_inj] at hnfa2
    subst hnfa2
    rw [hpc] at hpc2
    rw [Option.some_inj, Prod.mk.injEq] at hpc2
    obtain ⟨hps2, _⟩ := hpc2
    subst hps2
    obtain ⟨S, hS, hbs⟩ := buildDfaStates_error_mem hbd
    exact ⟨S, hS, (hconv S hS).mp ⟨m, hbs⟩⟩
  · rintro ⟨S, hS, hrest⟩
    obtain ⟨m, hbs⟩ := (hconv S hS).mpr hrest
    obtain ⟨m', hbd⟩ := (buildDfaStates_error_iff hnp).mpr ⟨S, hS, m, hbs⟩
    refine ⟨m', ?_⟩
    rw [hkey, hbd]

theorem ambiguity_error_witness :
    (∀ m, from_rules id 60 exC5Rules = .error m →
      m = "Accepting state must accept exactly one rule") ∧
    (∀ alphabet nfa ps cs,
      construct_alphabet (exC5Rules.filter (·.is_terminal)) = some alphabet →
      construct_nfa id (exC5Rules.filter (·.is_terminal)) alphabet = some nfa →
      pcAux nfa alphabet 60 0 alphabet
        [epsilon_closure nfa.connections {nfa.entry}] [] = some (ps, cs) →
      ((∃ m, from_rules id 60 exC5Rules = .error m) ↔
        ∃ S ∈ ps, S ≠ ∅ ∧ ∃ i ∈ S, ∃ j ∈ S, i ≠ j ∧
          (∃ sti, nfa.states.get? i = some sti ∧ sti.accepting ≠ none) ∧
          (∃ stj, nfa.states.get? j = some stj ∧ stj.accepting ≠ none))) :=
  @ambiguity_error 60 exC5Rules

theorem moveSet_empty {conns : List EpsilonConnection} {r : Nat × Nat} :
    moveSet conns (∅ : Finset Nat) r = ∅ := by
  ext x
  simp only [Finset.not_mem_empty, iff_false]
  intro hx
  obtain ⟨a, _, ha⟩ := mem_moveSet.mp hx
  exact absurd ha (Finset.not_mem_empty a)

/-- C10 — trap self-loops: whenever the empty subset is registered during the
subset construction, the resulting state has exactly one outgoing transition
per alphabet interval, every transition out of it loops back onto it, and a
simulation step from it on any covered code point (in particular on any
non-NUL code point) stays in it. -/
theorem trap_self_loop {fuel : Nat} {rules : List Rule} {dfa : DFA}
    (hbuilt : from_rules id fuel rules = .built dfa) :
    ∀ alphabet nfa ps cs,
      construct_alphabet (rules.filter (·.is_terminal)) = some alphabet →
      construct_nfa id (rules.filter (·.is_terminal)) alphabet = some nfa →
      pcAux nfa alphabet fuel 0 alphabet
        [epsilon_closure nfa.connections {nfa.entry}] [] = some (ps, cs) →
      ∀ i, ps.get? i = some ∅ →
      (∀ r ∈ alphabet, (connsFor dfa.connections i r).length = 1) ∧
      (∀ c ∈ dfa.connections, c.start = i → c.tgt = i) ∧
      (∀ ch, (∃ r ∈ alphabet, inRange ch r) → dfaStep dfa i ch = some i) ∧
      (∀ ch, 1 ≤ ch → ch ≤ MAX_CODEPOINT → dfaStep dfa i ch = some i) := by
  obtain ⟨al', nfa', ps', cs', sts, hal', hnfa', hpc', hbuild, hdfa⟩ := from_rules_anatomy hbuilt
  subst hdfa
  intro alphabet nfa ps cs hal hnfa hpc i hi
  rw [hal'] at hal
  rw [Option.some_inj] at hal
  subst hal
  rw [hnfa'] at hnfa
  rw [Option.some_inj] at hnfa
  subst hnfa
  rw [hpc'] at hpc
  rw [Option.some_inj, Prod.mk.injEq] at hpc
  obtain ⟨hps, hcs⟩ := hpc
  subst hps
  subst hcs
  obtain ⟨hget0, hnodupPs, hlen1, hcount, hconnfacts⟩ := pc_top hpc'
  obtain ⟨hsorted, hwf, hdisj⟩ := construct_alphabet_spec hal'
  have hnodupAl : al'.Nodup :=
    hsorted.imp (fun hab heq => absurd (heq ▸ hab) pairLt_irrefl)
  have hid : ∀ l : List (Nat × Nat), List.Perm (id l) l := fun l => List.Perm.refl l
  have hwfN := construct_nfa_wf hid (rules_elemOk hal') hnfa'
  have hilt : i < ps'.length := by
    rcases List.get?_eq_some.mp hi with ⟨hh, _⟩
    exact hh
  have hloop : ∀ c ∈ cs', c.start = i → c.tgt = i := by
    intro c hc hstart
    obtain ⟨hrmem, htlt, Si, hSi, hStgt⟩ := hconnfacts c hc
    rw [hstart, hi, Option.some_inj] at hSi
    subst hSi
    have htrans : transSet nfa'.connections ∅ c.range = ∅ := by
      unfold transSet
      rw [moveSet_empty, epsilon_closure_empty]
    rw [htrans] at hStgt
    exact List.get?_inj htlt hnodupPs (hStgt.trans hi.symm)
  have hstep : ∀ ch, (∃ r ∈ al', inRange ch r) → dfaStep ⟨sts, cs'⟩ i ch = some i := by
    intro ch hcov
    obtain ⟨hstepc, _⟩ := @dfaStep_spec _ _ _ _ sts hnodupAl hcount hconnfacts hdisj
      hwfN.conns_rangeOk _ _ hilt hi ch
    obtain ⟨t, ht, htlt, htget⟩ := hstepc hcov
    rw [charMove_empty_set, epsilon_closure_empty] at htget
    have hti : t = i := List.get?_inj htlt hnodupPs (htget.trans hi.symm)
    rw [ht, hti]
  refine ⟨?_, hloop, hstep, ?_⟩
  · intro r hr
    rw [hcount i hilt r]
    exact count_one_of_nodup_mem hnodupAl hr
  · intro ch h1 h2
    obtain ⟨raw, hraw, hloopAl⟩ := construct_alphabet_parts hal'
    have hptsorted := rangePoints_sorted raw
    have hne0 := alphaLoop_points_ne_zero hloopAl
    have hgt : ∀ p ∈ rangePoints raw, 0 < p := fun p hp => Nat.pos_of_ne_zero (hne0 p hp)
    have hmaxp : ∀ p ∈ rangePoints raw, p ≤ MAX_CODEPOINT := fun p hp => rangePoints_le_max hp
    have hmem := alphaLoop_mem hloopAl
    cases hpts : rangePoints raw with
    | nil =>
      rw [hpts] at hloopAl
      have hnil : alphaLoop 0 ([] : List Nat) [] = some [(1, MAX_CODEPOINT)] := by decide
      rw [hnil, Option.some_inj] at hloopAl
      refine hstep ch ⟨(1, MAX_CODEPOINT), ?_, h1, h2⟩
      rw [← hloopAl]
      exact List.mem_singleton_self _
    | cons q ps0 =>
      obtain ⟨x, hx, hxc⟩ := alphaMem_covers hgt hptsorted hmaxp ch h2
        (Or.inr ⟨by rw [hpts]; exact List.cons_ne_nil _ _, Nat.zero_le ch⟩)
      exact hstep ch ⟨x, (hmem x).mpr (Or.inr hx), hxc⟩

theorem trap_self_loop_witness :
    from_rules id 30 exC1Rules = BuildResult.built exC1Dfa ∧
    (∀ alphabet nfa ps cs,
      construct_alphabet (exC1Rules.filter (·.is_terminal)) = some alphabet →
      construct_nfa id (exC1Rules.filter (·.is_terminal)) alphabet = some nfa →
      pcAux nfa alphabet 30 0 alphabet
        [epsilon_closure nfa.connections {nfa.entry}] [] = some (ps, cs) →
      ∀ i, ps.get? i = some ∅ →
      (∀ r ∈ alphabet, (connsFor exC1Dfa.connections i r).length = 1) ∧
      (∀ c ∈ exC1Dfa.connections, c.start = i → c.tgt = i) ∧
      (∀ ch, (∃ r ∈ alphabet, inRange ch r) → dfaStep exC1Dfa i ch = some i) ∧
      (∀ ch, 1 ≤ ch → ch ≤ MAX_CODEPOINT → dfaStep exC1Dfa i ch = some i)) :=
  ⟨by decide, @trap_self_loop 30 exC1Rules exC1Dfa (by decide)⟩

/-- In a strictly `pairLt`-sorted list, an element below every other element
is the head. -/
theorem sorted_head_eq {l : List (Nat × Nat)} {x : Nat × Nat}
    (hs : l.Pairwise pairLt) (hx : x ∈ l) (hmin : ∀ y ∈ l, y = x ∨ pairLt x y) :
    ∃ t, l = x :: t ∧ t.Pairwise pairLt ∧ x ∉ t := by
  cases l with
  | nil => cases hx
  | cons a t =>
    have hax : a = x := by
      rcases hmin a (List.mem_cons_self _ _) with h | h
      · exact h
      · rcases List.mem_cons.mp hx with rfl | hxt
        · exact absurd h pairLt_irrefl
        · have := (List.pairwise_cons.mp hs).1 x hxt
          exact absurd (pairLt_trans this h) pairLt_irrefl
    subst hax
    refine ⟨t, rfl, (List.pairwise_cons.mp hs).2, ?_⟩
    intro hmem
    exact absurd ((List.pairwise_cons.mp hs).1 a hmem) pairLt_irrefl

/-- The rule set of `token B = "b";`, whose single break point is `98`. -/
def exC6Rules : List Rule := [⟨true, false, "B", .group [.literal ['b']], none, none⟩]

/-- Counterexample to C6 as stated: for `token B = "b";` the smallest break
point is `p = 98`, yet the alphabet does not begin with the gap `[0, 97]` —
it begins with the singleton `(0, 0)` followed by the gap `(1, 97)`. -/
theorem alphabet_prefix_order_cex :
    construct_alphabet exC6Rules = some [(0, 0), (1, 97), (98, 98), (99, 1114111)] ∧
    [((0 : Nat), (0 : Nat)), (1, 97), (98, 98), (99, 1114111)].head? ≠ some (0, 97) := by
  constructor
  · decide
  · decide

/-- C6 (amended) — prefix emission order: for a non-empty break-point list
with smallest element `p`, the loop treats `prev` as `0` (not `0-1`), so the
alphabet begins with the singleton `(0, 0)`, then the gap `(1, p-1)` when
`2 ≤ p`, then the singleton `(p, p)` — not with a single gap `[0, p-1]`. -/
theorem alphabet_prefix_order {rules : List Rule} {al : List (Nat × Nat)}
    {raw : List (Char × Char)} {p : Nat} {ps : List Nat}
    (hraw : rules.foldlM (fun acc r => get_ranges_from_element r.element acc) [] = some raw)
    (hpts : rangePoints raw = p :: ps)
    (hal : construct_alphabet rules = some al) :
    1 ≤ p ∧
    (p = 1 → al.take 2 = [(0, 0), (1, 1)]) ∧
    (2 ≤ p → al.take 3 = [(0, 0), (1, p - 1), (p, p)]) := by
  obtain ⟨raw', hraw', hloop⟩ := construct_alphabet_parts hal
  rw [hraw] at hraw'
  rw [Option.some_inj] at hraw'
  subst hraw'
  rw [hpts] at hloop
  have hsortedPts : (p :: ps).Pairwise (· < ·) := hpts ▸ rangePoints_sorted raw
  have hgt : ∀ q ∈ ps, p < q := fun q hq => (List.pairwise_cons.mp hsortedPts).1 q hq
  have hsorted' : ps.Pairwise (· < ·) := (List.pairwise_cons.mp hsortedPts).2
  have hne0 := alphaLoop_points_ne_zero hloop
  have hp1 : 1 ≤ p := Nat.pos_of_ne_zero (hne0 p (List.mem_cons_self _ _))
  have hmem := alphaLoop_mem hloop
  have hmem' : ∀ x, x ∈ al ↔ AlphaMem 0 (p :: ps) x := by
    intro x
    rw [hmem x]
    simp
  have hsortedAl := alphaLoop_sorted hloop (by simp)
  have hLow : ∀ y, AlphaMem p ps y → y = (p, p) ∨ p + 1 ≤ y.1 :=
    alphaMem_low_bound hgt hsorted'
  refine ⟨hp1, ?_, ?_⟩
  · intro hp
    subst hp
    have h00 : (0, 0) ∈ al := (hmem' _).mpr (Or.inl rfl)
    have hmin0 : ∀ y ∈ al, y = (0, 0) ∨ pairLt (0, 0) y := by
      intro y hy
      rcases (hmem' y).mp hy with rfl | ⟨hgap, rfl⟩ | rfl | hrest
      · exact Or.inl rfl
      · exact absurd hgap (by omega)
      · exact Or.inr (Or.inl (by omega))
      · rcases hLow y hrest with rfl | hlo
        · exact Or.inr (Or.inl (by omega))
        · exact Or.inr (Or.inl (by omega))
    obtain ⟨t, hteq, htsorted, htnot⟩ := sorted_head_eq hsortedAl h00 hmin0
    have h11 : (1, 1) ∈ t := by
      have : ((1 : Nat), (1 : Nat)) ∈ al := (hmem' _).mpr (Or.inr (Or.inr (Or.inl rfl)))
      rw [hteq] at this
      rcases List.mem_cons.mp this with heq | hmem2
      · exact absurd (congrArg Prod.fst heq) (by omega)
      · exact hmem2
    have hmin1 : ∀ y ∈ t, y = (1, 1) ∨ pairLt (1, 1) y := by
      intro y hy
      have hyal : y ∈ al := by rw [hteq]; exact List.mem_cons_of_mem _ hy
      have hyne : y ≠ (0, 0) := fun heq => htnot (heq ▸ hy)
      rcases (hmem' y).mp hyal with rfl | ⟨hgap, rfl⟩ | rfl | hrest
      · exact absurd rfl hyne
      · exact absurd hgap (by omega)
      · exact Or.inl rfl
      · rcases hLow y hrest with rfl | hlo
        · exact Or.inl rfl
        · exact Or.inr (Or.inl (by omega))
    obtain ⟨t2, ht2eq, _, _⟩ := sorted_head_eq htsorted h11 hmin1
    rw [hteq, ht2eq]
    rfl
  · intro hp
    have h00 : (0, 0) ∈ al := (hmem' _).mpr (Or.inl rfl)
    have hmin0 : ∀ y ∈ al, y = (0, 0) ∨ pairLt (0, 0) y := by
      intro y hy
      rcases (hmem' y).mp hy with rfl | ⟨hgap, rfl⟩ | rfl | hrest
      · exact Or.inl rfl
      · exact Or.inr (Or.inl (by omega))
      · exact Or.inr (Or.inl (by omega))
      · rcases hLow y hrest with rfl | hlo
        · exact Or.inr (Or.inl (by omega))
        · exact Or.inr (Or.inl (by omega))
    obtain ⟨t, hteq, htsorted, htnot⟩ := sorted_head_eq hsortedAl h00 hmin0
    have hg : (1, p - 1) ∈ t := by
      have : ((1 : Nat), p - 1) ∈ al := (hmem' _).mpr (Or.inr (Or.inl ⟨by omega, rfl⟩))
      rw [hteq] at this
      rcases List.mem_cons.mp this with heq | hmem2
      · exact absurd (congrArg Prod.fst heq) (by omega)
      · exact hmem2
    have hmin1 : ∀ y ∈ t, y = (1, p - 1) ∨ pairLt (1, p - 1) y := by
      intro y hy
      have hyal : y ∈ al := by rw [hteq]; exact List.mem_cons_of_mem _ hy
      have hyne : y ≠ (0, 0) := fun heq => htnot (heq ▸ hy)
      rcases (hmem' y).mp hyal with rfl | ⟨hgap, rfl⟩ | rfl | hrest
      · exact absurd rfl hyne
      · exact Or.inl rfl
      · exact Or.inr (Or.inl (by omega))
      · rcases hLow y hrest with rfl | hlo
        · exact Or.inr (Or.inl (by omega))
        · exact Or.inr (Or.inl (by omega))
    obtain ⟨t2, ht2eq, ht2sorted, ht2not⟩ := sorted_head_eq htsorted hg hmin1
    have hpp : (p, p) ∈ t2 := by
      have hin : ((p : Nat), p) ∈ al := (hmem' _).mpr (Or.inr (Or.inr (Or.inl rfl)))
      rw [hteq, ht2eq] at hin
      rcases List.mem_cons.mp hin with heq | hin2
      · exact absurd (congrArg Prod.fst heq) (by omega)
      · rcases List.mem_cons.mp hin2 with heq | hin3
        · exact absurd (congrArg Prod.fst heq) (by omega)
        · exact hin3
    have hmin2 : ∀ y ∈ t2, y = (p, p) ∨ pairLt (p, p) y := by
      intro y hy
      have hyal : y ∈ al := by
        rw [hteq, ht2eq]
        exact List.mem_cons_of_mem _ (List.mem_cons_of_mem _ hy)
      have hyne : y ≠ (0, 0) := fun heq => htnot (heq ▸ (by
        rw [ht2eq]; exact List.mem_cons_of_mem _ hy))
      have hyne2 : y ≠ (1, p - 1) := fun heq => ht2not (heq ▸ hy)
      rcases (hmem' y).mp hyal with rfl | ⟨hgap, rfl⟩ | rfl | hrest
      · exact absurd rfl hyne
      · exact absurd rfl hyne2
      · exact Or.inl rfl
      · rcases hLow y hrest with rfl | hlo
        · exact Or.inl rfl
        · exact Or.inr (Or.inl (by omega))
    obtain ⟨t3, ht3eq, _, _⟩ := sorted_head_eq ht2sorted hpp hmin2
    rw [hteq, ht2eq, ht3eq]
    rfl

/-- Counterexample to C7 as stated: the parser accepts `token A = [z-a];`
(a reversed set range), and `from_rules` panics on the parsed rules — the
`Set` arm's alphabet slice starts after it ends. -/
theorem from_rules_no_panic_cex :
    (parse_file_src 100 "token A = [z-a];".toList).isSome = true ∧
    (parse_file_src 100 "token A = [z-a];".toList).map
      (fun rs => rs.map (fun r => r.name)) = some ["A"] ∧
    (parse_file_src 100 "token A = [z-a];".toList).map
      (fun rs => from_rules id 30 rs) = some BuildResult.panicked := by
  refine ⟨?_, ?_, ?_⟩
  · decide
  · decide
  · decide

theorem from_rules_no_panic_witness :
    (∀ rule ∈ exC1Rules, rule.is_terminal = true →
      elemTotalB rule.element = true ∧
      elemPairsAllB prNZ rule.element = true ∧
      elemPairsAllB prOk rule.element = true) ∧
    from_rules id 30 exC1Rules ≠ BuildResult.panicked :=
  ⟨by decide, @from_rules_no_panic 30 exC1Rules (by decide)⟩

/-- `token A = [ab];` as parsed rules: a terminal whose element is a
two-character set, so the unordered transition-emission loop is actually
exercised. -/
def exC8Rules : List Rule :=
  [⟨true, false, "A", .group [.set ['a', 'b'] []], none, none⟩]

/-- The DFA `from_rules` produces for `exC8Rules`, under any admissible
emission order. -/
def exC8Dfa : DFA :=
  ⟨[⟨none⟩, ⟨some "_TRAP"⟩, ⟨some "A"⟩],
   [⟨(0, 0), 1, 1⟩, ⟨(1, 96), 1, 1⟩, ⟨(97, 97), 1, 1⟩, ⟨(98, 98), 1, 1⟩,
    ⟨(99, 1114111), 1, 1⟩, ⟨(0, 0), 0, 1⟩, ⟨(1, 96), 0, 1⟩, ⟨(0, 0), 2, 1⟩,
    ⟨(1, 96), 2, 1⟩, ⟨(97, 97), 2, 1⟩, ⟨(98, 98), 2, 1⟩, ⟨(99, 1114111), 2, 1⟩,
    ⟨(97, 97), 0, 2⟩, ⟨(98, 98), 0, 2⟩, ⟨(99, 1114111), 0, 1⟩]⟩

/-- C8 — deterministic output: `from_rules` is a deterministic function of
the rule list.  The only nondeterminism in the pipeline is the `HashSet`
iteration order of the `Set`/`NegatedSet` emission loop, modelled by the
`reorder` parameter; any two successful runs under admissible orders (orders
that emit every computed transition exactly once) return DFAs with identical
`get_states()` and identical `get_connections(s)` for every state `s`. -/
theorem from_rules_deterministic
    {reorder1 reorder2 : List (Nat × Nat) → List (Nat × Nat)}
    {fuel : Nat} {rules : List Rule} {dfa1 dfa2 : DFA}
    (hp1 : ∀ l, List.Perm (reorder1 l) l) (hp2 : ∀ l, List.Perm (reorder2 l) l)
    (h1 : from_rules reorder1 fuel rules = BuildResult.built dfa1)
    (h2 : from_rules reorder2 fuel rules = BuildResult.built dfa2) :
    DFA.get_states dfa1 = DFA.get_states dfa2 ∧
    ∀ s, DFA.get_connections dfa1 s = DFA.get_connections dfa2 s := by
  obtain ⟨al1, nfa1, ps1, cs1, sts1, hal1, hnfa1, hpc1, hbd1, hdfa1⟩ := from_rules_anatomy h1
  obtain ⟨al2, nfa2, ps2, cs2, sts2, hal2, hnfa2, hpc2, hbd2, hdfa2⟩ := from_rules_anatomy h2
  rw [hal1] at hal2
  replace hal2 : al1 = al2 := Option.some_inj.mp hal2
  subst hal2
  have hrel : NfaRel nfa1 nfa2 := construct_nfa_rel hp1 hp2 _ hnfa1 hnfa2
  have hclo : epsilon_closure nfa1.connections {nfa1.entry}
      = epsilon_closure nfa2.connections {nfa2.entry} := by
    rw [hrel.entry, epsilon_closure_perm hrel.conns]
  rw [hclo, pcAux_rel hrel] at hpc1
  rw [hpc1] at hpc2
  have hps : ps1 = ps2 := congrArg Prod.fst (Option.some_inj.mp hpc2)
  have hcs : cs1 = cs2 := congrArg Prod.snd (Option.some_inj.mp hpc2)
  subst hps
  subst hcs
  rw [buildDfaStates_rel hrel.states] at hbd1
  rw [hbd1] at hbd2
  have hsts : sts1 = sts2 := Except.ok.inj (Option.some_inj.mp hbd2)
  subst hsts
  subst hdfa1
  subst hdfa2
  exact ⟨rfl, fun _ => rfl⟩

theorem from_rules_deterministic_witness :
    (∀ l : List (Nat × Nat), List.Perm (id l) l) ∧
    (∀ l : List (Nat × Nat), List.Perm l.reverse l) ∧
    from_rules id 30 exC8Rules = BuildResult.built exC8Dfa ∧
    from_rules List.reverse 30 exC8Rules = BuildResult.built exC8Dfa ∧
    (DFA.get_states exC8Dfa = DFA.get_states exC8Dfa ∧
      ∀ s, DFA.get_connections exC8Dfa s = DFA.get_connections exC8Dfa s) :=
  ⟨fun l => List.Perm.refl l, fun l => List.reverse_perm l, by decide, by decide,
   @from_rules_deterministic id List.reverse 30 exC8Rules exC8Dfa exC8Dfa
     (fun l => List.Perm.refl l) (fun l => List.reverse_perm l) (by decide) (by decide)⟩

/-- The name shape C9 claims, `[A-Za-z][A-Za-z0-9_]*`, written out from the
spec's words for comparison with `parse_name`. -/
def matchesAsciiName : List Char → Bool
  | [] => false
  | c :: rest =>
      (('A' ≤ c && c ≤ 'Z') || ('a' ≤ c && c ≤ 'z')) &&
      rest.all (fun c2 => ('A' ≤ c2 && c2 ≤ 'Z') || ('a' ≤ c2 && c2 ≤ 'z') ||
        ('0' ≤ c2 && c2 ≤ '9') || c2 == '_')

/-- Counterexample to C9 as stated: `parse_name` accepts the Greek letter
`α` as a whole rule name (Rust's `is_alphabetic` is Unicode-wide), but `α`
does not match `[A-Za-z][A-Za-z0-9_]*`. -/
theorem parse_name_spec_cex :
    parse_name ['α'] = some ([], ['α']) ∧ matchesAsciiName ['α'] = false := by
  constructor
  · decide
  · decide

/-- C9 (amended) — name syntax: `parse_name` consumes a whole string exactly
when it is non-empty, begins with a Unicode-alphabetic character, and
continues with Unicode-alphanumerics or underscores; every string matching
`[A-Za-z][A-Za-z0-9_]*` qualifies, but so do non-ASCII names such as `α`. -/
theorem parse_name_spec (src : List Char) :
    (parse_name src = some ([], src) ↔
      ∃ c rest, src = c :: rest ∧ rust_is_alphabetic c = true ∧
        ∀ c2 ∈ rest, (rust_is_alphanumeric c2 || c2 == '_') = true) ∧
    (matchesAsciiName src = true → parse_name src = some ([], src)) := by
  have htakeSelf : ∀ (P : Char → Bool) (l : List Char), (∀ c2 ∈ l, P c2 = true) →
      l.takeWhile P = l := by
    intro P l
    induction l with
    | nil => intro _; rfl
    | cons x xs ih =>
      intro hall
      rw [List.takeWhile_cons, if_pos (hall x (List.mem_cons_self _ _))]
      rw [ih (fun c2 h2 => hall c2 (List.mem_cons_of_mem _ h2))]
  have hchar : ∀ src : List Char, parse_name src = some ([], src) ↔
      ∃ c rest, src = c :: rest ∧ rust_is_alphabetic c = true ∧
        ∀ c2 ∈ rest, (rust_is_alphanumeric c2 || c2 == '_') = true := by
    intro src
    constructor
    · intro h
      cases src with
      | nil => simp [parse_name, ptake1] at h
      | cons c rest =>
        rw [parse_name, ptake1] at h
        by_cases hc : rust_is_alphabetic c = true
        · refine ⟨c, rest, rfl, hc, ?_⟩
          intro c2 hc2
          rw [if_pos hc] at h
          replace h : some (rest.dropWhile (fun c => rust_is_alphanumeric c || c == '_'),
              [c] ++ rest.takeWhile (fun c => rust_is_alphanumeric c || c == '_')) =
              some ([], c :: rest) := h
          rw [Option.some_inj, Prod.mk.injEq] at h
          have hdrop := h.1
          rw [List.dropWhile_eq_nil_iff] at hdrop
          exact hdrop c2 hc2
        · rw [if_neg hc] at h
          cases h
    · rintro ⟨c, rest, rfl, hc, hall⟩
      have hdrop : rest.dropWhile (fun c => rust_is_alphanumeric c || c == '_') = [] :=
        List.dropWhile_eq_nil_iff.mpr hall
      have htake := htakeSelf (fun c => rust_is_alphanumeric c || c == '_') rest hall
      rw [parse_name, ptake1, if_pos hc]
      show some (rest.dropWhile (fun c => rust_is_alphanumeric c || c == '_'),
          [c] ++ rest.takeWhile (fun c => rust_is_alphanumeric c || c == '_')) = _
      rw [hdrop, htake]
      rfl
  refine ⟨hchar src, ?_⟩
  intro h
  cases src with
  | nil => cases h
  | cons c rest =>
    rw [matchesAsciiName, Bool.and_eq_true] at h
    refine (hchar (c :: rest)).mpr ⟨c, rest, rfl, ?_, ?_⟩
    · have h1 := h.1
      rw [rust_is_alphabetic]
      simp only [Bool.or_eq_true] at h1 ⊢
      tauto
    · intro c2 hc2
      have h2 := (List.all_eq_true.mp h.2) c2 hc2
      rw [rust_is_alphanumeric, rust_is_alphabetic, rust_is_numeric]
      simp only [Bool.or_eq_true] at h2 ⊢
      tauto

theorem parse_name_spec_witness :
    (parse_name ['a', 'b', '1', '_'] = some ([], ['a', 'b', '1', '_']) ↔
      ∃ c rest, ['a', 'b', '1', '_'] = c :: rest ∧ rust_is_alphabetic c = true ∧
        ∀ c2 ∈ rest, (rust_is_alphanumeric c2 || c2 == '_') = true) ∧
    (matchesAsciiName ['a', 'b', '1', '_'] = true →
      parse_name ['a', 'b', '1', '_'] = some ([], ['a', 'b', '1', '_'])) :=
  parse_name_spec ['a', 'b', '1', '_']

theorem alphabet_prefix_order_witness :
    exC6Rules.foldlM (fun acc r => get_ranges_from_element r.element acc) [] =
      some [('b', 'b')] ∧
    rangePoints [('b', 'b')] = [98] ∧
    construct_alphabet exC6Rules = some [(0, 0), (1, 97), (98, 98), (99, 1114111)] ∧
    (1 ≤ 98 ∧
     ((98 : Nat) = 1 →
       [((0 : Nat), (0 : Nat)), (1, 97), (98, 98), (99, 1114111)].take 2 = [(0, 0), (1, 1)]) ∧
     (2 ≤ 98 →
       [((0 : Nat), (0 : Nat)), (1, 97), (98, 98), (99, 1114111)].take 3 =
         [(0, 0), (1, 97), (98, 98)])) :=
  ⟨by decide, by decide, by decide,
   @alphabet_prefix_order exC6Rules [(0, 0), (1, 97), (98, 98), (99, 1114111)]
     [('b', 'b')] 98 [] (by decide) (by decide) (by decide)⟩

end Parge
